import Mathlib

/-!
Verification of tsdextractor, the text-and-symbol-density article extractor:
a shallow embedding of `extractor.go`, `content.go` and `title.go`.

* Go strings are lists of code points (`Str`); `utf8.RuneCountInString` is the
  list length and `len(s) == 0` is emptiness.
* An `html.Node` is a `Node`: its type, its data, its attributes and the list
  of its children.  A `*goquery.Selection` that is only read is the list of
  the nodes it holds, each with the chain of its ancestors (the `Parent`
  pointers).
* `normalize` mutates the document in place.  There the document is a forest
  of nodes that carry an identity (`WNode`), a selection is the list of the
  identities it holds, and every step passes the forest on explicitly.
* A `float64` is an `F64`: a rational (rounding is not modelled), an infinity
  or NaN.
* The functions of other packages whose result is not determined by the
  definitions here (the HTML parser and serializer, `unicode.ToLower`, the
  logarithms) and the functions of this package whose file is not among the
  sources (`timeExtract`, `authorExtract`, `std`) are the fields of `Lib`.
-/

namespace Tsd

/-- A Go string, as the list of its code points. -/
abbrev Str := List Char

/-! ## `strings`, `unicode`, `regexp` -/

/-- The code points `unicode.IsSpace` accepts. -/
def isSpace (c : Char) : Bool :=
  (9 ≤ c.toNat && c.toNat ≤ 13) || c.toNat == 32 || c.toNat == 0x85 || c.toNat == 0xA0
    || c.toNat == 0x1680 || (0x2000 ≤ c.toNat && c.toNat ≤ 0x200A) || c.toNat == 0x2028
    || c.toNat == 0x2029 || c.toNat == 0x202F || c.toNat == 0x205F || c.toNat == 0x3000

/-- The function `strings.TrimSpace`: leading and trailing white space removed. -/
def TrimSpace (s : Str) : Str :=
  ((s.dropWhile isSpace).reverse.dropWhile isSpace).reverse

/-- The function `strings.Contains`: `sub` occurs in `s`. -/
def Contains (s sub : Str) : Bool :=
  s.tails.any fun t => sub.isPrefixOf t

/-- The function `strings.Join`. -/
def Join : List Str → Str → Str
  | [], _ => []
  | [a], _ => a
  | a :: b :: rest, sep => a ++ sep ++ Join (b :: rest) sep

/-- The byte length `len(s)` of a Go string holding these code points. -/
def byteLen (s : Str) : Nat :=
  (s.map Char.utf8Size).sum

/-- The class `\s` of Go regular expressions: `[\t\n\f\r ]`. -/
def isRxSpace (c : Char) : Bool :=
  c == '\t' || c == '\n' || c == '\x0c' || c == '\r' || c == ' '

/-- The length of the match of `ctnRx1` at the start of `s`.  The pattern is
compiled from the text `/[\n\r]/g`, slashes and `g` included: it matches a
slash, one newline or carriage return, a slash and the letter g. -/
def ctnRx1 (s : Str) : Option Nat :=
  match s with
  | a :: c :: b :: g :: _ =>
    if a == '/' && (c == '\n' || c == '\r') && b == '/' && g == 'g' then some 4 else none
  | _ => none

/-- The length of the match of `ctnRx2` at the start of `s`.  The pattern is
compiled from the text `/\s{1,}/g`: a slash, one or more `\s`, a slash and the
letter g.  No `\s` is a slash, so the greedy run is the only candidate. -/
def ctnRx2 (s : Str) : Option Nat :=
  match s with
  | a :: rest =>
    if a == '/' && 0 < (rest.takeWhile isRxSpace).length
        && (rest.dropWhile isRxSpace).take 2 == ['/', 'g'] then
      some ((rest.takeWhile isRxSpace).length + 3)
    else none
  | [] => none

/-- The loop of `ReplaceAllString`: `skip` code points of a match are still to
be dropped. -/
def replaceAllFrom (rx : Str → Option Nat) (repl : Str) : Nat → Str → Str
  | _, [] => []
  | skip + 1, _ :: cs => replaceAllFrom rx repl skip cs
  | 0, c :: cs =>
    match rx (c :: cs) with
    | some n => repl ++ replaceAllFrom rx repl (n - 1) cs
    | none => c :: replaceAllFrom rx repl 0 cs

/-- The method `(*Regexp).ReplaceAllString` for a pattern that matches no empty
string: the leftmost matches, not overlapping, are each replaced by `repl`. -/
def ReplaceAllString (rx : Str → Option Nat) (src repl : Str) : Str :=
  replaceAllFrom rx repl 0 src

/-- The expression `titleRx.Split(s, -1)[0]` for `titleRx = "_|\\|"`: the part of
`s` before the first `_` or `|`. -/
def titleRxSplitHead (s : Str) : Str :=
  s.takeWhile fun c => !(c == '_' || c == '|')

/-! ## `float64` -/

/-- A `float64`: a finite value, `+Inf`, `-Inf` or NaN. -/
inductive F64 where
  | fin (q : ℚ)
  | pinf
  | ninf
  | nan
  deriving DecidableEq

namespace F64

/-- The conversion `float64(i)` of an `int`. -/
def ofInt (i : Int) : F64 := fin i

/-- The quotient `a / b` of two `float64`. -/
def div : F64 → F64 → F64
  | nan, _ => nan
  | _, nan => nan
  | fin a, fin b =>
    if b = 0 then (if a = 0 then nan else if 0 < a then pinf else ninf) else fin (a / b)
  | fin _, pinf => fin 0
  | fin _, ninf => fin 0
  | pinf, fin b => if 0 ≤ b then pinf else ninf
  | ninf, fin b => if 0 ≤ b then ninf else pinf
  | pinf, pinf => nan
  | pinf, ninf => nan
  | ninf, pinf => nan
  | ninf, ninf => nan

/-- The product `a * b` of two `float64`. -/
def mul : F64 → F64 → F64
  | nan, _ => nan
  | _, nan => nan
  | fin a, fin b => fin (a * b)
  | fin a, pinf => if a = 0 then nan else if 0 < a then pinf else ninf
  | fin a, ninf => if a = 0 then nan else if 0 < a then ninf else pinf
  | pinf, fin b => if b = 0 then nan else if 0 < b then pinf else ninf
  | ninf, fin b => if b = 0 then nan else if 0 < b then ninf else pinf
  | pinf, pinf => pinf
  | pinf, ninf => ninf
  | ninf, pinf => ninf
  | ninf, ninf => pinf

/-- The function `math.Abs`. -/
def Abs : F64 → F64
  | fin a => fin |a|
  | pinf => pinf
  | ninf => pinf
  | nan => nan

/-- The function `math.IsNaN`. -/
def IsNaN : F64 → Bool
  | nan => true
  | _ => false

/-- The function `math.IsInf(f, sign)`. -/
def IsInf (f : F64) (sign : Int) : Bool :=
  match f with
  | pinf => decide (0 ≤ sign)
  | ninf => decide (sign ≤ 0)
  | _ => false

/-- The comparison `a > b` of two `float64`: false when either is NaN. -/
def gt : F64 → F64 → Bool
  | nan, _ => false
  | _, nan => false
  | fin a, fin b => decide (b < a)
  | fin _, pinf => false
  | fin _, ninf => true
  | pinf, pinf => false
  | pinf, _ => true
  | ninf, _ => false

/-- The comparison `a == b` of two `float64`: false when either is NaN. -/
def eq : F64 → F64 → Bool
  | fin a, fin b => decide (a = b)
  | pinf, pinf => true
  | ninf, ninf => true
  | _, _ => false

end F64

/-! ## `html.Node` and the read-only part of `goquery` -/

/-- The node types of `golang.org/x/net/html`. -/
inductive NodeType where
  | ErrorNode
  | TextNode
  | DocumentNode
  | ElementNode
  | CommentNode
  | DoctypeNode
  deriving DecidableEq, Repr

/-- An entry of `html.Node.Attr`. -/
structure Attribute where
  Key : Str
  Val : Str
  deriving DecidableEq, Repr

/-- An `html.Node`: `Type`, `Data`, `Attr` and the children, from `FirstChild`
along `NextSibling`. -/
inductive Node where
  | mk (type : NodeType) (data : Str) (attr : List Attribute) (children : List Node)
  deriving Repr

namespace Node

/-- The field `Type`. -/
def type : Node → NodeType
  | mk t _ _ _ => t

/-- The field `Data`. -/
def data : Node → Str
  | mk _ d _ _ => d

/-- The field `Attr`. -/
def attr : Node → List Attribute
  | mk _ _ a _ => a

/-- The children, in order. -/
def children : Node → List Node
  | mk _ _ _ cs => cs

end Node

/-- A node pointer that is only read: the node and its ancestors, the parent
first and the root last. -/
structure Ptr where
  node : Node
  up : List Node

/-- A `*goquery.Selection` that is only read: the pointers in `Nodes`. -/
abbrev Selection := List Ptr

/-- A compiled selector.  The selectors of this package are groups of tag
names, as `span,strong,em,b`, and the text `.//*`, which is no CSS selector:
`cascadia.Compile` rejects it and goquery's `compileMatcher` then returns the
matcher that matches no node. -/
inductive Matcher where
  | tags (names : List Str)
  | invalid

/-- Whether the matcher accepts the node: a tag selector accepts the element
nodes whose `Data` is the tag. -/
def Matcher.Match : Matcher → Node → Bool
  | .tags names, n => n.type == NodeType.ElementNode && names.contains n.data
  | .invalid, _ => false

mutual
/-- The text of a node as goquery's `getNodeText` computes it: the data of a
text node, otherwise the concatenation of the texts of the children. -/
def getNodeText : Node → Str
  | .mk t d _ cs => if t = NodeType.TextNode then d else getNodeTextList cs
/-- The concatenated text of sibling nodes. -/
def getNodeTextList : List Node → Str
  | [] => []
  | c :: cs => getNodeText c ++ getNodeTextList cs
end

mutual
/-- A node and its descendants in document order, each with its ancestors: the
order in which `iteratorNode` visits them. -/
def walkNode (up : List Node) : Node → List Ptr
  | .mk t d a cs => ⟨.mk t d a cs, up⟩ :: walkList (.mk t d a cs :: up) cs
/-- The walk of sibling nodes, one after the other. -/
def walkList (up : List Node) : List Node → List Ptr
  | [] => []
  | c :: cs => walkNode up c ++ walkList up cs
end

/-- The method `Selection.Contents`: the children of the nodes of `s`. -/
def Contents (s : Selection) : Selection :=
  s.flatMap fun p => p.node.children.map fun c => ⟨c, p.node :: p.up⟩

/-- The method `Selection.Children`: the element children of the nodes of `s`. -/
def Children (s : Selection) : Selection :=
  (Contents s).filter fun c => c.node.type == NodeType.ElementNode

/-- The method `Selection.Parent`: the parents of the nodes of `s`. -/
def Parent (s : Selection) : Selection :=
  s.filterMap fun p =>
    match p.up with
    | [] => none
    | u :: rest => some ⟨u, rest⟩

/-- The method `Selection.Text`: the texts of the nodes of `s`, concatenated. -/
def Text (s : Selection) : Str :=
  getNodeTextList (s.map Ptr.node)

/-- The function `goquery.NodeName`: the empty string for an empty selection,
the data of a first node that is an element or a doctype, and the fixed name of
its type otherwise. -/
def NodeName (s : Selection) : Str :=
  match s with
  | [] => []
  | p :: _ =>
    match p.node.type with
    | .ElementNode => p.node.data
    | .DoctypeNode => p.node.data
    | .ErrorNode => "#error".toList
    | .TextNode => "#text".toList
    | .DocumentNode => "#document".toList
    | .CommentNode => "#comment".toList

/-- The method `Selection.Attr`: the value of the first attribute of that name
on the first node, `none` when the selection is empty or has none. -/
def Attr (s : Selection) (name : Str) : Option Str :=
  match s with
  | [] => none
  | p :: _ => (p.node.attr.find? fun a => a.Key == name).map Attribute.Val

/-- The method `Selection.Find`: the descendants of the nodes of `s` that the
matcher accepts, in document order.  goquery starts from the element children
of each node and lists a node once; the nodes of the selections built here do
not lie inside one another, so no node is met twice. -/
def Find (s : Selection) (m : Matcher) : Selection :=
  ((Children s).flatMap fun c => walkNode c.up c.node).filter fun d => m.Match d.node

/-- The function `iterator` with `iteratorNode`: the selection itself, then
every descendant of its nodes as a selection of its own, in document order. -/
def iterator (s : Selection) : List Selection :=
  s :: ((Contents s).flatMap fun c => walkNode c.up c.node).map fun d => [d]

/-! ## The package's types and the functions taken as parameters -/

/-- The type `textDensity` of `content.go`. -/
structure textDensity where
  density : F64
  tiText : Str
  ti : Int
  lti : Int
  tgi : Int
  ltgi : Int
  pi : Int

/-- The type `nodeInfo` of `content.go`. -/
structure nodeInfo where
  density : textDensity
  node : Selection
  sbdi : F64
  textTagCount : Int
  score : F64

/-- The type `infos` of `content.go`. -/
abbrev infos := List nodeInfo

/-- The type `headEntry` of `extractor.go`. -/
structure headEntry where
  key : Str
  val : Str
  deriving DecidableEq

/-- The type `Article` of `extractor.go`. -/
structure Article where
  Title : Str
  Images : List Str
  Author : Str
  PublishTime : Str
  Content : Str
  ContentHTML : Str

/-- The functions the package calls and the sources do not define.
`NewDocumentFromReader` parses a document (or fails with a message),
`parseHtmlWithContext html name` parses a fragment inside an element called
`name`, `Html` serializes a selection, `ToLower` is `unicode.ToLower`, `Log` and
`Log10` are `math.Log` and `math.Log10`; `std`, `timeExtract` and
`authorExtract` belong to this package, in files that are not among the
sources. -/
structure Lib where
  NewDocumentFromReader : Str → Except Str Node
  parseHtmlWithContext : Str → Str → List Node
  Html : Selection → Str
  ToLower : Char → Char
  Log : F64 → F64
  Log10 : F64 → F64
  std : List F64 → F64
  timeExtract : List headEntry → Selection → Str
  authorExtract : List headEntry → Selection → Str

/-! ## `content.go` -/

/-- The method `infos.Less`, on the two entries compared. -/
def infos.Less (a b : nodeInfo) : Bool :=
  F64.gt a.score b.score

/-- The inner loop of Go's `insertionSort`: `x` moves towards the front past
every element it is less than.  The sorted part is held last element first. -/
def insertBack {α : Type} (less : α → α → Bool) (x : α) : List α → List α
  | [] => [x]
  | y :: ys => if less x y then y :: insertBack less x ys else x :: y :: ys

/-- The functions `sort.Sort` and `sort.Slice`, as the insertion sort that Go
runs on a slice of at most twelve elements.  On a longer slice Go runs another
unstable sort; it too returns a permutation ordered by `less`. -/
def sortSort {α : Type} (less : α → α → Bool) (l : List α) : List α :=
  (l.foldl (fun acc x => insertBack less x acc) []).reverse

/-- The function `needSkipLtgi`. -/
def needSkipLtgi (ti lti : Int) : Bool :=
  if lti = 0 then false else decide (ti.tdiv lti > 10)

/-- The function `countTag`. -/
def countTag (elements : Selection) (excludeEmpty : Bool) : Int :=
  if excludeEmpty then
    (iterator elements).foldl
      (fun tagCount v =>
        if (NodeName v = "p".toList ∨ NodeName v = "span".toList) ∧ (Text v).length = 0 then
          tagCount
        else tagCount + 1)
      0
  else (elements.length : Int)

/-- The body of the loops of `getAllTiText` and `getAllLtiText`: the text of
`v` after both replacements and `TrimSpace`. -/
def cleanText (v : Selection) : Str :=
  TrimSpace (ReplaceAllString ctnRx2 (ReplaceAllString ctnRx1 (Text v) " ".toList) " ".toList)

/-- The function `getAllTiText`. -/
def getAllTiText (s : Selection) : List Str :=
  (iterator s).foldl
    (fun result v =>
      match v with
      | p :: _ =>
        if p.node.type = NodeType.TextNode then
          (if (cleanText v).length > 0 then result ++ [cleanText v] else result)
        else result
      | [] => result)
    []

/-- The function `getAllLtiText`. -/
def getAllLtiText (s : Selection) : List Str :=
  (iterator s).foldl
    (fun result v =>
      if NodeName v = "a".toList then
        (if (cleanText v).length > 0 then result ++ [cleanText v] else result)
      else result)
    []

/-- The function `countTextTag`. -/
def countTextTag (s : Selection) : Int :=
  ((Find s (.tags ["p".toList])).length : Int)

/-- The function `calcTextDensity`. -/
def calcTextDensity (s : Selection) : textDensity :=
  let tiText := Join (getAllTiText s) "\n".toList
  let ti : Int := tiText.length
  let lti : Int := (Join (getAllLtiText s) "\n".toList).length
  let tgi := countTag (Find s .invalid) true
  let ltgi : Int := (Find s (.tags ["a".toList])).length
  let pi := countTextTag s
  let result : textDensity :=
    { density := F64.ofInt 0, tiText := tiText, ti := ti - lti, lti := lti, tgi := tgi,
      ltgi := ltgi, pi := pi }
  if tgi - ltgi = 0 then
    if !needSkipLtgi ti pi then result
    else
      { result with
        density := F64.Abs (F64.div (F64.ofInt (ti - lti)) (F64.ofInt (tgi - 0))) }
  else
    { result with
      density := F64.Abs (F64.div (F64.ofInt (ti - lti)) (F64.ofInt (tgi - ltgi))) }

/-- The code points of the string `punctuation` in `countPunctuation`. -/
def punctuation : Str :=
  "！，。？、；：“”‘’《》%（）,.?:;!%()".toList ++ [Char.ofNat 39, Char.ofNat 34]

/-- The function `countPunctuation`: the code points of `text` that occur in
`punctuation`. -/
def countPunctuation (text : Str) : Int :=
  text.foldl (fun result v => if punctuation.contains v then result + 1 else result) 0

/-- The function `calcSbdi`. -/
def calcSbdi (density : textDensity) : F64 :=
  let sbi := countPunctuation density.tiText
  let sbdi := F64.div (F64.ofInt (density.ti - density.lti)) (F64.ofInt (sbi + 1))
  if F64.eq sbdi (F64.ofInt 0) then F64.ofInt 1 else sbdi

/-- The function `calcDensityStd`. -/
def calcDensityStd (lib : Lib) (info : infos) : F64 :=
  lib.std (info.map fun v => v.density.density)

/-- The body of the loop of `calcNewScore`: the score given to one entry. -/
def newScore (lib : Lib) (v : nodeInfo) : F64 :=
  let score :=
    F64.mul (F64.mul v.density.density (lib.Log10 (F64.ofInt (v.textTagCount + 2))))
      (lib.Log v.sbdi)
  if F64.IsNaN score || F64.IsInf score 1 || F64.IsInf score (-1) then F64.ofInt 0 else score

/-- The function `calcNewScore`; `std` is not used. -/
def calcNewScore (lib : Lib) (info : infos) (_std : F64) : infos :=
  info.map fun v => { v with score := newScore lib v }

/-- The entry `contentExtract` builds for the node `v`, before scoring. -/
def nodeInfoOf (v : Selection) : nodeInfo :=
  { density := calcTextDensity v, node := v, sbdi := calcSbdi (calcTextDensity v),
    textTagCount := countTextTag v, score := F64.ofInt 0 }

/-- The function `contentExtract`; `none` stands for the run-time panic of
`info[0]` on an empty slice. -/
def contentExtract (lib : Lib) (body : Selection) : Option nodeInfo :=
  let info : infos := (iterator body).map nodeInfoOf
  let std := calcDensityStd lib info
  let info := calcNewScore lib info std
  (sortSort infos.Less info).head?

/-! ## The document while `normalize` mutates it -/

/-- An `html.Node` with an identity: the number stands for the address of the
node, so that a selection taken before a mutation still names the same node
after it. -/
inductive WNode where
  | mk (id : Nat) (type : NodeType) (data : Str) (attr : List Attribute) (kids : List WNode)

/-- The identity of a node. -/
def WNode.id : WNode → Nat
  | .mk i _ _ _ _ => i

/-- The nodes in memory: the trees whose root has no parent.  The document is
the first; a node that `Remove` detaches becomes the root of a further tree. -/
abbrev Dom := List WNode

mutual
/-- Numbers the nodes of a tree in document order, from `next` on; returns the
tree and the first number not used. -/
def labelNode (next : Nat) : Node → WNode × Nat
  | .mk t d a cs => (.mk next t d a (labelList (next + 1) cs).1, (labelList (next + 1) cs).2)
/-- Numbers sibling trees one after the other. -/
def labelList (next : Nat) : List Node → List WNode × Nat
  | [] => ([], next)
  | c :: cs =>
    ((labelNode next c).1 :: (labelList (labelNode next c).2 cs).1,
      (labelList (labelNode next c).2 cs).2)
end

/-- The memory that holds the tree `n` and nothing else; its root is node 1. -/
def load (n : Node) : Dom :=
  [(labelNode 1 n).1]

mutual
/-- The tree below a node, identities dropped. -/
def erase : WNode → Node
  | .mk _ t d a ks => .mk t d a (eraseList ks)
/-- The trees below sibling nodes. -/
def eraseList : List WNode → List Node
  | [] => []
  | k :: ks => erase k :: eraseList ks
end

mutual
/-- A tree the parser has just built: its nodes are in no selection taken
earlier, and carry the number 0, which `labelNode` never gives. -/
def fresh : Node → WNode
  | .mk t d a cs => .mk 0 t d a (freshList cs)
/-- Sibling trees the parser has just built. -/
def freshList : List Node → List WNode
  | [] => []
  | c :: cs => fresh c :: freshList cs
end

mutual
/-- The node `id` inside a tree, read with its ancestors. -/
def locateNode (id : Nat) (up : List Node) : WNode → Option Ptr
  | .mk i t d a ks =>
    if i = id then some ⟨erase (.mk i t d a ks), up⟩
    else locateList id (erase (.mk i t d a ks) :: up) ks
/-- The node `id` inside sibling trees. -/
def locateList (id : Nat) (up : List Node) : List WNode → Option Ptr
  | [] => none
  | k :: ks =>
    match locateNode id up k with
    | some p => some p
    | none => locateList id up ks
end

/-- The selection with the nodes `ids`, as it reads in the memory `dom`. -/
def deref (dom : Dom) (ids : List Nat) : Selection :=
  ids.filterMap fun i => locateList i [] dom

mutual
/-- The node `id` inside a tree. -/
def getNode (id : Nat) : WNode → Option WNode
  | .mk i t d a ks => if i = id then some (.mk i t d a ks) else getList id ks
/-- The node `id` inside sibling trees. -/
def getList (id : Nat) : List WNode → Option WNode
  | [] => none
  | k :: ks =>
    match getNode id k with
    | some n => some n
    | none => getList id ks
end

/-- The children of the node `id`. -/
def kidsOf (dom : Dom) (id : Nat) : List WNode :=
  match getList id dom with
  | some (.mk _ _ _ _ ks) => ks
  | none => []

mutual
/-- The identities of a node and its descendants, in document order. -/
def walkIds : WNode → List Nat
  | .mk i _ _ _ ks => i :: walkIdsList ks
/-- The identities in sibling trees. -/
def walkIdsList : List WNode → List Nat
  | [] => []
  | k :: ks => walkIds k ++ walkIdsList ks
end

mutual
/-- The identities of the nodes the matcher accepts among a node and its
descendants, in document order. -/
def matchIds (m : Matcher) : WNode → List Nat
  | .mk i t d a ks =>
    (if m.Match (.mk t d a (eraseList ks)) then [i] else []) ++ matchIdsList m ks
/-- The accepted nodes in sibling trees. -/
def matchIdsList (m : Matcher) : List WNode → List Nat
  | [] => []
  | k :: ks => matchIds m k ++ matchIdsList m ks
end

/-- The function `iterator` on a selection that will be mutated: the selection
itself, then every descendant of its nodes as a selection of its own. -/
def iteratorIds (dom : Dom) (s : List Nat) : List (List Nat) :=
  s :: (s.flatMap fun i => walkIdsList (kidsOf dom i)).map fun d => [d]

/-- The method `Selection.Find` on a selection that will be mutated: the
identities of the descendants the matcher accepts, in document order. -/
def FindIds (dom : Dom) (s : List Nat) (m : Matcher) : List Nat :=
  s.flatMap fun i =>
    ((kidsOf dom i).filter fun k => (erase k).type == NodeType.ElementNode).flatMap (matchIds m)

mutual
/-- Takes the node `id` out of the children lists below a node and puts the
trees `new` in its place; returns the tree and what was taken out. -/
def spliceNode (id : Nat) (new : List WNode) : WNode → WNode × List WNode
  | .mk i t d a ks => (.mk i t d a (spliceList id new ks).1, (spliceList id new ks).2)
/-- Takes the node `id` out of a children list or from below it. -/
def spliceList (id : Nat) (new : List WNode) : List WNode → List WNode × List WNode
  | [] => ([], [])
  | k :: ks =>
    if k.id = id then (new ++ ks, [k])
    else ((spliceNode id new k).1 :: (spliceList id new ks).1,
      (spliceNode id new k).2 ++ (spliceList id new ks).2)
end

/-- Replaces the node `id` in its parent by the trees `new`; the node becomes a
root.  A node without a parent stays where it is and `new` is dropped. -/
def splice (id : Nat) (new : List WNode) (dom : Dom) : Dom :=
  (dom.map fun r => (spliceNode id new r).1) ++ dom.flatMap fun r => (spliceNode id new r).2

/-- The method `Selection.Remove`: every node of `s` that has a parent is taken
out of it. -/
def Remove (dom : Dom) (s : List Nat) : Dom :=
  s.foldl (fun d n => splice n [] d) dom

/-- The method `Selection.ReplaceWithHtml`: for every node of `s` that has a
parent, the text is parsed in the context of the parent, the parsed nodes are
put before the next sibling, and the node is removed. -/
def ReplaceWithHtml (lib : Lib) (dom : Dom) (s : List Nat) (htmlStr : Str) : Dom :=
  s.foldl
    (fun d n =>
      match Parent (deref d [n]) with
      | [] => d
      | ctx :: _ => splice n (freshList (lib.parseHtmlWithContext htmlStr (NodeName [ctx]))) d)
    dom

/-! ## `extractor.go` -/

/-- The variable `ignoreTag`. -/
def ignoreTag : List Str :=
  ["style", "script", "link", "video", "iframe", "source", "picture", "header",
    "noscript"].map String.toList

/-- The variable `ignoreClass`. -/
def ignoreClass : List Str :=
  ["share", "contribution", "copyright", "copy-right", "disclaimer", "recommend", "related",
    "footer", "comment", "social", "submeta", "report-infor"].map String.toList

/-- The variable `canBeRemoveIfEmpty`. -/
def canBeRemoveIfEmpty : List Str :=
  ["section", "h1", "h2", "h3", "h4", "h5", "h6", "span"].map String.toList

/-- The function `canBeRemove`. -/
def canBeRemove (lib : Lib) (s : Selection) : Bool :=
  canBeRemoveIfEmpty.any fun v =>
    (NodeName s).map lib.ToLower == v && decide ((Children s).length ≤ 0)
      && TrimSpace (Text s) == []

/-- The body of the second loop of `normalize`, for the node `v` of the
iteration.  The `continue` in the loop over `ignoreClass` continues that inner
loop, so the steps for `p` follow a removal by class. -/
def normalizeVisit (lib : Lib) (dom : Dom) (v : List Nat) : Dom :=
  let tagName := NodeName (deref dom v)
  if tagName = "#comment".toList then Remove dom v
  else if canBeRemove lib (deref dom v) then Remove dom v
  else
    let dom1 :=
      match Attr (deref dom v) "class".toList with
      | some val => ignoreClass.foldl (fun d cls => if Contains val cls then Remove d v else d) dom
      | none => dom
    let dom2 :=
      if tagName = "p".toList then
        (FindIds dom1 v (.tags (["span", "strong", "em", "b"].map String.toList))).foldl
          (fun d child => ReplaceWithHtml lib d [child] (Text (deref d [child])))
          dom1
      else dom1
    if NodeName (deref dom2 v) = "p".toList then
      if (Children (deref dom2 v)).length ≤ 0 ∧ (TrimSpace (Text (deref dom2 v))).length = 0 then
        Remove dom2 v
      else dom2
    else dom2

/-- The function `normalize`, on the memory `dom` and the selection `element`
in it; returns the memory after the mutation. -/
def normalize (lib : Lib) (dom : Dom) (element : List Nat) : Dom :=
  let dom1 := ignoreTag.foldl (fun d v => Remove d (FindIds d element (.tags [v]))) dom
  (iteratorIds dom1 element).foldl (normalizeVisit lib) dom1

/-- The loop of `headTextExtract` over the attributes of a `meta` node:
returns `key` and `val` as they stand after the loop. -/
def metaKeyVal (lib : Lib) : List Attribute → Str → Str → Str × Str
  | [], key, val => (key, val)
  | v2 :: rest, key, val =>
    if v2.Key = "charset".toList ∨ v2.Key = "http-equiv".toList then ([], val)
    else if v2.Key = "name".toList ∨ v2.Key = "property".toList then
      metaKeyVal lib rest (v2.Val.map lib.ToLower) val
    else if v2.Key = "content".toList then metaKeyVal lib rest key v2.Val
    else metaKeyVal lib rest key val

/-- The entries one node of the iteration adds to `rs` in `headTextExtract`. -/
def metaEntries (lib : Lib) (v : Selection) : List headEntry :=
  if NodeName v ≠ "meta".toList then []
  else
    v.flatMap fun n =>
      let kv := metaKeyVal lib n.node.attr [] []
      if kv.1 ≠ [] ∧ kv.2 ≠ [] then
        (if 2 ≤ (TrimSpace kv.2).length ∧ (TrimSpace kv.2).length ≤ 50 then [⟨kv.1, kv.2⟩]
        else [])
      else []

/-- The function `headTextExtract`; `dom` is the selection of the document. -/
def headTextExtract (lib : Lib) (dom : Selection) : List headEntry :=
  let head := Find dom (.tags ["head".toList])
  let rs := (iterator head).flatMap (metaEntries lib)
  sortSort (fun a b => decide (byteLen a.key > byteLen b.key)) rs

/-! ## `title.go` -/

/-- The variable `titlePx`. -/
def titlePx : List Str :=
  ["articletitle", ":title", "title"].map String.toList

/-- The function `findHtag`.  The recursion goes on with the parents of the
nodes of `content`; every step up shortens the chains of ancestors, so the sum
of their lengths decreases and the recursion ends. -/
def findHtag (content : Selection) : Str × Bool :=
  let parent := Parent content
  let htag := Find parent (.tags (["h1", "h2", "h3", "h4"].map String.toList))
  if htag.length > 0 then (Text (htag.take 1), true)
  else if _ : parent.length < 1 ∨ parent.head?.any (fun p => p.up.isEmpty) = true then
    ([], false)
  else findHtag parent
termination_by (content.map fun p => p.up.length).sum
decreasing_by
  rename_i h
  have key : ∀ c : Selection,
      ((Parent c).map fun p => p.up.length).sum ≤ (c.map fun p => p.up.length).sum
        ∧ (Parent c ≠ [] →
          ((Parent c).map fun p => p.up.length).sum < (c.map fun p => p.up.length).sum) := by
    intro c
    induction c with
    | nil => exact ⟨Nat.le_refl _, fun h => absurd rfl h⟩
    | cons a as ih =>
      obtain ⟨n, up⟩ := a
      cases up with
      | nil =>
        have e : Parent (⟨n, []⟩ :: as) = Parent as := rfl
        rw [e]
        simp only [List.map_cons, List.sum_cons, List.length_nil, Nat.zero_add]
        exact ih
      | cons u r =>
        have e : Parent (⟨n, u :: r⟩ :: as) = ⟨u, r⟩ :: Parent as := rfl
        rw [e]
        simp only [List.map_cons, List.sum_cons, List.length_cons]
        constructor
        · omega
        · intro _
          omega
  refine (key content).2 fun e => h (Or.inl ?_)
  show (Parent content).length < 1
  rw [e]
  exact Nat.zero_lt_one

/-- The function `titleExtractFromHTML`. -/
def titleExtractFromHTML (content : Selection) : Str :=
  (findHtag content).1

/-- The first loop of `titleExtract`: the title the head entries give, if any. -/
def titleFromHead : List headEntry → Option Str
  | [] => none
  | v :: rest =>
    if titlePx.any fun px =>
        Contains v.key px && TrimSpace (titleRxSplitHead v.val) != [] then
      some (TrimSpace (titleRxSplitHead v.val))
    else titleFromHead rest

/-- The function `titleExtract`. -/
def titleExtract (headText : List headEntry) (source content : Selection) : Str :=
  match titleFromHead headText with
  | some title => title
  | none =>
    let titleNode := Find source (.tags ["title".toList])
    if titleNode.length > 0 ∧ TrimSpace (titleRxSplitHead (Text titleNode)) ≠ [] then
      TrimSpace (titleRxSplitHead (Text titleNode))
    else titleExtractFromHTML content

/-! ## `Extract` -/

/-- How a call can fail: the error the parser returned, or a run-time panic. -/
inductive Failure where
  | parse (msg : Str)
  | panic

/-- The memory after `normalize(body)`, for the parsed document `doc`. -/
def normalizedDom (lib : Lib) (doc : Node) : Dom :=
  normalize lib (load doc) (FindIds (load doc) [1] (.tags ["body".toList]))

/-- The selection `body` of `Extract` after `normalize(body)`. -/
def normalizedBody (lib : Lib) (doc : Node) : Selection :=
  deref (normalizedDom lib doc) (FindIds (load doc) [1] (.tags ["body".toList]))

/-- The function `Extract`.  The three goroutines only read, and each writes
fields of its own, so they are run one after the other. -/
def Extract (lib : Lib) (source : Str) : Except Failure Article :=
  match lib.NewDocumentFromReader source with
  | .error e => .error (.parse e)
  | .ok doc =>
    let dom := deref (normalizedDom lib doc) [1]
    let body := normalizedBody lib doc
    let headText := headTextExtract lib dom
    match contentExtract lib body with
    | none => .error .panic
    | some content =>
      .ok
        { Title := titleExtract headText dom content.node
          Images :=
            (Find content.node (.tags ["img".toList])).filterMap fun s => Attr [s] "src".toList
          Author := lib.authorExtract headText body
          PublishTime := lib.timeExtract headText body
          Content := content.density.tiText
          ContentHTML := lib.Html content.node }

/-! ## Definitions used by the statements -/

/-- The value of a finite `float64`, and 0 for the others. -/
def F64.val : F64 → ℚ
  | .fin q => q
  | _ => 0

/-- The entry of the node `v` after `calcNewScore`. -/
def scoreOf (lib : Lib) (v : Selection) : nodeInfo :=
  { nodeInfoOf v with score := newScore lib (nodeInfoOf v) }

/-- A text node, for the examples. -/
def Node.text (s : String) : Node := .mk .TextNode s.toList [] []

/-- An element without attributes, for the examples. -/
def Node.elem (tag : String) (children : List Node) : Node :=
  .mk .ElementNode tag.toList [] children

/-- The node of `<div>hello<a>x</a></div>`. -/
def exLinkDiv : Selection :=
  [⟨.elem "div" [.text "hello", .elem "a" [.text "x"]], []⟩]

/-- The node of `<div><p>twelve chars</p><a>x</a></div>`. -/
def exParaLink : Selection :=
  [⟨.elem "div" [.elem "p" [.text "twelve chars"], .elem "a" [.text "x"]], []⟩]

/-- The document of
`<html><head><title>Other</title></head><body><h1>Heading</h1><p>Text.</p></body></html>`. -/
def exTitleDoc : Node :=
  .mk .DocumentNode [] []
    [.elem "html"
      [.elem "head" [.elem "title" [.text "Other"]],
        .elem "body" [.elem "h1" [.text "Heading"], .elem "p" [.text "Text."]]]]

/-- The tree of a node after `normalize` ran on the selection that holds that
node and no other. -/
def normalizeTree (lib : Lib) (t : Node) : Node :=
  match deref (normalize lib (load t) [1]) [1] with
  | p :: _ => p.node
  | [] => t

/-- Whether a step of `normalizeVisit` applies to the node of `s`. -/
def fires (lib : Lib) (s : Selection) : Bool :=
  NodeName s == "#comment".toList || canBeRemove lib s
    || (match Attr s "class".toList with
        | some val => ignoreClass.any fun cls => Contains val cls
        | none => false)
    || (NodeName s == "p".toList
        && (!(Find s (.tags (["span", "strong", "em", "b"].map String.toList))).isEmpty
          || (decide ((Children s).length ≤ 0) && decide ((TrimSpace (Text s)).length = 0))))

/-- The code point `unicode.ToLower` gives for an ASCII letter; other code
points are left as they are. -/
def asciiToLower (c : Char) : Char :=
  if 65 ≤ c.toNat ∧ c.toNat ≤ 90 then Char.ofNat (c.toNat + 32) else c

/-- A stand-in with the sign of the logarithm: for a positive `q` the value
`(q - 1) / q`, which is negative below 1, zero at 1 and positive above 1. -/
def signLog : F64 → F64
  | .fin q => if 0 < q then .fin ((q - 1) / q) else if q = 0 then .ninf else .nan
  | .pinf => .pinf
  | .ninf => .nan
  | .nan => .nan

/-- The library the examples are evaluated with.  The parser returns `doc` for
every source.  The fragment parser returns no node for the empty text, the
`script` element for the text `<script>alert(1)</script>` and one text node for
any other text, as `html.ParseFragment` does for a text without `<` and `&`.
`ToLower` is `unicode.ToLower` on ASCII; `Log` and `Log10` are `signLog`; the
remaining functions return empty values. -/
def evalLib (doc : Node) : Lib where
  NewDocumentFromReader := fun _ => .ok doc
  parseHtmlWithContext := fun h _ =>
    if h = [] then []
    else if h = "<script>alert(1)</script>".toList then [.elem "script" [.text "alert(1)"]]
    else [.mk .TextNode h [] []]
  Html := fun _ => []
  ToLower := asciiToLower
  Log := signLog
  Log10 := signLog
  std := fun _ => .fin 0
  timeExtract := fun _ _ => []
  authorExtract := fun _ _ => []

/-- The body of `<body><section><p></p></section></body>`. -/
def exSection : Node :=
  .elem "body" [.elem "section" [.elem "p" []]]

/-- The body of `<body><p><span>&lt;script&gt;alert(1)&lt;/script&gt;</span></p></body>`:
the text node holds the characters `<script>alert(1)</script>`. -/
def exScript : Node :=
  .elem "body" [.elem "p" [.elem "span" [.text "<script>alert(1)</script>"]]]

/-- Both replacements leave only white space in `x`. -/
def blank (x : Str) : Prop :=
  ∀ c ∈ ReplaceAllString ctnRx2 (ReplaceAllString ctnRx1 x " ".toList) " ".toList,
    isSpace c = true

/-- The test of `getAllTiText`: a text node whose cleaned text is not empty. -/
def tiTest (v : Selection) : Bool :=
  match v with
  | p :: _ => decide (p.node.type = NodeType.TextNode) && decide ((cleanText v).length > 0)
  | [] => false

/-- The descendants of the nodes of `s`, in the order of `iterator`. -/
def descendants (s : Selection) : List Ptr :=
  (Contents s).flatMap fun c => walkNode c.up c.node

/-- The document of `<html><head></head><body>...<br></body></html>`. -/
def exDotsDoc : Node :=
  .mk .DocumentNode [] []
    [.elem "html" [.elem "head" [], .elem "body" [.text "...", .elem "br" []]]]

/-- The divisor at the division of `calcTextDensity`; `none` when the function
returns before the division. -/
def densityDivisor (s : Selection) : Option Int :=
  let tiText := Join (getAllTiText s) "\n".toList
  let ti : Int := tiText.length
  let tgi := countTag (Find s .invalid) true
  let ltgi : Int := (Find s (.tags ["a".toList])).length
  let pi := countTextTag s
  if tgi - ltgi = 0 then
    if !needSkipLtgi ti pi then none else some (tgi - 0)
  else some (tgi - ltgi)

/-- In the words of the specification: the number of descendant elements of
the nodes of `s`, not counting a `p` or `span` whose text is empty. -/
def specTgi (s : Selection) : Nat :=
  ((descendants s).filter fun d =>
    d.node.type == NodeType.ElementNode
      && !((d.node.data == "p".toList || d.node.data == "span".toList)
        && (getNodeText d.node).isEmpty)).length

/-- The node of `<div><p>a</p><p>b</p></div>`. -/
def exTwoParas : Selection :=
  [⟨.elem "div" [.elem "p" [.text "a"], .elem "p" [.text "b"]], []⟩]

/-- The node of `<p>a  b` followed by a line break and `c</p>`: its text node holds two
consecutive spaces and a newline. -/
def exSpaces : Selection :=
  [⟨.elem "p" [.text "a  b\nc"], []⟩]

/-- The node of `<div><a>hello</a></div>`. -/
def exAllLink : Selection :=
  [⟨.elem "div" [.elem "a" [.text "hello"]], []⟩]

/-- The proper ancestors of a node as pointers, the parent first and the root
last, from the chain of its ancestors. -/
def ancestors : List Node → List Ptr
  | [] => []
  | u :: rest => ⟨u, rest⟩ :: ancestors rest

/-- In the words of the specification: the text of the first `h1`..`h4`
descendant of the nearest proper ancestor that has one, with the flag true, and
the empty string with the flag false when no proper ancestor has one. -/
def findHtagSpec (content : Ptr) : Str × Bool :=
  match (ancestors content.up).find? fun a =>
      !(Find [a] (.tags (["h1", "h2", "h3", "h4"].map String.toList))).isEmpty with
  | some a => (Text ((Find [a] (.tags (["h1", "h2", "h3", "h4"].map String.toList))).take 1), true)
  | none => ([], false)

/-- A `meta` element with the given attributes, for the examples. -/
def Node.metaTag (attrs : List (String × String)) : Node :=
  .mk .ElementNode "meta".toList (attrs.map fun a => ⟨a.1.toList, a.2.toList⟩) []

/-- The document of `<html><head><meta name="description" content="ab..."></head>
<body></body></html>`, where the content is `ab` followed by sixty spaces. -/
def exPaddedMeta : Node :=
  .mk .DocumentNode [] []
    [.elem "html"
      [.elem "head"
          [.mk .ElementNode "meta".toList
            [⟨"name".toList, "description".toList⟩,
              ⟨"content".toList, "ab".toList ++ List.replicate 60 ' '⟩] []],
        .elem "body" []]]

/-- The document of `<html><head><meta name="articletitle" content="Article">
<meta property="twitter:title" content="Tweet"></head><body></body></html>`. -/
def exRivalMeta : Node :=
  .mk .DocumentNode [] []
    [.elem "html"
      [.elem "head"
          [.metaTag [("name", "articletitle"), ("content", "Article")],
            .metaTag [("property", "twitter:title"), ("content", "Tweet")]],
        .elem "body" []]]

/-- The document of `<html><head></head><frameset></frameset></html>`: the parser
builds no `body` for a frameset page. -/
def exFrameset : Node :=
  .mk .DocumentNode [] [] [.elem "html" [.elem "head" [], .elem "frameset" []]]

/-- An `img` element with the given attributes, for the examples. -/
def Node.img (attrs : List (String × String)) : Node :=
  .mk .ElementNode "img".toList (attrs.map fun a => ⟨a.1.toList, a.2.toList⟩) []

/-- The document of `<html><head></head><body><p>A picture story, told twice.
<img src="a.png"><img alt="none"><img src="a.png"></p></body></html>`. -/
def exImgDoc : Node :=
  .mk .DocumentNode [] []
    [.elem "html"
      [.elem "head" [],
        .elem "body"
          [.elem "p"
            [.text "A picture story, told twice.", .img [("src", "a.png")],
              .img [("alt", "none")], .img [("src", "a.png")]]]]]

/-! ### Definitions for the second run of `normalize` -/

/-- The children of a node in memory. -/
def WNode.kids : WNode → List WNode
  | .mk _ _ _ _ ks => ks

/-- A node without its children: the type, the data and the attributes. -/
def Node.shell : Node → Node
  | .mk t d a _ => .mk t d a []

mutual
/-- A node in memory and its descendants, in document order. -/
def subW : WNode → List WNode
  | .mk i t d a ks => .mk i t d a ks :: subWList ks
/-- The nodes of sibling trees in memory. -/
def subWList : List WNode → List WNode
  | [] => []
  | k :: ks => subW k ++ subWList ks
end

/-- The identities of the nodes in memory that have a parent. -/
def kidIds (dom : Dom) : List Nat :=
  dom.flatMap fun r => walkIdsList r.kids

/-- The identity of every node in memory with its type, data and attributes. -/
def records (dom : Dom) : List (Nat × Node) :=
  (subWList dom).map fun x => (x.id, (erase x).shell)

/-- The test of the loop over `ignoreClass`: the first node has a class attribute
that contains an entry of the list. -/
def classHit (s : Selection) : Bool :=
  match Attr s "class".toList with
  | some val => ignoreClass.any fun cls => Contains val cls
  | none => false

/-- Whether `normalize` removes the node for its name or its class alone: a
comment, or a class attribute that contains an entry of `ignoreClass`. -/
def removedByName (n : Node) : Bool :=
  NodeName [⟨n, []⟩] == "#comment".toList || classHit [⟨n, []⟩]

/-- An element with a tag of `ignoreTag`. -/
def blocklisted (n : Node) : Bool :=
  n.type == NodeType.ElementNode && ignoreTag.contains n.data

/-- A node that `normalize` removes when it is empty: a name of
`canBeRemoveIfEmpty` after `ToLower`, or the name `p`. -/
def emptiable (lib : Lib) (n : Node) : Bool :=
  canBeRemoveIfEmpty.contains ((NodeName [⟨n, []⟩]).map lib.ToLower)
    || NodeName [⟨n, []⟩] == "p".toList

/-- The test for an empty node in `canBeRemove` and in the last step for `p`: no
element child, and no text other than white space. -/
def hollow (n : Node) : Bool :=
  decide ((Children [⟨n, []⟩]).length ≤ 0) && TrimSpace (Text [⟨n, []⟩]) == []

/-- Whether the second loop of `normalize` removes the node when it visits it: for
its name or class, or because it can be removed when empty and is empty. -/
def removedAtVisit (lib : Lib) (n : Node) : Bool :=
  removedByName n || (emptiable lib n && hollow n)

/-- A child `c` of `parent` that no step of `normalize` removes and that keeps
`parent` from being empty: an element that is not removed for its name, class or
tag or for being empty, or a text node with text other than white space. -/
def stays (lib : Lib) (parent c : Node) : Bool :=
  !removedByName c && !blocklisted c
    && ((c.type == NodeType.ElementNode && !(emptiable lib c && hollow c))
      || (c.type == NodeType.TextNode && parent.type != NodeType.TextNode
        && TrimSpace c.data != []))

/-- The condition on one node.  If it can be removed when empty, then it is
removed for its name or class anyway, or it is empty, or it has a child that
stays; and if it is a `p`, it has no `span`, `strong`, `em` or `b` descendant. -/
def good (lib : Lib) (n : Node) : Bool :=
  (!emptiable lib n || removedByName n || hollow n || n.children.any (stays lib n))
    && (!(NodeName [⟨n, []⟩] == "p".toList)
      || (Find [⟨n, []⟩] (.tags (["span", "strong", "em", "b"].map String.toList))).isEmpty)

/-- A tree all of whose nodes meet the condition `good`: no node that
`normalize` removes when empty can become empty through the removal of other
nodes, and no text is parsed again. -/
def steady (lib : Lib) (t : Node) : Bool :=
  (walkNode [] t).all fun p => good lib p.node

/-- What `normalize` keeps true of the memory `d` it reached from `d0`: the same
nodes with the same types, data and attributes, each identity once, every node
`good`, and the node 1 at the root of the first tree. -/
def Inv (lib : Lib) (d0 d : Dom) : Prop :=
  (records d).Perm (records d0) ∧ (walkIdsList d).Nodup
    ∧ (∀ x ∈ subWList d, good lib (erase x) = true)
    ∧ ∃ r rest, d = r :: rest ∧ r.id = 1

/-- The memory `d2` is `d1` after nodes were taken out of their parents: no node
became a child, below the node 1 no node and no match was added, and a node
that had a child that stays still has one. -/
def Shrunk (lib : Lib) (d1 d2 : Dom) : Prop :=
  kidIds d2 ⊆ kidIds d1
    ∧ (∀ m, FindIds d2 [1] m ⊆ FindIds d1 [1] m)
    ∧ walkIdsList (kidsOf d2 1) ⊆ walkIdsList (kidsOf d1 1)
    ∧ ∀ x2 ∈ subWList d2, ∃ x1 ∈ subWList d1, x1.id = x2.id
        ∧ ((erase x1).children.any (stays lib (erase x1)) = true →
          (erase x2).children.any (stays lib (erase x2)) = true)

/-- The nodes of a tree in document order, each with its type, its data, its
attributes and the number of its children: the tree, written as a list. -/
def outline (n : Node) : List (NodeType × Str × List Attribute × Nat) :=
  (walkNode [] n).map fun p => (p.node.type, p.node.data, p.node.attr, p.node.children.length)

/-- The body of `<body class="comments-open"><div><span></span>text</div><p></p>
<div class="share-box"><span>x</span></div><!--c--><script>s</script><h1>T</h1>
<section><p>a</p><p> </p></section></body>`. -/
def exMixed : Node :=
  .mk .ElementNode "body".toList [⟨"class".toList, "comments-open".toList⟩]
    [.elem "div" [.elem "span" [], .text "text"], .elem "p" [],
      .mk .ElementNode "div".toList [⟨"class".toList, "share-box".toList⟩]
        [.elem "span" [.text "x"]],
      .mk .CommentNode "c".toList [] [], .elem "script" [.text "s"], .elem "h1" [.text "T"],
      .elem "section" [.elem "p" [.text "a"], .elem "p" [.text " "]]]

/-! ## Theorems -/

/-! ### Sorting -/

theorem insertBack_perm {α : Type} (less : α → α → Bool) (x : α) (l : List α) :
    (insertBack less x l).Perm (x :: l) := by
  induction l with
  | nil => simp [insertBack]
  | cons y ys ih =>
    unfold insertBack
    split_ifs
    · exact (List.Perm.cons y ih).trans (List.Perm.swap x y ys)
    · exact List.Perm.refl _

theorem foldl_insertBack_perm {α : Type} (less : α → α → Bool) (l acc : List α) :
    (l.foldl (fun acc x => insertBack less x acc) acc).Perm (l ++ acc) := by
  induction l generalizing acc with
  | nil => simp
  | cons x xs ih =>
    simp only [List.foldl_cons, List.cons_append]
    refine (ih _).trans ?_
    refine (List.perm_append_left_iff xs |>.mpr (insertBack_perm less x acc)).trans ?_
    exact List.perm_middle

theorem sortSort_perm {α : Type} (less : α → α → Bool) (l : List α) :
    (sortSort less l).Perm l := by
  unfold sortSort
  refine (List.reverse_perm _).trans ?_
  simpa using foldl_insertBack_perm less l []

theorem insertBack_pairwise {α : Type} (less : α → α → Bool) (key : α → ℚ) (x : α)
    (l : List α) (hl : ∀ y ∈ l, less x y = decide (key y < key x))
    (hs : l.Pairwise fun a b => key a ≤ key b) :
    (insertBack less x l).Pairwise fun a b => key a ≤ key b := by
  induction l with
  | nil => simp [insertBack]
  | cons y ys ih =>
    rw [List.pairwise_cons] at hs
    unfold insertBack
    have hy := hl y (List.mem_cons_self _ _)
    split_ifs with h
    · rw [hy, decide_eq_true_eq] at h
      rw [List.pairwise_cons]
      refine ⟨?_, ih (fun z hz => hl z (List.mem_cons_of_mem _ hz)) hs.2⟩
      intro z hz
      rcases List.mem_cons.mp ((insertBack_perm less x ys).mem_iff.mp hz) with rfl | hz
      · exact le_of_lt h
      · exact hs.1 z hz
    · rw [hy, decide_eq_true_eq, not_lt] at h
      rw [List.pairwise_cons]
      refine ⟨?_, List.pairwise_cons.mpr hs⟩
      intro z hz
      rcases List.mem_cons.mp hz with rfl | hz
      · exact h
      · exact le_trans h (hs.1 z hz)

theorem foldl_insertBack_pairwise {α : Type} (less : α → α → Bool) (key : α → ℚ)
    (l acc : List α)
    (hl : ∀ x ∈ l ++ acc, ∀ y ∈ l ++ acc, less x y = decide (key y < key x))
    (hs : acc.Pairwise fun a b => key a ≤ key b) :
    (l.foldl (fun acc x => insertBack less x acc) acc).Pairwise fun a b => key a ≤ key b := by
  induction l generalizing acc with
  | nil => simpa using hs
  | cons x xs ih =>
    simp only [List.foldl_cons]
    apply ih
    · intro a ha b hb
      have hmem : ∀ c, c ∈ xs ++ insertBack less x acc → c ∈ x :: xs ++ acc := by
        intro c hc
        rcases List.mem_append.mp hc with h | h
        · simp [h]
        · rcases List.mem_cons.mp ((insertBack_perm less x acc).mem_iff.mp h) with rfl | h
          · simp
          · simp [h]
      exact hl a (hmem a ha) b (hmem b hb)
    · apply insertBack_pairwise less key x acc _ hs
      intro y hy
      exact hl x (by simp) y (by simp [hy])

/-- On a non-empty list whose comparisons are those of a rational key, the
sort puts an element of greatest key first. -/
theorem sortSort_head_max {α : Type} (less : α → α → Bool) (key : α → ℚ) (l : List α)
    (hl : ∀ x ∈ l, ∀ y ∈ l, less x y = decide (key y < key x)) (hne : l ≠ []) :
    ∃ r, (sortSort less l).head? = some r ∧ r ∈ l ∧ ∀ v ∈ l, key v ≤ key r := by
  have hp := sortSort_perm less l
  have hs : (sortSort less l).Pairwise fun a b => key b ≤ key a := by
    unfold sortSort
    rw [List.pairwise_reverse]
    exact foldl_insertBack_pairwise less key l [] (by simpa using hl) List.Pairwise.nil
  cases hsl : sortSort less l with
  | nil =>
    rw [hsl] at hp
    exact absurd (List.Perm.nil_eq hp).symm hne
  | cons r t =>
    rw [hsl] at hp hs
    refine ⟨r, rfl, hp.mem_iff.mp (List.mem_cons_self _ _), ?_⟩
    intro v hv
    rcases List.mem_cons.mp (hp.mem_iff.mpr hv) with rfl | hv
    · exact le_rfl
    · exact (List.pairwise_cons.mp hs).1 v hv

/-! ### Scores -/

theorem newScore_finite (lib : Lib) (v : nodeInfo) : ∃ q, newScore lib v = F64.fin q := by
  unfold newScore
  generalize F64.mul (F64.mul v.density.density (lib.Log10 (F64.ofInt (v.textTagCount + 2))))
      (lib.Log v.sbdi) = x
  cases x <;> simp [F64.IsNaN, F64.IsInf, F64.ofInt]

theorem iterator_ne_nil (s : Selection) : iterator s ≠ [] := by
  simp [iterator]

/-- The list `contentExtract` sorts: every node of the iteration with its score. -/
theorem contentExtract_eq (lib : Lib) (body : Selection) :
    contentExtract lib body = (sortSort infos.Less ((iterator body).map (scoreOf lib))).head? := by
  unfold contentExtract calcNewScore
  simp only [List.map_map]
  rfl

theorem Less_eq_key (lib : Lib) (l : List Selection) :
    ∀ x ∈ l.map (scoreOf lib), ∀ y ∈ l.map (scoreOf lib),
      infos.Less x y = decide (F64.val y.score < F64.val x.score) := by
  intro x hx y hy
  obtain ⟨vx, -, rfl⟩ := List.mem_map.mp hx
  obtain ⟨vy, -, rfl⟩ := List.mem_map.mp hy
  obtain ⟨qx, hqx⟩ := newScore_finite lib (nodeInfoOf vx)
  obtain ⟨qy, hqy⟩ := newScore_finite lib (nodeInfoOf vy)
  simp [infos.Less, scoreOf, hqx, hqy, F64.gt, F64.val]

theorem scoreOf_score (lib : Lib) (v : Selection) :
    (scoreOf lib v).score = newScore lib (nodeInfoOf v) := rfl

theorem scoreOf_node (lib : Lib) (v : Selection) : (scoreOf lib v).node = v := rfl

/-- The node `contentExtract` returns: one of the iteration, with its score,
and no node of the iteration has a greater score. -/
theorem contentExtract_spec (lib : Lib) (body : Selection) :
    ∃ v0 ∈ iterator body, contentExtract lib body = some (scoreOf lib v0)
      ∧ ∀ v ∈ iterator body,
          F64.val (newScore lib (nodeInfoOf v)) ≤ F64.val (newScore lib (nodeInfoOf v0)) := by
  have hne : (iterator body).map (scoreOf lib) ≠ [] := by
    simp [iterator]
  obtain ⟨r, hr, hmem, hmax⟩ :=
    sortSort_head_max infos.Less (fun v => F64.val v.score) ((iterator body).map (scoreOf lib))
      (Less_eq_key lib (iterator body)) hne
  obtain ⟨v0, hv0, rfl⟩ := List.mem_map.mp hmem
  refine ⟨v0, hv0, (contentExtract_eq lib body).trans hr, ?_⟩
  intro v hv
  have := hmax (scoreOf lib v) (List.mem_map_of_mem _ hv)
  simpa only [scoreOf_score] using this

/-- C2: `contentExtract` returns the entry of one of the nodes that
`iterator(body)` enumerates, scored as `calcNewScore` scores it, and that score
is greater than or equal to the score of every enumerated node. -/
theorem contentExtract_max (lib : Lib) (body : Selection) :
    ∃ r, contentExtract lib body = some r ∧ r.node ∈ iterator body
      ∧ r.score = newScore lib (nodeInfoOf r.node)
      ∧ ∀ v ∈ iterator body, ∃ q qv, r.score = F64.fin q
          ∧ newScore lib (nodeInfoOf v) = F64.fin qv ∧ qv ≤ q := by
  obtain ⟨v0, hv0, hr, hmax⟩ := contentExtract_spec lib body
  refine ⟨scoreOf lib v0, hr, hv0, rfl, ?_⟩
  intro v hv
  obtain ⟨q0, hq0⟩ := newScore_finite lib (nodeInfoOf v0)
  obtain ⟨qv, hqv⟩ := newScore_finite lib (nodeInfoOf v)
  refine ⟨q0, qv, hq0, hqv, ?_⟩
  have := hmax v hv
  simpa [hq0, hqv, F64.val] using this

/-- C3: every score `calcNewScore` assigns, and so the score of the entry
`contentExtract` returns, is finite: `math.IsNaN` and both `math.IsInf` tests are
false on it, whatever the density, the tag count, the symbol density and the
logarithms are. -/
theorem calcNewScore_finite (lib : Lib) (info : infos) (std : F64) (body : Selection) :
    (calcNewScore lib info std).all
        (fun v => !F64.IsNaN v.score && !F64.IsInf v.score 1 && !F64.IsInf v.score (-1)) = true
      ∧ (contentExtract lib body).all
        (fun v => !F64.IsNaN v.score && !F64.IsInf v.score 1 && !F64.IsInf v.score (-1)) = true := by
  constructor
  · rw [List.all_eq_true]
    intro v hv
    obtain ⟨w, -, rfl⟩ := List.mem_map.mp hv
    obtain ⟨q, hq⟩ := newScore_finite lib w
    simp [hq, F64.IsNaN, F64.IsInf]
  · obtain ⟨v0, -, hr, -⟩ := contentExtract_spec lib body
    obtain ⟨q, hq⟩ := newScore_finite lib (nodeInfoOf v0)
    rw [hr]
    simp [scoreOf_score, hq, F64.IsNaN, F64.IsInf]

/-! ### Text density -/

theorem Find_invalid (s : Selection) : Find s .invalid = [] := by
  simp [Find, Matcher.Match]

theorem tgi_eq_one (s : Selection) : countTag (Find s .invalid) true = 1 := by
  rw [Find_invalid]
  decide

theorem abs_div_ofInt (a b : Int) (hb : b ≠ 0) :
    F64.Abs (F64.div (F64.ofInt a) (F64.ofInt b)) = F64.fin |(a : ℚ) / (b : ℚ)| := by
  have hb' : (b : ℚ) ≠ 0 := by exact_mod_cast hb
  simp [F64.ofInt, F64.div, F64.Abs, hb']

theorem calcTextDensity_fields (s : Selection) :
    (calcTextDensity s).tiText = Join (getAllTiText s) "\n".toList
      ∧ (calcTextDensity s).lti = ((Join (getAllLtiText s) "\n".toList).length : Int)
      ∧ (calcTextDensity s).ti = ((Join (getAllTiText s) "\n".toList).length : Int)
          - ((Join (getAllLtiText s) "\n".toList).length : Int)
      ∧ (calcTextDensity s).tgi = 1
      ∧ (calcTextDensity s).ltgi = ((Find s (.tags ["a".toList])).length : Int)
      ∧ (calcTextDensity s).pi = countTextTag s := by
  unfold calcTextDensity
  simp only [tgi_eq_one]
  split_ifs <;> simp

/-- The density in terms of the counts. -/
theorem density_eq (s : Selection) :
    (calcTextDensity s).density =
      if 1 - ((Find s (.tags ["a".toList])).length : Int) = 0 then
        if needSkipLtgi (Join (getAllTiText s) "\n".toList).length (countTextTag s) then
          F64.Abs (F64.div
            (F64.ofInt ((Join (getAllTiText s) "\n".toList).length
              - (Join (getAllLtiText s) "\n".toList).length)) (F64.ofInt 1))
        else F64.ofInt 0
      else
        F64.Abs (F64.div
            (F64.ofInt ((Join (getAllTiText s) "\n".toList).length
              - (Join (getAllLtiText s) "\n".toList).length))
            (F64.ofInt (1 - ((Find s (.tags ["a".toList])).length : Int)))) := by
  unfold calcTextDensity
  simp only [tgi_eq_one]
  split_ifs <;> simp_all

/-- C4: the density field of `calcTextDensity(s)` is a finite number greater
than or equal to 0, in the branch `tgi == ltgi` and in the general branch. -/
theorem calcTextDensity_density_nonneg (s : Selection) :
    ∃ q : ℚ, (calcTextDensity s).density = F64.fin q ∧ 0 ≤ q := by
  rw [density_eq]
  split_ifs with h1 h2
  · exact ⟨_, abs_div_ofInt _ 1 one_ne_zero, abs_nonneg _⟩
  · exact ⟨0, by simp [F64.ofInt], le_rfl⟩
  · exact ⟨_, abs_div_ofInt _ _ h1, abs_nonneg _⟩

theorem needSkipLtgi_false_iff (ti lti : Int) :
    needSkipLtgi ti lti = false ↔ (lti = 0 ∨ ti.tdiv lti ≤ 10) := by
  unfold needSkipLtgi
  by_cases h : lti = 0
  · simp [h]
  · simp [h]

/-- C6: `calcTextDensity(s)` stores the newline-joined text of `getAllTiText(s)`
as `tiText`, the code-point count L of the newline-joined text of
`getAllLtiText(s)` as `lti`, the count of `countTag` as `tgi`, the number of `a`
descendants as `ltgi` and the number of `p` descendants as `pi`; with T the
code-point count of `tiText`: if `tgi != ltgi` the density is
`|(T - L) / (tgi - ltgi)|`; if `tgi == ltgi` it is 0 when `pi == 0` or `T / pi` is at
most 10, and `|(T - L) / tgi|` otherwise. -/
theorem calcTextDensity_formula (s : Selection) :
    (calcTextDensity s).tiText = Join (getAllTiText s) "\n".toList
      ∧ (calcTextDensity s).lti = ((Join (getAllLtiText s) "\n".toList).length : Int)
      ∧ (calcTextDensity s).tgi = countTag (Find s .invalid) true
      ∧ (calcTextDensity s).ltgi = ((Find s (.tags ["a".toList])).length : Int)
      ∧ (calcTextDensity s).pi = countTextTag s
      ∧ (calcTextDensity s).density =
        if countTag (Find s .invalid) true ≠ ((Find s (.tags ["a".toList])).length : Int) then
          F64.Abs (F64.div
            (F64.ofInt (((Join (getAllTiText s) "\n".toList).length : Int)
              - ((Join (getAllLtiText s) "\n".toList).length : Int)))
            (F64.ofInt (countTag (Find s .invalid) true
              - ((Find s (.tags ["a".toList])).length : Int))))
        else if countTextTag s = 0
            ∨ ((Join (getAllTiText s) "\n".toList).length : Int).tdiv (countTextTag s) ≤ 10 then
          F64.ofInt 0
        else
          F64.Abs (F64.div
            (F64.ofInt (((Join (getAllTiText s) "\n".toList).length : Int)
              - ((Join (getAllLtiText s) "\n".toList).length : Int)))
            (F64.ofInt (countTag (Find s .invalid) true))) := by
  obtain ⟨h1, h2, -, h4, h5, h6⟩ := calcTextDensity_fields s
  refine ⟨h1, h2, h4.trans (tgi_eq_one s).symm, h5, h6, ?_⟩
  rw [density_eq, tgi_eq_one]
  by_cases hl : (1 : Int) - ((Find s (.tags ["a".toList])).length : Int) = 0
  · have hl' : ¬ (1 : Int) ≠ ((Find s (.tags ["a".toList])).length : Int) := by omega
    rw [if_pos hl, if_neg hl']
    cases hn : needSkipLtgi (↑(Join (getAllTiText s) "\n".toList).length) (countTextTag s)
    · rw [if_pos ((needSkipLtgi_false_iff _ _).mp hn)]; simp
    · have : ¬ (countTextTag s = 0
          ∨ ((Join (getAllTiText s) "\n".toList).length : Int).tdiv (countTextTag s) ≤ 10) := by
        intro h
        rw [← needSkipLtgi_false_iff, hn] at h
        exact Bool.noConfusion h
      rw [if_neg this]; simp
  · have hl' : (1 : Int) ≠ ((Find s (.tags ["a".toList])).length : Int) := by omega
    rw [if_neg hl, if_pos hl']

/-- C5, amended: for a node with `tgi == ltgi` the density goes through the
`ltgi := 0` branch, `|(T - L) / tgi|`, when `needSkipLtgi`, called with the
character count and the paragraph count, reports a ratio above 10, and it is 0
when the ratio is at most 10 or the divisor is 0.  Here T is the code-point
count of the newline-joined text of `getAllTiText(s)`, stored as `tiText`, L the
count for `getAllLtiText(s)`, stored as `lti`, `tgi` the count of `countTag` and
`pi` the number of `p` descendants. -/
theorem calcTextDensity_degenerate (s : Selection)
    (h : (calcTextDensity s).tgi = (calcTextDensity s).ltgi) :
    ((calcTextDensity s).density =
      if needSkipLtgi (calcTextDensity s).tiText.length (calcTextDensity s).pi then
        F64.Abs (F64.div
          (F64.ofInt (((calcTextDensity s).tiText.length : Int) - (calcTextDensity s).lti))
          (F64.ofInt (calcTextDensity s).tgi))
      else F64.ofInt 0)
      ∧ (calcTextDensity s).tiText = Join (getAllTiText s) "\n".toList
      ∧ (calcTextDensity s).lti = ((Join (getAllLtiText s) "\n".toList).length : Int)
      ∧ (calcTextDensity s).tgi = countTag (Find s .invalid) true
      ∧ (calcTextDensity s).ltgi = ((Find s (.tags ["a".toList])).length : Int)
      ∧ (calcTextDensity s).pi = countTextTag s := by
  obtain ⟨h1, h2, -, h4, h5, h6⟩ := calcTextDensity_fields s
  refine ⟨?_, h1, h2, h4.trans (tgi_eq_one s).symm, h5, h6⟩
  rw [h4, h5] at h
  rw [h1, h2, h4, h6, density_eq, if_pos (by omega)]

theorem calcTextDensity_degenerate_witness :
    (calcTextDensity exParaLink).tgi = (calcTextDensity exParaLink).ltgi
      ∧ (calcTextDensity exParaLink).density = F64.fin 13
      ∧ (calcTextDensity exParaLink).tiText = "twelve chars\nx".toList
      ∧ (calcTextDensity exParaLink).lti = 1
      ∧ (calcTextDensity exParaLink).pi = 1 :=
  ⟨by decide,
    (calcTextDensity_degenerate exParaLink (by decide)).1.trans (by decide!),
    (calcTextDensity_degenerate exParaLink (by decide)).2.1.trans (by decide),
    (calcTextDensity_degenerate exParaLink (by decide)).2.2.1.trans (by decide),
    (calcTextDensity_degenerate exParaLink (by decide)).2.2.2.2.2.trans (by decide)⟩

/-- C5, counterexample: `<div>hello<a>x</a></div>` has `tgi == ltgi` and a
character-to-link-character ratio of 7, yet its density is 0 and not the value
6 of the `ltgi := 0` branch; `<div><p>twelve chars</p><a>x</a></div>` has
`tgi == ltgi` and a ratio of 14, yet its density is 13 and not 0. -/
theorem calcTextDensity_ratio_inverted :
    ((calcTextDensity exLinkDiv).tgi = (calcTextDensity exLinkDiv).ltgi
      ∧ ((calcTextDensity exLinkDiv).tiText.length : Int).tdiv (calcTextDensity exLinkDiv).lti ≤ 10
      ∧ (calcTextDensity exLinkDiv).density = F64.fin 0
      ∧ F64.Abs (F64.div
          (F64.ofInt (((calcTextDensity exLinkDiv).tiText.length : Int)
            - (calcTextDensity exLinkDiv).lti))
          (F64.ofInt (calcTextDensity exLinkDiv).tgi)) = F64.fin 6)
    ∧ ((calcTextDensity exParaLink).tgi = (calcTextDensity exParaLink).ltgi
      ∧ ((calcTextDensity exParaLink).tiText.length : Int).tdiv (calcTextDensity exParaLink).lti > 10
      ∧ (calcTextDensity exParaLink).density = F64.fin 13) := by
  decide!


/-! ### Symbol density -/

theorem countPunctuation_nonneg (text : Str) : 0 ≤ countPunctuation text := by
  unfold countPunctuation
  suffices h : ∀ (l : Str) (a : Int), 0 ≤ a →
      0 ≤ l.foldl (fun result v => if punctuation.contains v then result + 1 else result) a from
    h text 0 le_rfl
  intro l
  induction l with
  | nil => intro a ha; simpa using ha
  | cons c cs ih =>
    intro a ha
    simp only [List.foldl_cons]
    apply ih
    split_ifs <;> omega

/-- C7: for every `textDensity` value, `calcSbdi` is never 0: it is the quotient
`(ti - lti) / (countPunctuation(tiText) + 1)` when that quotient is not 0, and 1
when the quotient is 0. -/
theorem calcSbdi_ne_zero (d : textDensity) :
    calcSbdi d ≠ F64.ofInt 0
      ∧ calcSbdi d =
        if ((d.ti - d.lti : Int) : ℚ) / ((countPunctuation d.tiText + 1 : Int) : ℚ) = 0 then
          F64.fin 1
        else F64.fin (((d.ti - d.lti : Int) : ℚ) / ((countPunctuation d.tiText + 1 : Int) : ℚ)) := by
  have hp : ((countPunctuation d.tiText + 1 : Int) : ℚ) ≠ 0 := by
    have := countPunctuation_nonneg d.tiText
    have h : countPunctuation d.tiText + 1 ≠ 0 := by omega
    exact_mod_cast h
  have key : calcSbdi d =
      if ((d.ti - d.lti : Int) : ℚ) / ((countPunctuation d.tiText + 1 : Int) : ℚ) = 0 then
        F64.fin 1
      else F64.fin (((d.ti - d.lti : Int) : ℚ) / ((countPunctuation d.tiText + 1 : Int) : ℚ)) := by
    unfold calcSbdi
    simp only [F64.ofInt, F64.div, if_neg hp, F64.eq]
    split_ifs with h1 h2 h3
    · simp
    · exact absurd (by simpa using h1) h2
    · exact absurd (by simpa using h3) h1
    · rfl
  refine ⟨?_, key⟩
  rw [key]
  split_ifs with h
  · simp [F64.ofInt]
  · simpa [F64.ofInt] using h

/-! ### Title -/

theorem isPrefixOf_drop (p q t : Str) (h : (p ++ q).isPrefixOf t = true) :
    q.isPrefixOf (t.drop p.length) = true := by
  induction p generalizing t with
  | nil => simpa using h
  | cons a p ih =>
    cases t with
    | nil => simp [List.isPrefixOf] at h
    | cons b t =>
      simp only [List.cons_append, List.isPrefixOf, Bool.and_eq_true] at h
      simpa using ih t h.2

theorem Contains_append_right (s p q : Str) (h : Contains s (p ++ q) = true) :
    Contains s q = true := by
  unfold Contains at h ⊢
  rw [List.any_eq_true] at h ⊢
  obtain ⟨t, ht, hp⟩ := h
  refine ⟨t.drop p.length, ?_, isPrefixOf_drop p q t hp⟩
  rw [List.mem_tails] at ht ⊢
  exact (List.drop_suffix _ _).trans ht

theorem titlePx_any (key : Str) (b : Bool) :
    (titlePx.any fun px => Contains key px && b) = (Contains key "title".toList && b) := by
  have h1 : Contains key "articletitle".toList = true → Contains key "title".toList = true :=
    Contains_append_right key "article".toList "title".toList
  have h2 : Contains key ":title".toList = true → Contains key "title".toList = true :=
    Contains_append_right key ":".toList "title".toList
  simp only [titlePx, List.map, List.any_cons, List.any_nil, Bool.or_false]
  cases hb : b
  · simp
  · cases h3 : Contains key "title".toList
    · cases h4 : Contains key "articletitle".toList
      · cases h5 : Contains key ":title".toList
        · rfl
        · rw [h2 h5] at h3; exact Bool.noConfusion h3
      · rw [h1 h4] at h3; exact Bool.noConfusion h3
    · simp

theorem titleFromHead_eq (headText : List headEntry) :
    titleFromHead headText =
      (headText.find? fun v =>
        Contains v.key "title".toList && TrimSpace (titleRxSplitHead v.val) != []).map
        fun v => TrimSpace (titleRxSplitHead v.val) := by
  induction headText with
  | nil => rfl
  | cons v rest ih =>
    unfold titleFromHead
    rw [titlePx_any, List.find?_cons]
    cases h : (Contains v.key "title".toList && TrimSpace (titleRxSplitHead v.val) != [])
    · simpa using ih
    · simp

theorem titleRxSplitHead_eq (s : Str) :
    titleRxSplitHead s = s.takeWhile fun c => decide (c ≠ '_' ∧ c ≠ '|') := by
  unfold titleRxSplitHead
  congr 1
  funext c
  by_cases h1 : c = '_' <;> by_cases h2 : c = '|' <;> simp [h1, h2]

/-- C10: if `e` is the first head entry, in list order, whose key contains
`title` and whose value, cut before its first `_` or `|` (the longest prefix
without these two characters) and trimmed, is not empty, then `titleExtract`
returns that cut and trimmed value, whatever the document and the content node
are. -/
theorem titleExtract_meta_first (headText : List headEntry) (source content : Selection)
    (e : headEntry)
    (h : headText.find? (fun v =>
        Contains v.key "title".toList
          && TrimSpace (v.val.takeWhile fun c => decide (c ≠ '_' ∧ c ≠ '|')) != []) = some e) :
    titleExtract headText source content
      = TrimSpace (e.val.takeWhile fun c => decide (c ≠ '_' ∧ c ≠ '|')) := by
  simp only [← titleRxSplitHead_eq] at h ⊢
  unfold titleExtract
  rw [titleFromHead_eq, h]
  rfl

theorem titleExtract_meta_first_witness :
    [(⟨"og:title".toList, "Meta Title | Site".toList⟩ : headEntry)].find? (fun v =>
        Contains v.key "title".toList
          && TrimSpace (v.val.takeWhile fun c => decide (c ≠ '_' ∧ c ≠ '|')) != [])
        = some ⟨"og:title".toList, "Meta Title | Site".toList⟩
      ∧ Text (Find [⟨exTitleDoc, []⟩] (.tags ["title".toList])) = "Other".toList
      ∧ titleExtract [⟨"og:title".toList, "Meta Title | Site".toList⟩] [⟨exTitleDoc, []⟩]
          (Find [⟨exTitleDoc, []⟩] (.tags ["p".toList]))
        = "Meta Title".toList :=
  ⟨by decide, by decide,
    (titleExtract_meta_first _ _ _ ⟨"og:title".toList, "Meta Title | Site".toList⟩
      (by decide)).trans (by decide)⟩

/-! ### `normalize` -/

mutual
theorem erase_labelNode : ∀ (n : Node) (k : Nat), erase (labelNode k n).1 = n
  | .mk t d a cs, k => by
    simp only [labelNode, erase]
    rw [eraseList_labelList cs (k + 1)]
theorem eraseList_labelList : ∀ (cs : List Node) (k : Nat), eraseList (labelList k cs).1 = cs
  | [], _ => rfl
  | c :: cs, k => by
    simp only [labelList, eraseList]
    rw [erase_labelNode c k, eraseList_labelList cs _]
end

mutual
theorem locateNode_mem : ∀ (w : WNode) (d : Nat) (up : List Node) (p : Ptr),
    locateNode d up w = some p → p ∈ walkNode up (erase w)
  | .mk i t dt a ks, d, up, p => by
    intro h
    simp only [locateNode] at h
    simp only [erase, walkNode]
    split_ifs at h with hi
    · simp only [Option.some.injEq] at h
      rw [← h]
      simp [erase]
    · exact List.mem_cons_of_mem _ (locateList_mem ks d _ p (by simpa [erase] using h))
theorem locateList_mem : ∀ (ks : List WNode) (d : Nat) (up : List Node) (p : Ptr),
    locateList d up ks = some p → p ∈ walkList up (eraseList ks)
  | [], _, _, _ => by
    intro h
    simp [locateList] at h
  | k :: ks, d, up, p => by
    intro h
    simp only [locateList] at h
    simp only [eraseList, walkList, List.mem_append]
    cases hk : locateNode d up k with
    | some q =>
      rw [hk] at h
      simp only [Option.some.injEq] at h
      exact Or.inl (locateNode_mem k d up p (by rw [hk, h]))
    | none =>
      rw [hk] at h
      exact Or.inr (locateList_mem ks d up p h)
end

mutual
theorem locateNode_get : ∀ (w : WNode) (d : Nat) (up : List Node) (p : Ptr),
    locateNode d up w = some p → ∃ w', getNode d w = some w' ∧ erase w' = p.node
  | .mk i t dt a ks, d, up, p => by
    intro h
    simp only [locateNode] at h
    simp only [getNode]
    split_ifs at h with hi
    · simp only [Option.some.injEq] at h
      rw [if_pos hi]
      exact ⟨_, rfl, by rw [← h]⟩
    · rw [if_neg hi]
      exact locateList_get ks d _ p h
theorem locateList_get : ∀ (ks : List WNode) (d : Nat) (up : List Node) (p : Ptr),
    locateList d up ks = some p → ∃ w', getList d ks = some w' ∧ erase w' = p.node
  | [], _, _, _ => by
    intro h
    simp [locateList] at h
  | k :: ks, d, up, p => by
    intro h
    simp only [locateList] at h
    simp only [getList]
    cases hk : locateNode d up k with
    | some q =>
      rw [hk] at h
      simp only [Option.some.injEq] at h
      obtain ⟨w', hw, he⟩ := locateNode_get k d up q hk
      rw [hw]
      exact ⟨w', rfl, by rw [he, h]⟩
    | none =>
      rw [hk] at h
      have hg : getNode d k = none := locateNode_none k d up hk
      rw [hg]
      exact locateList_get ks d up p h
theorem locateNode_none : ∀ (w : WNode) (d : Nat) (up : List Node),
    locateNode d up w = none → getNode d w = none
  | .mk i t dt a ks, d, up => by
    intro h
    simp only [locateNode] at h
    simp only [getNode]
    split_ifs at h with hi
    rw [if_neg hi]
    exact locateList_none ks d _ h
theorem locateList_none : ∀ (ks : List WNode) (d : Nat) (up : List Node),
    locateList d up ks = none → getList d ks = none
  | [], _, _ => by
    intro _
    rfl
  | k :: ks, d, up => by
    intro h
    simp only [locateList] at h
    simp only [getList]
    cases hk : locateNode d up k with
    | some q =>
      rw [hk] at h
      exact Option.noConfusion h
    | none =>
      rw [hk] at h
      rw [locateNode_none k d up hk]
      exact locateList_none ks d up h
end

mutual
theorem matchIds_length : ∀ (m : Matcher) (w : WNode) (up : List Node),
    (matchIds m w).length = ((walkNode up (erase w)).filter fun p => m.Match p.node).length
  | m, .mk i t d a ks, up => by
    simp only [matchIds, erase, walkNode, List.length_append, List.filter_cons]
    rw [matchIdsList_length m ks (Node.mk t d a (eraseList ks) :: up)]
    split_ifs
    · simp only [List.length_cons, List.length_nil]; omega
    · simp
theorem matchIdsList_length : ∀ (m : Matcher) (ks : List WNode) (up : List Node),
    (matchIdsList m ks).length =
      ((walkList up (eraseList ks)).filter fun p => m.Match p.node).length
  | _, [], _ => rfl
  | m, k :: ks, up => by
    simp only [matchIdsList, eraseList, walkList, List.length_append, List.filter_append]
    rw [matchIds_length m k up, matchIdsList_length m ks up]
end

theorem erase_type (w : WNode) : (erase w).type = match w with | .mk _ t _ _ _ => t := by
  cases w; rfl

theorem FindIds_kids_length (m : Matcher) (up : List Node) (ks : List WNode) :
    ((ks.filter fun k => (erase k).type == NodeType.ElementNode).flatMap (matchIds m)).length =
      (((((eraseList ks).map fun c => (⟨c, up⟩ : Ptr)).filter fun c =>
          c.node.type == NodeType.ElementNode).flatMap fun c => walkNode c.up c.node).filter
        fun d => m.Match d.node).length := by
  induction ks with
  | nil => rfl
  | cons k ks ih =>
    simp only [eraseList, List.map_cons, List.filter_cons]
    cases h : ((erase k).type == NodeType.ElementNode)
    · simpa using ih
    · simp only [if_true, List.flatMap_cons, List.length_append, List.filter_append]
      rw [ih, matchIds_length m k up]

theorem FindIds_length (dom : Dom) (d : Nat) (p : Ptr) (m : Matcher)
    (h : deref dom [d] = [p]) : (FindIds dom [d] m).length = (Find [p] m).length := by
  have hl : locateList d [] dom = some p := by
    simp only [deref, List.filterMap_cons, List.filterMap_nil] at h
    cases hh : locateList d [] dom with
    | none => rw [hh] at h; exact absurd h (by simp)
    | some q => rw [hh] at h; simpa using h
  obtain ⟨w, hw, he⟩ := locateList_get dom d [] p hl
  cases w with
  | mk i t dt a ks =>
    have hc : p.node.children = eraseList ks := by rw [← he]; rfl
    simp only [FindIds, kidsOf, hw, List.flatMap_cons, List.flatMap_nil, List.append_nil, Find,
      Children, Contents, hc]
    exact FindIds_kids_length m (p.node :: p.up) ks

theorem FindIds_nil (dom : Dom) (d : Nat) (p : Ptr) (m : Matcher)
    (h : deref dom [d] = [p]) (hf : Find [p] m = []) : FindIds dom [d] m = [] := by
  have := FindIds_length dom d p m h
  rw [hf] at this
  exact List.length_eq_zero.mp this

theorem canBeRemove_nil (lib : Lib) : canBeRemove lib [] = false := by
  simp [canBeRemove, canBeRemoveIfEmpty, NodeName]

theorem normalizeVisit_nil (lib : Lib) (dom : Dom) (v : List Nat) (h : deref dom v = []) :
    normalizeVisit lib dom v = dom := by
  have e1 : ¬ (NodeName ([] : Selection) = "#comment".toList) := by decide
  have e3 : ¬ (NodeName ([] : Selection) = "p".toList) := by decide
  unfold normalizeVisit
  simp only [h, if_neg e1, canBeRemove_nil, Attr, if_neg e3, Bool.false_eq_true, if_false]

theorem foldl_class_noop (dom : Dom) (v : List Nat) (val : Str) (l : List Str)
    (h : (l.any fun cls => Contains val cls) = false) :
    l.foldl (fun d cls => if Contains val cls then Remove d v else d) dom = dom := by
  induction l with
  | nil => rfl
  | cons c cs ih =>
    simp only [List.any_cons, Bool.or_eq_false_iff] at h
    simp only [List.foldl_cons, h.1]
    exact ih h.2

theorem normalizeVisit_single (lib : Lib) (dom : Dom) (d : Nat) (p : Ptr)
    (h : deref dom [d] = [p]) (hf : fires lib [p] = false) :
    normalizeVisit lib dom [d] = dom := by
  unfold fires at hf
  simp only [Bool.or_eq_false_iff, Bool.and_eq_false_iff] at hf
  obtain ⟨⟨⟨h1, h2⟩, h3⟩, h4⟩ := hf
  have h1' : ¬ NodeName [p] = "#comment".toList := by simpa using h1
  have hdom1 : (match Attr [p] "class".toList with
      | some val =>
        ignoreClass.foldl (fun d' cls => if Contains val cls then Remove d' [d] else d') dom
      | none => dom) = dom := by
    cases ha : Attr [p] "class".toList with
    | none => rfl
    | some val =>
      rw [ha] at h3
      exact foldl_class_noop dom [d] val ignoreClass h3
  unfold normalizeVisit
  simp only [h, if_neg h1', h2, hdom1, Bool.false_eq_true, if_false]
  by_cases hp : NodeName [p] = "p".toList
  · have hp' : (NodeName [p] == "p".toList) = true := by rw [beq_iff_eq]; exact hp
    rw [hp'] at h4
    rcases h4 with h4 | h4
    · exact Bool.noConfusion h4
    · simp only [Bool.or_eq_false_iff, Bool.not_eq_false', List.isEmpty_iff,
        decide_eq_false_iff_not] at h4
      rw [FindIds_nil dom d p _ h h4.1]
      simp only [if_pos hp, List.foldl_nil, h]
      rw [if_neg]
      rintro ⟨ha, hb⟩
      rcases h4.2 with hc | hc
      · exact hc ha
      · exact hc hb
  · simp only [if_neg hp, h]

theorem foldl_noop {α β : Type} (f : α → β → α) (a : α) (l : List β)
    (h : ∀ b ∈ l, f a b = a) : l.foldl f a = a := by
  induction l with
  | nil => rfl
  | cons b bs ih =>
    rw [List.foldl_cons, h b (List.mem_cons_self _ _)]
    exact ih fun c hc => h c (List.mem_cons_of_mem _ hc)

theorem deref_load_root (t : Node) : deref (load t) [1] = [⟨t, []⟩] := by
  have he := erase_labelNode t 1
  cases t with
  | mk ty d a cs =>
    simp only [labelNode] at he
    simp only [deref, load, labelNode, List.filterMap_cons, List.filterMap_nil, locateList,
      locateNode, if_true, he]

theorem mem_iteratorIds (dom : Dom) (s v : List Nat) (h : v ∈ iteratorIds dom s) :
    v = s ∨ ∃ d, v = [d] := by
  simp only [iteratorIds, List.mem_cons, List.mem_map] at h
  rcases h with h | ⟨d, -, rfl⟩
  · exact Or.inl h
  · exact Or.inr ⟨d, rfl⟩

/-- C9, at the failing input: in
`<body><p><span>&lt;script&gt;alert(1)&lt;/script&gt;</span></p></body>` the text of
the `span` is parsed as HTML when the `span` is replaced, and the `script`
element this creates is a descendant of the body after `normalize`. -/
theorem normalizeTree_keeps_script :
    (Find [⟨normalizeTree (evalLib exScript) exScript, []⟩]
      (.tags ignoreTag)).map (fun p => p.node.data) = ["script".toList] := by
  decide!

/-! ### The text of the chosen node -/

theorem all_dropWhile {α : Type} (p : α → Bool) (l : List α) :
    (∀ x ∈ l.dropWhile p, p x = true) ↔ ∀ x ∈ l, p x = true := by
  induction l with
  | nil => simp
  | cons c cs ih =>
    by_cases hc : p c = true
    · rw [List.dropWhile_cons_of_pos hc, ih]
      simp [hc]
    · rw [List.dropWhile_cons_of_neg hc]

theorem TrimSpace_eq_nil (y : Str) : TrimSpace y = [] ↔ ∀ c ∈ y, isSpace c = true := by
  unfold TrimSpace
  rw [List.reverse_eq_nil_iff, List.dropWhile_eq_nil_iff]
  simp only [List.mem_reverse]
  exact all_dropWhile isSpace y

theorem isSpace_space : isSpace ' ' = true := by decide

theorem isSpace_slash : isSpace '/' = false := by decide

theorem takeWhile_append_of_dropWhile {α : Type} (p : α → Bool) (l v : List α)
    (h : l.dropWhile p ≠ []) :
    (l ++ v).takeWhile p = l.takeWhile p ∧ (l ++ v).dropWhile p = l.dropWhile p ++ v := by
  induction l with
  | nil => exact absurd rfl h
  | cons c cs ih =>
    by_cases hc : p c = true
    · rw [List.dropWhile_cons_of_pos hc] at h
      simp only [List.cons_append, List.takeWhile_cons_of_pos hc, List.dropWhile_cons_of_pos hc]
      exact ⟨by rw [(ih h).1], (ih h).2⟩
    · simp only [List.cons_append, List.takeWhile_cons_of_neg hc, List.dropWhile_cons_of_neg hc]
      exact ⟨trivial, trivial⟩

/-- What a match of `ctnRx1` looks like. -/
theorem ctnRx1_some (s : Str) (n : Nat) (h : ctnRx1 s = some n) :
    ∃ c rest, s = '/' :: c :: '/' :: 'g' :: rest ∧ n = 4 := by
  unfold ctnRx1 at h
  split at h
  · rename_i a c b g rest
    split_ifs at h with hc
    simp only [Bool.and_eq_true, beq_iff_eq] at hc
    obtain ⟨⟨⟨ha, -⟩, hb⟩, hg⟩ := hc
    subst ha hb hg
    exact ⟨c, rest, rfl, by simpa using h.symm⟩
  · exact Option.noConfusion h

theorem ctnRx1_append (s v : Str) (n : Nat) (h : ctnRx1 s = some n) :
    ctnRx1 (s ++ v) = some n := by
  obtain ⟨c, rest, rfl, rfl⟩ := ctnRx1_some s n h
  simpa [ctnRx1] using h

theorem ctnRx1_short (s : Str) (h : s.length < 4) : ctnRx1 s = none := by
  cases hs : ctnRx1 s with
  | none => rfl
  | some n =>
    obtain ⟨c, rest, rfl, -⟩ := ctnRx1_some s n hs
    simp only [List.length_cons] at h
    omega

/-- What a match of `ctnRx2` looks like. -/
theorem ctnRx2_some (s : Str) (n : Nat) (h : ctnRx2 s = some n) :
    ∃ rest, s = '/' :: rest ∧ 0 < (rest.takeWhile isRxSpace).length
      ∧ (rest.dropWhile isRxSpace).take 2 = ['/', 'g']
      ∧ n = (rest.takeWhile isRxSpace).length + 3 := by
  unfold ctnRx2 at h
  split at h
  · rename_i a rest
    split_ifs at h with hc
    simp only [Bool.and_eq_true, beq_iff_eq, decide_eq_true_eq] at hc
    obtain ⟨⟨ha, hk⟩, hd⟩ := hc
    subst ha
    exact ⟨rest, rfl, hk, hd, by simpa using h.symm⟩
  · exact Option.noConfusion h

theorem ctnRx2_append (s v : Str) (n : Nat) (h : ctnRx2 s = some n) :
    ctnRx2 (s ++ v) = some n := by
  obtain ⟨rest, rfl, hk, hd, rfl⟩ := ctnRx2_some s n h
  have hne : rest.dropWhile isRxSpace ≠ [] := by
    intro h0
    rw [h0] at hd
    simp at hd
  obtain ⟨h1, h2⟩ := takeWhile_append_of_dropWhile isRxSpace rest v hne
  have h3 : List.take 2 (rest.dropWhile isRxSpace ++ v) = ['/', 'g'] := by
    rw [List.take_append_of_le_length, hd]
    have := congrArg List.length hd
    simp only [List.length_take, List.length_cons, List.length_nil] at this
    omega
  simp only [ctnRx2, List.cons_append, h1, h2, h3]
  simp [hk]

theorem getElem_take_two (tw dw : Str) (hd : dw.take 2 = ['/', 'g']) :
    ('/' :: (tw ++ dw))[tw.length + 3 - 1]? = some 'g' := by
  have h1 : tw.length + 3 - 1 = (tw.length + 1) + 1 := by omega
  rw [h1, List.getElem?_cons_succ, List.getElem?_append_right (by omega)]
  have h2 : tw.length + 1 - tw.length = 1 := by omega
  rw [h2]
  match dw, hd with
  | a :: b :: _, hd =>
    simp only [List.take_succ_cons, List.take_zero, List.cons.injEq, and_true] at hd
    simp [hd.2]

theorem ctnRx2_length (s : Str) (n : Nat) (h : ctnRx2 s = some n) :
    4 ≤ n ∧ n ≤ s.length ∧ s[n - 1]? = some 'g' := by
  obtain ⟨rest, rfl, hk, hd, rfl⟩ := ctnRx2_some s n h
  have hsplit := List.takeWhile_append_dropWhile isRxSpace rest
  have hlen : 2 ≤ (rest.dropWhile isRxSpace).length := by
    have := congrArg List.length hd
    simp only [List.length_take, List.length_cons, List.length_nil] at this
    omega
  have hrl : rest.length = (rest.takeWhile isRxSpace).length + (rest.dropWhile isRxSpace).length := by
    have := congrArg List.length hsplit
    rw [List.length_append] at this
    omega
  refine ⟨by omega, by simp only [List.length_cons]; omega, ?_⟩
  have := getElem_take_two (rest.takeWhile isRxSpace) (rest.dropWhile isRxSpace) hd
  rw [hsplit] at this
  exact this

theorem replaceAllFrom_succ (rx : Str → Option Nat) (repl : Str) (k : Nat) (c : Char)
    (cs : Str) : replaceAllFrom rx repl (k + 1) (c :: cs) = replaceAllFrom rx repl k cs := rfl

theorem replaceAllFrom_some (rx : Str → Option Nat) (repl : Str) (c : Char) (cs : Str)
    (n : Nat) (h : rx (c :: cs) = some n) :
    replaceAllFrom rx repl 0 (c :: cs) = repl ++ replaceAllFrom rx repl (n - 1) cs := by
  simp only [replaceAllFrom, h]

theorem replaceAllFrom_none (rx : Str → Option Nat) (repl : Str) (c : Char) (cs : Str)
    (h : rx (c :: cs) = none) :
    replaceAllFrom rx repl 0 (c :: cs) = c :: replaceAllFrom rx repl 0 cs := by
  simp only [replaceAllFrom, h]

theorem replaceAllFrom_append (rx : Str → Option Nat)
    (hh : ∀ s n, rx s = some n → 1 ≤ n ∧ n ≤ s.length ∧ s.head? = some '/')
    (ha : ∀ s v n, rx s = some n → rx (s ++ v) = some n) :
    ∀ (u : Str) (k : Nat) (v : Str), k ≤ u.length →
      (∀ c ∈ replaceAllFrom rx [' '] k u, isSpace c = true) →
      replaceAllFrom rx [' '] k (u ++ v)
        = replaceAllFrom rx [' '] k u ++ replaceAllFrom rx [' '] 0 v := by
  intro u
  induction u with
  | nil =>
    intro k v hk _
    have : k = 0 := by simpa using hk
    subst this
    simp [replaceAllFrom]
  | cons c cs ih =>
    intro k v hk hsp
    cases k with
    | succ k' =>
      rw [List.cons_append, replaceAllFrom_succ, replaceAllFrom_succ]
      rw [replaceAllFrom_succ] at hsp
      exact ih k' v (by simpa using hk) hsp
    | zero =>
      rw [List.cons_append]
      cases hr : rx (c :: cs) with
      | some n =>
        have hr' := ha (c :: cs) v n hr
        rw [List.cons_append] at hr'
        rw [replaceAllFrom_some _ _ _ _ n hr', replaceAllFrom_some _ _ _ _ n hr]
        rw [replaceAllFrom_some _ _ _ _ n hr] at hsp
        obtain ⟨h1, h2, -⟩ := hh _ _ hr
        rw [ih (n - 1) v (by simp only [List.length_cons] at h2; omega)
          (fun d hd => hsp d (List.mem_append_right _ hd))]
        simp
      | none =>
        rw [replaceAllFrom_none _ _ _ _ hr] at hsp
        have hc : isSpace c = true := hsp c (List.mem_cons_self _ _)
        have hn : rx (c :: (cs ++ v)) = none := by
          cases hr2 : rx (c :: (cs ++ v)) with
          | none => rfl
          | some n =>
            obtain ⟨-, -, h3⟩ := hh _ _ hr2
            simp only [List.head?_cons, Option.some.injEq] at h3
            rw [h3] at hc
            exact absurd hc (by decide)
        rw [replaceAllFrom_none _ _ _ _ hn, replaceAllFrom_none _ _ _ _ hr]
        rw [ih 0 v (Nat.zero_le _) (fun d hd => hsp d (List.mem_cons_of_mem _ hd))]
        rfl

theorem ctnRx1_head (s : Str) (n : Nat) (h : ctnRx1 s = some n) :
    1 ≤ n ∧ n ≤ s.length ∧ s.head? = some '/' := by
  obtain ⟨c, rest, rfl, rfl⟩ := ctnRx1_some s n h
  simp

theorem ctnRx2_head (s : Str) (n : Nat) (h : ctnRx2 s = some n) :
    1 ≤ n ∧ n ≤ s.length ∧ s.head? = some '/' := by
  obtain ⟨h1, h2, -⟩ := ctnRx2_length s n h
  obtain ⟨rest, rfl, -⟩ := ctnRx2_some s n h
  exact ⟨by omega, h2, rfl⟩

/-- The second replacement cannot leave only white space when its input ends
in a slash that no `g` follows. -/
theorem ctnRx2_tail_not_space (tail : Str) (hhead : tail.head? = some '/')
    (hg : 'g' ∉ tail) :
    ∀ (u : Str) (k : Nat),
      (k = 0 ∨ (k ≤ (u ++ tail).length ∧ (u ++ tail)[k - 1]? = some 'g')) →
      ¬ ∀ c ∈ replaceAllFrom ctnRx2 [' '] k (u ++ tail), isSpace c = true := by
  intro u
  induction u with
  | nil =>
    intro k hk hsp
    have hk0 : k = 0 := by
      rcases hk with h | ⟨h1, h2⟩
      · exact h
      · exfalso
        apply hg
        simp only [List.nil_append] at h2
        exact List.getElem?_mem h2
    subst hk0
    cases tail with
    | nil => simp at hhead
    | cons a rest =>
      simp only [List.head?_cons, Option.some.injEq] at hhead
      subst hhead
      rw [List.nil_append] at hsp
      cases hr : ctnRx2 ('/' :: rest) with
      | some n =>
        obtain ⟨-, -, h3⟩ := ctnRx2_length _ _ hr
        exact hg (List.getElem?_mem h3)
      | none =>
        rw [replaceAllFrom_none _ _ _ _ hr] at hsp
        exact absurd (hsp '/' (List.mem_cons_self _ _)) (by decide)
  | cons c cs ih =>
    intro k hk hsp
    cases k with
    | succ k' =>
      rw [List.cons_append, replaceAllFrom_succ] at hsp
      refine ih k' ?_ hsp
      rcases hk with h | ⟨h1, h2⟩
      · exact absurd h (by omega)
      · by_cases hk' : k' = 0
        · exact Or.inl hk'
        · refine Or.inr ⟨by simp only [List.cons_append, List.length_cons] at h1; omega, ?_⟩
          have e : k' + 1 - 1 = (k' - 1) + 1 := by omega
          rw [e, List.cons_append, List.getElem?_cons_succ] at h2
          exact h2
    | zero =>
      rw [List.cons_append] at hsp
      cases hr : ctnRx2 (c :: (cs ++ tail)) with
      | some n =>
        rw [replaceAllFrom_some _ _ _ _ n hr] at hsp
        obtain ⟨h1, h2, h3⟩ := ctnRx2_length _ _ hr
        refine ih (n - 1) (Or.inr ⟨by simp only [List.length_cons] at h2; omega, ?_⟩)
          (fun d hd => hsp d (List.mem_append_right _ hd))
        have e : n - 1 = (n - 1 - 1) + 1 := by omega
        rw [e, List.getElem?_cons_succ] at h3
        exact h3
      | none =>
        rw [replaceAllFrom_none _ _ _ _ hr] at hsp
        exact ih 0 (Or.inl rfl) (fun d hd => hsp d (List.mem_cons_of_mem _ hd))

theorem ctnRx1_take (s : Str) : ctnRx1 s = ctnRx1 (s.take 4) := by
  match s with
  | [] => rfl
  | [_] => rfl
  | [_, _] => rfl
  | [_, _, _] => rfl
  | _ :: _ :: _ :: _ :: _ => rfl

theorem replaceAllFrom_short (s : Str) (h : s.length < 4) :
    replaceAllFrom ctnRx1 [' '] 0 s = s := by
  induction s with
  | nil => rfl
  | cons c cs ih =>
    rw [replaceAllFrom_none _ _ _ _ (ctnRx1_short _ h),
      ih (by simp only [List.length_cons] at h; omega)]

/-- The first replacement of a concatenation is the concatenation of the first
replacements, unless a match straddles the seam; then the replacement of the
left part ends in a slash that no `g` follows. -/
theorem ctnRx1_append_or_tail :
    ∀ (x : Str) (k : Nat) (y : Str), k ≤ x.length →
      replaceAllFrom ctnRx1 [' '] k (x ++ y)
          = replaceAllFrom ctnRx1 [' '] k x ++ replaceAllFrom ctnRx1 [' '] 0 y
        ∨ ∃ u tail, replaceAllFrom ctnRx1 [' '] k x = u ++ tail ∧ tail.head? = some '/'
            ∧ 'g' ∉ tail := by
  intro x
  induction x with
  | nil =>
    intro k y hk
    have : k = 0 := by simpa using hk
    subst this
    exact Or.inl (by simp [replaceAllFrom])
  | cons c cs ih =>
    intro k y hk
    cases k with
    | succ k' =>
      rw [List.cons_append, replaceAllFrom_succ, replaceAllFrom_succ]
      exact ih k' y (by simpa using hk)
    | zero =>
      rw [List.cons_append]
      cases hr : ctnRx1 (c :: cs) with
      | some n =>
        have hr' := ctnRx1_append (c :: cs) y n hr
        rw [List.cons_append] at hr'
        obtain ⟨h1, h2, -⟩ := ctnRx1_head _ _ hr
        rw [replaceAllFrom_some _ _ _ _ n hr', replaceAllFrom_some _ _ _ _ n hr]
        rcases ih (n - 1) y (by simp only [List.length_cons] at h2; omega) with h | ⟨u, tail, h, ht⟩
        · exact Or.inl (by rw [h]; simp)
        · exact Or.inr ⟨[' '] ++ u, tail, by rw [h]; simp, ht⟩
      | none =>
        rw [replaceAllFrom_none _ _ _ _ hr]
        cases hr2 : ctnRx1 (c :: (cs ++ y)) with
        | none =>
          rw [replaceAllFrom_none _ _ _ _ hr2]
          rcases ih 0 y (Nat.zero_le _) with h | ⟨u, tail, h, ht⟩
          · exact Or.inl (by rw [h]; rfl)
          · exact Or.inr ⟨c :: u, tail, by rw [h]; rfl, ht⟩
        | some n =>
          right
          have hlen : (c :: cs).length < 4 := by
            by_contra hge
            have h4 : ((c :: cs) ++ y).take 4 = (c :: cs).take 4 :=
              List.take_append_of_le_length (by omega)
            have e1 : ctnRx1 ((c :: cs) ++ y) = ctnRx1 (c :: cs) := by
              rw [ctnRx1_take ((c :: cs) ++ y), h4, ← ctnRx1_take]
            rw [List.cons_append, hr2, hr] at e1
            exact Option.noConfusion e1
          obtain ⟨c', rest, hs, -⟩ := ctnRx1_some _ _ hr2
          refine ⟨[], c :: replaceAllFrom ctnRx1 [' '] 0 cs, rfl, ?_, ?_⟩
          · simp only [List.cons.injEq] at hs
            rw [hs.1]; rfl
          · rw [replaceAllFrom_short cs (by simp only [List.length_cons] at hlen; omega)]
            have hc' : c' ≠ 'g' := by
              have hm : ctnRx1 ('/' :: c' :: '/' :: 'g' :: rest) = some n := by rw [← hs]; exact hr2
              intro hcg
              subst hcg
              revert hm
              simp [ctnRx1]
            match cs, hs, hlen with
            | [], hs, _ =>
              simp only [List.nil_append, List.cons.injEq] at hs
              rw [hs.1]
              decide
            | [a], hs, _ =>
              simp only [List.cons_append, List.nil_append, List.cons.injEq] at hs
              rw [hs.1, hs.2.1]
              simp only [List.mem_cons, List.not_mem_nil, or_false, not_or]
              exact ⟨by decide, fun h => hc' h.symm⟩
            | [a, b], hs, _ =>
              simp only [List.cons_append, List.nil_append, List.cons.injEq] at hs
              rw [hs.1, hs.2.1, hs.2.2.1]
              simp only [List.mem_cons, List.not_mem_nil, or_false, not_or]
              exact ⟨by decide, fun h => hc' h.symm, by decide⟩
            | _ :: _ :: _ :: _, _, hlen =>
              simp only [List.length_cons] at hlen
              omega

/-- A text is blank when both replacements leave only white space. -/
theorem blank_append (x y : Str)
    (hx : ∀ c ∈ ReplaceAllString ctnRx2 (ReplaceAllString ctnRx1 x " ".toList) " ".toList,
      isSpace c = true)
    (hy : ∀ c ∈ ReplaceAllString ctnRx2 (ReplaceAllString ctnRx1 y " ".toList) " ".toList,
      isSpace c = true) :
    ∀ c ∈ ReplaceAllString ctnRx2 (ReplaceAllString ctnRx1 (x ++ y) " ".toList) " ".toList,
      isSpace c = true := by
  have e : " ".toList = [' '] := rfl
  simp only [ReplaceAllString, e] at hx hy ⊢
  have h1 : replaceAllFrom ctnRx1 [' '] 0 (x ++ y)
      = replaceAllFrom ctnRx1 [' '] 0 x ++ replaceAllFrom ctnRx1 [' '] 0 y := by
    rcases ctnRx1_append_or_tail x 0 y (Nat.zero_le _) with h | ⟨u, tail, h, hh, hg⟩
    · exact h
    · rw [h] at hx
      exact absurd hx (ctnRx2_tail_not_space tail hh hg u 0 (Or.inl rfl))
  rw [h1, replaceAllFrom_append ctnRx2 ctnRx2_head ctnRx2_append _ 0 _ (Nat.zero_le _) hx]
  intro c hc
  rcases List.mem_append.mp hc with h | h
  · exact hx c h
  · exact hy c h

theorem blank_nil : blank [] := by
  intro c hc
  simp [ReplaceAllString, replaceAllFrom] at hc

theorem cleanText_eq_nil (v : Selection) : cleanText v = [] ↔ blank (Text v) := by
  unfold cleanText blank
  exact TrimSpace_eq_nil _

theorem foldl_filter_append {α β : Type} (c : α → Bool) (f : α → β) (l : List α) (acc : List β) :
    l.foldl (fun result v => if c v = true then result ++ [f v] else result) acc
      = acc ++ (l.filter c).map f := by
  induction l generalizing acc with
  | nil => simp
  | cons a as ih =>
    rw [List.foldl_cons, ih, List.filter_cons]
    split_ifs <;> simp

theorem getAllTiText_eq (s : Selection) :
    getAllTiText s = ((iterator s).filter tiTest).map cleanText := by
  unfold getAllTiText
  rw [← List.nil_append (((iterator s).filter tiTest).map cleanText),
    ← foldl_filter_append tiTest cleanText (iterator s) []]
  congr 1
  funext result v
  cases v with
  | nil => simp [tiTest]
  | cons p rest =>
    by_cases h1 : p.node.type = NodeType.TextNode
    · by_cases h2 : (cleanText (p :: rest)).length > 0
      · simp [tiTest, h1, h2]
      · simp [tiTest, h1, h2]
    · simp [tiTest, h1]

theorem getAllLtiText_eq (s : Selection) :
    getAllLtiText s =
      ((iterator s).filter fun v =>
        decide (NodeName v = "a".toList) && decide ((cleanText v).length > 0)).map cleanText := by
  unfold getAllLtiText
  rw [← List.nil_append (((iterator s).filter _).map cleanText),
    ← foldl_filter_append _ cleanText (iterator s) []]
  congr 1
  funext result v
  by_cases h1 : NodeName v = "a".toList
  · by_cases h2 : (cleanText v).length > 0
    · simp only [h1, h2, if_true, decide_True, Bool.and_self]
    · simp only [h1, h2, if_true, if_false, decide_True, decide_False, Bool.and_false,
        Bool.false_eq_true]
  · simp only [h1, if_false, decide_False, Bool.false_and, Bool.false_eq_true]

theorem Join_eq_nil (l : List Str) (sep : Str) (h : ∀ a ∈ l, a ≠ []) :
    Join l sep = [] ↔ l = [] := by
  cases l with
  | nil => simp [Join]
  | cons a rest =>
    have ha := h a (List.mem_cons_self _ _)
    cases rest with
    | nil => simp [Join, ha]
    | cons b rest => simp [Join, ha]

mutual
theorem blank_getNodeText : ∀ (n : Node) (up : List Node),
    (∀ q ∈ walkNode up n, q.node.type = NodeType.TextNode → blank q.node.data) →
    blank (getNodeText n)
  | .mk t d a cs, up => by
    intro h
    simp only [getNodeText]
    split_ifs with ht
    · exact h ⟨.mk t d a cs, up⟩ (by simp [walkNode]) ht
    · apply blank_getNodeTextList cs (.mk t d a cs :: up)
      intro q hq
      exact h q (by simp [walkNode, hq])
theorem blank_getNodeTextList : ∀ (cs : List Node) (up : List Node),
    (∀ q ∈ walkList up cs, q.node.type = NodeType.TextNode → blank q.node.data) →
    blank (getNodeTextList cs)
  | [], _ => by
    intro _
    exact blank_nil
  | c :: cs, up => by
    intro h
    simp only [getNodeTextList]
    apply blank_append
    · exact blank_getNodeText c up (fun q hq => h q (by simp [walkList, hq]))
    · exact blank_getNodeTextList cs up (fun q hq => h q (by simp [walkList, hq]))
end

mutual
theorem walkNode_trans : ∀ (n : Node) (up : List Node) (d q : Ptr),
    d ∈ walkNode up n → q ∈ walkNode d.up d.node → q ∈ walkNode up n
  | .mk t dd a cs, up, d, q => by
    intro hd hq
    simp only [walkNode, List.mem_cons] at hd
    rcases hd with rfl | hd
    · exact hq
    · simp only [walkNode, List.mem_cons]
      exact Or.inr (walkList_trans cs _ d q hd hq)
theorem walkList_trans : ∀ (cs : List Node) (up : List Node) (d q : Ptr),
    d ∈ walkList up cs → q ∈ walkNode d.up d.node → q ∈ walkList up cs
  | [], _, _, _ => by
    intro hd _
    simp [walkList] at hd
  | c :: cs, up, d, q => by
    intro hd hq
    simp only [walkList, List.mem_append] at hd ⊢
    rcases hd with hd | hd
    · exact Or.inl (walkNode_trans c up d q hd hq)
    · exact Or.inr (walkList_trans cs up d q hd hq)
end

theorem iterator_eq (s : Selection) : iterator s = s :: (descendants s).map fun d => [d] := rfl

theorem descendants_single (p : Ptr) :
    descendants [p] = walkList (p.node :: p.up) p.node.children := by
  simp only [descendants, Contents, List.flatMap_cons, List.flatMap_nil, List.append_nil]
  generalize p.node.children = cs
  induction cs with
  | nil => rfl
  | cons c cs ih =>
    simp only [List.map_cons, List.flatMap_cons, walkList]
    rw [ih]

theorem walkNode_eq (p : Ptr) : walkNode p.up p.node = p :: descendants [p] := by
  rw [descendants_single]
  obtain ⟨n, up⟩ := p
  cases n with
  | mk t d a cs => rfl

theorem descendants_closed (s : Selection) (d q : Ptr) (hd : d ∈ descendants s)
    (hq : q ∈ descendants [d]) : q ∈ descendants s := by
  simp only [descendants, List.mem_flatMap] at hd ⊢
  obtain ⟨c, hc, hd⟩ := hd
  refine ⟨c, hc, walkNode_trans c.node c.up d q hd ?_⟩
  rw [walkNode_eq]
  exact List.mem_cons_of_mem _ hq

theorem Text_single (p : Ptr) : Text [p] = getNodeText p.node := by
  simp [Text, getNodeTextList]

theorem getNodeText_text (n : Node) (h : n.type = NodeType.TextNode) :
    getNodeText n = n.data := by
  cases n with
  | mk t d a cs =>
    simp only [Node.type] at h
    simp [getNodeText, h, Node.data]

theorem blank_single (p : Ptr)
    (hself : p.node.type = NodeType.TextNode → blank p.node.data)
    (hdesc : ∀ q ∈ descendants [p], q.node.type = NodeType.TextNode → blank q.node.data) :
    blank (Text [p]) := by
  rw [Text_single]
  apply blank_getNodeText p.node p.up
  intro q hq
  rw [walkNode_eq] at hq
  rcases List.mem_cons.mp hq with rfl | hq
  · exact hself
  · exact hdesc q hq

/-- When `getAllTiText` returns nothing for a selection of at most one node,
the text of every node of the iteration is blank. -/
theorem blank_of_getAllTiText_nil (s : Selection) (hs : s.length ≤ 1)
    (h : getAllTiText s = []) : ∀ v ∈ iterator s, blank (Text v) := by
  rw [getAllTiText_eq, List.map_eq_nil_iff, List.filter_eq_nil_iff] at h
  have htext : ∀ p : Ptr, [p] ∈ iterator s → p.node.type = NodeType.TextNode →
      blank p.node.data := by
    intro p hp ht
    have := h [p] hp
    simp only [tiTest, ht, decide_True, Bool.true_and, decide_eq_true_eq, not_lt,
      Nat.le_zero, List.length_eq_zero] at this
    rw [cleanText_eq_nil, Text_single, getNodeText_text _ ht] at this
    exact this
  have hdesc : ∀ d ∈ descendants s, blank (Text [d]) := by
    intro d hd
    apply blank_single d
    · exact htext d (by rw [iterator_eq]; exact List.mem_cons_of_mem _ (List.mem_map_of_mem _ hd))
    · intro q hq
      have hq' := descendants_closed s d q hd hq
      exact htext q (by rw [iterator_eq]; exact List.mem_cons_of_mem _ (List.mem_map_of_mem _ hq'))
  intro v hv
  rw [iterator_eq] at hv
  rcases List.mem_cons.mp hv with rfl | hv
  · match v, hs with
    | [], _ =>
      have : Text ([] : Selection) = [] := rfl
      rw [this]
      exact blank_nil
    | [p], _ =>
      apply blank_single p
      · exact htext p (by rw [iterator_eq]; exact List.mem_cons_self _ _)
      · intro q hq
        exact htext q (by rw [iterator_eq]; exact List.mem_cons_of_mem _ (List.mem_map_of_mem _ hq))
    | _ :: _ :: _, hs =>
      simp only [List.length_cons] at hs
      omega
  · obtain ⟨d, hd, rfl⟩ := List.mem_map.mp hv
    exact hdesc d hd

theorem getAllLtiText_nil (s : Selection) (hs : s.length ≤ 1) (h : getAllTiText s = []) :
    getAllLtiText s = [] := by
  rw [getAllLtiText_eq, List.map_eq_nil_iff, List.filter_eq_nil_iff]
  intro v hv
  have := (cleanText_eq_nil v).mpr (blank_of_getAllTiText_nil s hs h v hv)
  simp [this]

theorem cleanText_ne_nil_of_mem (s : Selection) : ∀ a ∈ getAllTiText s, a ≠ [] := by
  intro a ha
  rw [getAllTiText_eq, List.mem_map] at ha
  obtain ⟨v, hv, rfl⟩ := ha
  rw [List.mem_filter] at hv
  have := hv.2
  cases v with
  | nil => simp [tiTest] at this
  | cons p rest =>
    simp only [tiTest, Bool.and_eq_true, decide_eq_true_eq] at this
    exact List.ne_nil_of_length_pos this.2

/-- A node of at most one element without text has density 0. -/
theorem density_zero_of_tiText_nil (s : Selection) (hs : s.length ≤ 1)
    (h : (calcTextDensity s).tiText = []) : (calcTextDensity s).density = F64.fin 0 := by
  obtain ⟨h1, -⟩ := calcTextDensity_fields s
  rw [h1] at h
  have hti : getAllTiText s = [] := (Join_eq_nil _ _ (cleanText_ne_nil_of_mem s)).mp h
  have hlti : getAllLtiText s = [] := getAllLtiText_nil s hs hti
  rw [density_eq, hti, hlti]
  simp only [Join, List.length_nil, Int.ofNat_zero, sub_self]
  split_ifs with g1 g2
  · rw [abs_div_ofInt 0 1 one_ne_zero]; simp
  · rfl
  · rw [abs_div_ofInt 0 _ g1]; simp

theorem newScore_zero_of_density (lib : Lib) (v : nodeInfo)
    (h : v.density.density = F64.fin 0) : newScore lib v = F64.fin 0 := by
  unfold newScore
  rw [h]
  generalize lib.Log10 (F64.ofInt (v.textTagCount + 2)) = x
  generalize lib.Log v.sbdi = y
  cases x <;> cases y <;> simp [F64.mul, F64.IsNaN, F64.IsInf, F64.ofInt]

theorem positive_score_has_text (lib : Lib) (v : Selection) (hv : v.length ≤ 1)
    (hpos : 0 < F64.val (newScore lib (nodeInfoOf v))) : (calcTextDensity v).tiText ≠ [] := by
  intro h
  have hd : (nodeInfoOf v).density.density = F64.fin 0 := density_zero_of_tiText_nil v hv h
  rw [newScore_zero_of_density lib _ hd] at hpos
  exact absurd hpos (by simp [F64.val])

theorem normalizedBody_length (lib : Lib) (doc : Node) :
    (normalizedBody lib doc).length ≤ (Find [⟨doc, []⟩] (.tags ["body".toList])).length := by
  unfold normalizedBody deref
  refine (List.length_filterMap_le _ _).trans ?_
  rw [FindIds_length (load doc) 1 ⟨doc, []⟩ _ (deref_load_root doc)]

theorem mem_iterator_length (s v : Selection) (hs : s.length ≤ 1) (hv : v ∈ iterator s) :
    v.length ≤ 1 := by
  rw [iterator_eq] at hv
  rcases List.mem_cons.mp hv with rfl | hv
  · exact hs
  · obtain ⟨d, -, rfl⟩ := List.mem_map.mp hv
    simp

/-- C1, amended: for every document the parser returns, with at most one
`body` element, in which some node enumerated from the normalized body gets a
positive score, `Extract` returns no error and an `Article` whose `Content` is
not empty. -/
theorem Extract_content_nonempty (lib : Lib) (source : Str) (doc : Node)
    (hdoc : lib.NewDocumentFromReader source = .ok doc)
    (hbody : (Find [⟨doc, []⟩] (.tags ["body".toList])).length ≤ 1)
    (hpos : ∃ v ∈ iterator (normalizedBody lib doc), 0 < F64.val (newScore lib (nodeInfoOf v))) :
    ∃ a, Extract lib source = .ok a ∧ a.Content ≠ [] := by
  obtain ⟨v, hv, hvpos⟩ := hpos
  obtain ⟨v0, hv0, hr, hmax⟩ := contentExtract_spec lib (normalizedBody lib doc)
  have hlen : v0.length ≤ 1 :=
    mem_iterator_length _ _ ((normalizedBody_length lib doc).trans hbody) hv0
  have h0 : 0 < F64.val (newScore lib (nodeInfoOf v0)) := lt_of_lt_of_le hvpos (hmax v hv)
  unfold Extract
  simp only [hdoc, hr]
  exact ⟨_, rfl, positive_score_has_text lib v0 hlen h0⟩

theorem Extract_content_nonempty_witness :
    (evalLib exTitleDoc).NewDocumentFromReader [] = .ok exTitleDoc
      ∧ (Find [⟨exTitleDoc, []⟩] (.tags ["body".toList])).length ≤ 1
      ∧ (∃ v ∈ iterator (normalizedBody (evalLib exTitleDoc) exTitleDoc),
          0 < F64.val (newScore (evalLib exTitleDoc) (nodeInfoOf v)))
      ∧ ∃ a, Extract (evalLib exTitleDoc) [] = .ok a ∧ a.Content ≠ [] :=
  ⟨rfl, by decide,
    ⟨normalizedBody (evalLib exTitleDoc) exTitleDoc, List.mem_cons_self _ _, by decide!⟩,
    Extract_content_nonempty (evalLib exTitleDoc) [] exTitleDoc rfl (by decide)
      ⟨normalizedBody (evalLib exTitleDoc) exTitleDoc, List.mem_cons_self _ _, by decide!⟩⟩

/-- C1, counterexample: the body of `<body>...<br></body>` holds the text node
`...`, not empty after trimming, yet `Extract` returns an `Article` with empty
`Content`: the body and the text node score below 0, the empty `br` scores 0 and
is the node chosen. -/
theorem Extract_empty_content :
    ((iterator (normalizedBody (evalLib exDotsDoc) exDotsDoc)).any fun v =>
        decide (NodeName v = "#text".toList) && (TrimSpace (Text v) != [])) = true
      ∧ (Extract (evalLib exDotsDoc) "<body>...<br></body>".toList).toOption.map
          (fun a => a.Content) = some [] := by
  decide!

/-! ### Iteration, counts and symbol density -/

/-- C19: for every selection, the empty one included, `iterator(s)` is a
non-empty list whose first element is `s`; so the list `contentExtract` builds is
never empty and `info[0]` is in bounds: `contentExtract` returns an entry. -/
theorem iterator_head (lib : Lib) (s : Selection) :
    (iterator s).head? = some s ∧ iterator s ≠ []
      ∧ ((iterator s).map nodeInfoOf) ≠ [] ∧ (contentExtract lib s).isSome = true := by
  refine ⟨rfl, iterator_ne_nil s, by simp [iterator], ?_⟩
  obtain ⟨v0, -, hr, -⟩ := contentExtract_spec lib s
  rw [hr]
  rfl

/-- C20: whenever `calcTextDensity` reaches its division, the divisor, which is
`tgi - ltgi` with `ltgi` reset to 0 in the `needSkipLtgi` branch, is not 0; the
density is 0 when the function returns before the division and the quotient by
that divisor otherwise. -/
theorem densityDivisor_ne_zero (s : Selection) :
    densityDivisor s ≠ some 0
      ∧ (calcTextDensity s).density =
        match densityDivisor s with
        | none => F64.ofInt 0
        | some k =>
          F64.Abs (F64.div
            (F64.ofInt (((calcTextDensity s).tiText.length : Int) - (calcTextDensity s).lti))
            (F64.ofInt k)) := by
  obtain ⟨h1, h2, -⟩ := calcTextDensity_fields s
  rw [h1, h2, density_eq]
  unfold densityDivisor
  simp only [tgi_eq_one]
  by_cases g1 : (1 : Int) - ((Find s (.tags ["a".toList])).length : Int) = 0
  · rw [if_pos g1, if_pos g1]
    cases hn : needSkipLtgi (↑(Join (getAllTiText s) "\n".toList).length) (countTextTag s)
    · simp
    · simp
  · rw [if_neg g1, if_neg g1]
    refine ⟨?_, rfl⟩
    intro h
    simp only [Option.some.injEq] at h
    exact g1 h

/-- C15, at the failing input: `<div><p>a</p><p>b</p></div>` has two descendant
elements, none of them empty, and `calcTextDensity` gives it `tgi = 1`. -/
theorem tgi_two_paragraphs :
    (calcTextDensity exTwoParas).tgi = 1 ∧ specTgi exTwoParas = 2 := by
  decide

/-- C16, at the failing input: for `<p>` holding the text `a  b`, a newline and
`c`, `getAllTiText` returns the text with its two consecutive spaces and its
newline, not collapsed. -/
theorem getAllTiText_keeps_spaces :
    getAllTiText exSpaces = ["a  b\nc".toList] := by
  decide

theorem calcSbdi_eq (d : textDensity) :
    calcSbdi d =
      if d.ti - d.lti = 0 then F64.fin 1
      else F64.fin (((d.ti - d.lti : Int) : ℚ) / ((countPunctuation d.tiText + 1 : Int) : ℚ)) := by
  have hp : ((countPunctuation d.tiText + 1 : Int) : ℚ) ≠ 0 := by
    have := countPunctuation_nonneg d.tiText
    have h : countPunctuation d.tiText + 1 ≠ 0 := by omega
    exact_mod_cast h
  unfold calcSbdi
  simp only [F64.ofInt, F64.div, if_neg hp, F64.eq]
  by_cases h0 : d.ti - d.lti = 0
  · simp [h0]
  · have hq : ((d.ti - d.lti : Int) : ℚ) / ((countPunctuation d.tiText + 1 : Int) : ℚ) ≠ 0 :=
      div_ne_zero (by exact_mod_cast h0) hp
    simp only [Int.cast_zero, decide_eq_true_eq, if_neg hq, if_neg h0]

/-- The value `calcSbdi(calcTextDensity(s))` is a finite number different from 0,
positive exactly when the difference `ti - lti` of the stored fields is not
negative. -/
theorem calcSbdi_sign (s : Selection) :
    ∃ q : ℚ, calcSbdi (calcTextDensity s) = F64.fin q ∧ q ≠ 0
      ∧ (0 < q ↔ 0 ≤ (calcTextDensity s).ti - (calcTextDensity s).lti) := by
  have hp : (0 : ℚ) < ((countPunctuation (calcTextDensity s).tiText + 1 : Int) : ℚ) := by
    have := countPunctuation_nonneg (calcTextDensity s).tiText
    have h : 0 < countPunctuation (calcTextDensity s).tiText + 1 := by omega
    exact_mod_cast h
  rw [calcSbdi_eq]
  by_cases h0 : (calcTextDensity s).ti - (calcTextDensity s).lti = 0
  · rw [if_pos h0]
    exact ⟨1, rfl, one_ne_zero, by simp [h0]⟩
  · rw [if_neg h0]
    refine ⟨_, rfl, div_ne_zero (by exact_mod_cast h0) (ne_of_gt hp), ?_⟩
    rw [div_pos_iff_of_pos_right hp]
    constructor
    · intro h
      have : (0 : Int) < (calcTextDensity s).ti - (calcTextDensity s).lti := by exact_mod_cast h
      omega
    · intro h
      have : (0 : Int) < (calcTextDensity s).ti - (calcTextDensity s).lti := by omega
      exact_mod_cast this

/-- C14: for `<div><a>hello</a></div>` the text has 5 characters, all 5 of them
link characters, and no punctuation, so the documented quotient
`(Ti - LTi) / (Sbi + 1)` is 0, which the coercion turns into 1; the code stores
`Ti - LTi = 0` as `ti`, subtracts `lti = 5` once more and returns `-5`. -/
theorem calcSbdi_negative :
    (Join (getAllTiText exAllLink) "\n".toList).length = 5
      ∧ (Join (getAllLtiText exAllLink) "\n".toList).length = 5
      ∧ countPunctuation (Join (getAllTiText exAllLink) "\n".toList) = 0
      ∧ (calcTextDensity exAllLink).ti = 0
      ∧ (calcTextDensity exAllLink).lti = 5
      ∧ calcSbdi (calcTextDensity exAllLink) = F64.fin (-5) := by
  decide!

theorem findHtag_eq_spec : ∀ (up : List Node) (n : Node),
    findHtag [⟨n, up⟩] = findHtagSpec ⟨n, up⟩ := by
  intro up
  induction up with
  | nil =>
    intro n
    rw [findHtag]
    rfl
  | cons u rest ih =>
    intro n
    rw [findHtag]
    have hpar : Parent [⟨n, u :: rest⟩] = [⟨u, rest⟩] := rfl
    simp only [hpar]
    unfold findHtagSpec
    simp only [ancestors, List.find?_cons]
    by_cases hh : (Find [⟨u, rest⟩] (.tags (["h1", "h2", "h3", "h4"].map String.toList))) = []
    · have h1 : ¬ (Find [⟨u, rest⟩]
          (.tags (["h1", "h2", "h3", "h4"].map String.toList))).length > 0 := by
        rw [hh]; simp
      rw [if_neg h1]
      simp only [hh, List.isEmpty_nil, Bool.not_true]
      cases rest with
      | nil =>
        have hroot : ([⟨u, []⟩] : Selection).length < 1
            ∨ ([⟨u, []⟩] : Selection).head?.any (fun p => p.up.isEmpty) = true := Or.inr rfl
        rw [dif_pos hroot]
        rfl
      | cons u2 rest2 =>
        have hroot : ¬ (([⟨u, u2 :: rest2⟩] : Selection).length < 1
            ∨ ([⟨u, u2 :: rest2⟩] : Selection).head?.any (fun p => p.up.isEmpty) = true) := by
          intro h
          rcases h with h | h
          · simp at h
          · simp at h
        rw [dif_neg hroot]
        have := ih u
        unfold findHtagSpec at this
        exact this
    · have h1 : (Find [⟨u, rest⟩]
          (.tags (["h1", "h2", "h3", "h4"].map String.toList))).length > 0 :=
        List.length_pos_of_ne_nil hh
      rw [if_pos h1]
      have h2 : (!(Find [⟨u, rest⟩]
          (.tags (["h1", "h2", "h3", "h4"].map String.toList))).isEmpty) = true := by
        cases hf : Find [⟨u, rest⟩] (.tags (["h1", "h2", "h3", "h4"].map String.toList)) with
        | nil => exact absurd hf hh
        | cons a as => rfl
      rw [h2]

/-- C18: `findHtag` is a total function (its recursion is on the parents, and
the chains of ancestors shorten at every step), and for every content node what
it returns is the text of the first `h1`..`h4` descendant of the nearest proper
ancestor that has one, with the flag true; the flag is false, with the empty
string, exactly when no proper ancestor has such a descendant. -/
theorem findHtag_spec (content : Ptr) :
    findHtag [content] = findHtagSpec content
      ∧ (findHtag [content] = ([], false) ↔
          ∀ a ∈ ancestors content.up,
            Find [a] (.tags (["h1", "h2", "h3", "h4"].map String.toList)) = []) := by
  obtain ⟨n, up⟩ := content
  have h2 : findHtag [⟨n, up⟩] = findHtagSpec ⟨n, up⟩ := findHtag_eq_spec up n
  refine ⟨h2, ?_⟩
  rw [h2]
  unfold findHtagSpec
  cases hf : (ancestors up).find? fun a =>
      !(Find [a] (.tags (["h1", "h2", "h3", "h4"].map String.toList))).isEmpty with
  | none =>
    simp only [true_iff]
    intro a ha
    have := List.find?_eq_none.mp hf a ha
    simpa using this
  | some a =>
    simp only [Prod.mk.injEq, Bool.true_eq_false, and_false, false_iff]
    intro hall
    have hm := List.mem_of_find?_eq_some hf
    have hp := List.find?_some hf
    rw [hall a hm] at hp
    simp at hp

theorem TrimSpace_length_le (y : Str) : (TrimSpace y).length ≤ y.length := by
  unfold TrimSpace
  rw [List.length_reverse]
  refine ((List.dropWhile_sublist isSpace).length_le).trans ?_
  rw [List.length_reverse]
  exact (List.dropWhile_sublist isSpace).length_le

theorem mem_metaEntries (lib : Lib) (v : Selection) (e : headEntry)
    (h : e ∈ metaEntries lib v) :
    2 ≤ (TrimSpace e.val).length ∧ (TrimSpace e.val).length ≤ 50 := by
  unfold metaEntries at h
  split_ifs at h with h1
  · simp at h
  · rw [List.mem_flatMap] at h
    obtain ⟨n, -, hn⟩ := h
    simp only at hn
    split_ifs at hn with h2 h3
    · simp only [List.mem_singleton] at hn
      rw [hn]
      exact h3
    · simp at hn
    · simp at hn

/-- C13, amended: every `headEntry` that `headTextExtract` returns has a value
whose code-point length after `TrimSpace` is at least 2 and at most 50; the
value itself, stored untrimmed, has at least 2 code points. -/
theorem headTextExtract_trimmed_length (lib : Lib) (dom : Selection) (e : headEntry)
    (h : e ∈ headTextExtract lib dom) :
    2 ≤ (TrimSpace e.val).length ∧ (TrimSpace e.val).length ≤ 50 ∧ 2 ≤ e.val.length := by
  unfold headTextExtract at h
  have h' := (sortSort_perm _ _).mem_iff.mp h
  rw [List.mem_flatMap] at h'
  obtain ⟨v, -, hv⟩ := h'
  obtain ⟨h1, h2⟩ := mem_metaEntries lib v e hv
  exact ⟨h1, h2, h1.trans (TrimSpace_length_le e.val)⟩

theorem headTextExtract_trimmed_length_witness :
    (⟨"articletitle".toList, "Article".toList⟩ : headEntry)
        ∈ headTextExtract (evalLib exRivalMeta) [⟨exRivalMeta, []⟩]
      ∧ 2 ≤ (TrimSpace "Article".toList).length ∧ (TrimSpace "Article".toList).length ≤ 50
      ∧ 2 ≤ "Article".toList.length :=
  ⟨by decide,
    headTextExtract_trimmed_length (evalLib exRivalMeta) [⟨exRivalMeta, []⟩]
      ⟨"articletitle".toList, "Article".toList⟩ (by decide)⟩

/-- C13, counterexample: a `meta` whose content is `ab` followed by sixty spaces
is kept, with its value of 62 code points. -/
theorem headTextExtract_long_val :
    (headTextExtract (evalLib exPaddedMeta) [⟨exPaddedMeta, []⟩]).map
      (fun e => (e.key, e.val.length)) = [("description".toList, 62)] := by
  decide

/-- C17, counterexample: with the entries `twitter:title` and `articletitle`,
sorted by descending key length, the title is the value of `twitter:title`,
whose key does not contain `articletitle`. -/
theorem titleExtract_longer_key_first :
    headTextExtract (evalLib exRivalMeta) [⟨exRivalMeta, []⟩]
        = [⟨"twitter:title".toList, "Tweet".toList⟩, ⟨"articletitle".toList, "Article".toList⟩]
      ∧ Contains "twitter:title".toList "articletitle".toList = false
      ∧ titleExtract (headTextExtract (evalLib exRivalMeta) [⟨exRivalMeta, []⟩])
          [⟨exRivalMeta, []⟩] [] = "Tweet".toList := by
  decide

theorem titleFromHead_append (pre post : List headEntry) (e : headEntry)
    (hpre : ∀ x ∈ pre, (titlePx.any fun px =>
      Contains x.key px && TrimSpace (titleRxSplitHead x.val) != []) = false)
    (he : (titlePx.any fun px =>
      Contains e.key px && TrimSpace (titleRxSplitHead e.val) != []) = true) :
    titleFromHead (pre ++ e :: post) = some (TrimSpace (titleRxSplitHead e.val)) := by
  induction pre with
  | nil =>
    simp only [List.nil_append, titleFromHead, he, if_true]
  | cons x xs ih =>
    simp only [List.cons_append, titleFromHead, hpre x (List.mem_cons_self _ _),
      Bool.false_eq_true, if_false]
    exact ih fun y hy => hpre y (List.mem_cons_of_mem _ hy)

/-- C17, amended: `titleExtract` tries the three patterns on one entry after the
other, in list order, and returns the value, cut before its first `_` or `|` and
trimmed, of the first entry whose key contains one of them and whose cut and
trimmed value is not empty; an entry whose key contains `articletitle` is used
only when no entry before it qualifies. -/
theorem titleExtract_first_match (pre post : List headEntry) (e : headEntry)
    (source content : Selection)
    (hpre : ∀ x ∈ pre, (titlePx.any fun px =>
      Contains x.key px
        && TrimSpace (x.val.takeWhile fun c => decide (c ≠ '_' ∧ c ≠ '|')) != []) = false)
    (he : (titlePx.any fun px =>
      Contains e.key px
        && TrimSpace (e.val.takeWhile fun c => decide (c ≠ '_' ∧ c ≠ '|')) != []) = true) :
    titleExtract (pre ++ e :: post) source content
      = TrimSpace (e.val.takeWhile fun c => decide (c ≠ '_' ∧ c ≠ '|')) := by
  simp only [← titleRxSplitHead_eq] at hpre he ⊢
  unfold titleExtract
  rw [titleFromHead_append pre post e hpre he]

theorem titleExtract_first_match_witness :
    (∀ x ∈ ([⟨"article:published".toList, "2020".toList⟩] : List headEntry), (titlePx.any fun px =>
        Contains x.key px
          && TrimSpace (x.val.takeWhile fun c => decide (c ≠ '_' ∧ c ≠ '|')) != []) = false)
      ∧ (titlePx.any fun px => Contains "twitter:title".toList px
          && TrimSpace ("Tweet | Site".toList.takeWhile fun c => decide (c ≠ '_' ∧ c ≠ '|')) != [])
          = true
      ∧ titleExtract ([⟨"article:published".toList, "2020".toList⟩]
            ++ (⟨"twitter:title".toList, "Tweet | Site".toList⟩ : headEntry)
            :: [⟨"articletitle".toList, "Article".toList⟩]) [⟨exRivalMeta, []⟩] []
          = "Tweet".toList :=
  ⟨by decide, by decide,
    (titleExtract_first_match [⟨"article:published".toList, "2020".toList⟩]
      [⟨"articletitle".toList, "Article".toList⟩]
      ⟨"twitter:title".toList, "Tweet | Site".toList⟩ [⟨exRivalMeta, []⟩] []
      (by decide) (by decide)).trans (by decide)⟩

theorem filterMap_eq_filter_map {α β : Type} (f : α → Option β) (d : β) (l : List α) :
    l.filterMap f = (l.filter fun x => (f x).isSome).map fun x => (f x).getD d := by
  induction l with
  | nil => rfl
  | cons x xs ih =>
    rw [List.filterMap_cons, List.filter_cons]
    cases hx : f x with
    | none => simpa using ih
    | some y => simp [ih, hx]

theorem contentExtract_nil (lib : Lib) : contentExtract lib [] = some (scoreOf lib []) := by
  obtain ⟨v0, hv0, hr, -⟩ := contentExtract_spec lib []
  have : v0 = [] := by
    simpa [iterator, Contents] using hv0
  rw [hr, this]

/-- C11: the `Images` of the `Article` that `Extract` returns are the `src`
values of the `img` descendants of the chosen content node that carry a `src`
attribute, in document order, one per such element, duplicates kept. -/
theorem Extract_images (lib : Lib) (source : Str) (doc : Node)
    (hdoc : lib.NewDocumentFromReader source = .ok doc) :
    ∃ a r, Extract lib source = .ok a
      ∧ contentExtract lib (normalizedBody lib doc) = some r
      ∧ a.Images =
        ((Find r.node (.tags ["img".toList])).filter fun s =>
          (Attr [s] "src".toList).isSome).map (fun s => (Attr [s] "src".toList).getD [])
      ∧ a.Images.length =
        ((Find r.node (.tags ["img".toList])).filter fun s =>
          (Attr [s] "src".toList).isSome).length := by
  obtain ⟨v0, -, hr, -⟩ := contentExtract_spec lib (normalizedBody lib doc)
  have himg := filterMap_eq_filter_map (fun s : Ptr => Attr [s] "src".toList) []
    (Find (scoreOf lib v0).node (.tags ["img".toList]))
  unfold Extract
  simp only [hdoc, hr]
  refine ⟨_, _, rfl, rfl, himg, ?_⟩
  simp only [himg, List.length_map]

theorem Extract_images_witness :
    (evalLib exImgDoc).NewDocumentFromReader [] = .ok exImgDoc
      ∧ (∃ a r, Extract (evalLib exImgDoc) [] = .ok a
        ∧ contentExtract (evalLib exImgDoc) (normalizedBody (evalLib exImgDoc) exImgDoc) = some r
        ∧ a.Images =
          ((Find r.node (.tags ["img".toList])).filter fun s =>
            (Attr [s] "src".toList).isSome).map (fun s => (Attr [s] "src".toList).getD [])
        ∧ a.Images.length =
          ((Find r.node (.tags ["img".toList])).filter fun s =>
            (Attr [s] "src".toList).isSome).length)
      ∧ (Extract (evalLib exImgDoc) []).toOption.map (fun a => a.Images)
        = some ["a.png".toList, "a.png".toList] :=
  ⟨rfl, Extract_images (evalLib exImgDoc) [] exImgDoc rfl, by decide!⟩

/-- C12, amended: for every parsed document without a `body` element `Extract`
returns no error: it returns an `Article` whose `Content` is empty and whose
`Images` are empty. -/
theorem Extract_without_body (lib : Lib) (source : Str) (doc : Node)
    (hdoc : lib.NewDocumentFromReader source = .ok doc)
    (hnb : Find [⟨doc, []⟩] (.tags ["body".toList]) = []) :
    ∃ a, Extract lib source = .ok a ∧ a.Content = [] ∧ a.Images = [] := by
  have hids : FindIds (load doc) [1] (.tags ["body".toList]) = [] :=
    FindIds_nil (load doc) 1 ⟨doc, []⟩ _ (deref_load_root doc) hnb
  have hbody : normalizedBody lib doc = [] := by
    unfold normalizedBody
    rw [hids]
    rfl
  unfold Extract
  simp only [hdoc, hbody, contentExtract_nil]
  exact ⟨_, rfl, rfl, rfl⟩

theorem Extract_without_body_witness :
    (evalLib exFrameset).NewDocumentFromReader [] = .ok exFrameset
      ∧ Find [⟨exFrameset, []⟩] (.tags ["body".toList]) = []
      ∧ ∃ a, Extract (evalLib exFrameset) [] = .ok a ∧ a.Content = [] ∧ a.Images = [] :=
  ⟨rfl, rfl, Extract_without_body (evalLib exFrameset) [] exFrameset rfl rfl⟩

/-- C12, counterexample: the frameset document has no `body` element and
`Extract` returns an `Article`, with empty title, content and images, not an
error. -/
theorem Extract_frameset_ok :
    (Find [⟨exFrameset, []⟩] (.tags ["body".toList])).length = 0
      ∧ (Extract (evalLib exFrameset)
          "<html><head></head><frameset></frameset></html>".toList).toOption.map
          (fun a => (a.Title, a.Content, a.Images)) = some ([], [], []) := by
  decide!

/-! ### A second run of `normalize` -/

mutual
theorem labelNode_ids : ∀ (n : Node) (k : Nat),
    k < (labelNode k n).2
      ∧ (∀ j ∈ walkIds (labelNode k n).1, k ≤ j ∧ j < (labelNode k n).2)
      ∧ (walkIds (labelNode k n).1).Nodup
  | .mk t d a cs, k => by
    obtain ⟨h1, h2, h3⟩ := labelList_ids cs (k + 1)
    simp only [labelNode, walkIds]
    refine ⟨by omega, ?_, ?_⟩
    · intro j hj
      rcases List.mem_cons.mp hj with rfl | hj
      · omega
      · have := h2 j hj
        omega
    · rw [List.nodup_cons]
      refine ⟨fun hk => ?_, h3⟩
      have := h2 k hk
      omega
theorem labelList_ids : ∀ (cs : List Node) (k : Nat),
    k ≤ (labelList k cs).2
      ∧ (∀ j ∈ walkIdsList (labelList k cs).1, k ≤ j ∧ j < (labelList k cs).2)
      ∧ (walkIdsList (labelList k cs).1).Nodup
  | [], k => by
    simp [labelList, walkIdsList]
  | c :: cs, k => by
    obtain ⟨h1, h2, h3⟩ := labelNode_ids c k
    obtain ⟨g1, g2, g3⟩ := labelList_ids cs (labelNode k c).2
    simp only [labelList, walkIdsList]
    refine ⟨by omega, ?_, ?_⟩
    · intro j hj
      rcases List.mem_append.mp hj with hj | hj
      · have := h2 j hj
        omega
      · have := g2 j hj
        omega
    · rw [List.nodup_append]
      refine ⟨h3, g3, ?_⟩
      intro j hj1 hj2
      have := h2 j hj1
      have := g2 j hj2
      omega
end

theorem subWList_append (a b : List WNode) : subWList (a ++ b) = subWList a ++ subWList b := by
  induction a with
  | nil => rfl
  | cons x xs ih =>
    show subW x ++ subWList (xs ++ b) = (subW x ++ subWList xs) ++ subWList b
    rw [ih, List.append_assoc]

theorem walkIdsList_append (a b : List WNode) :
    walkIdsList (a ++ b) = walkIdsList a ++ walkIdsList b := by
  induction a with
  | nil => rfl
  | cons x xs ih =>
    show walkIds x ++ walkIdsList (xs ++ b) = (walkIds x ++ walkIdsList xs) ++ walkIdsList b
    rw [ih, List.append_assoc]

mutual
theorem walkIds_eq : ∀ w : WNode, walkIds w = (subW w).map WNode.id
  | .mk i t d a ks => by
    simp only [walkIds, subW, List.map_cons, WNode.id]
    rw [walkIdsList_eq ks]
theorem walkIdsList_eq : ∀ ks : List WNode, walkIdsList ks = (subWList ks).map WNode.id
  | [] => rfl
  | k :: ks => by
    simp only [walkIdsList, subWList, List.map_append]
    rw [walkIds_eq k, walkIdsList_eq ks]
end

mutual
theorem walkNode_erase : ∀ (w : WNode) (up : List Node),
    (walkNode up (erase w)).map Ptr.node = (subW w).map erase
  | .mk i t d a ks, up => by
    simp only [erase, walkNode, subW, List.map_cons]
    rw [walkList_erase ks]
theorem walkList_erase : ∀ (ks : List WNode) (up : List Node),
    (walkList up (eraseList ks)).map Ptr.node = (subWList ks).map erase
  | [], _ => rfl
  | k :: ks, up => by
    simp only [eraseList, walkList, subWList, List.map_append]
    rw [walkNode_erase k up, walkList_erase ks up]
end

theorem self_mem_subW (w : WNode) : w ∈ subW w := by
  cases w
  simp [subW]

theorem kids_subW (w : WNode) : subWList w.kids ⊆ subW w := by
  cases w
  intro x hx
  simp only [subW, WNode.kids] at hx ⊢
  exact List.mem_cons_of_mem _ hx

theorem mem_subWList {x : WNode} {ks : List WNode} :
    x ∈ subWList ks ↔ ∃ k ∈ ks, x ∈ subW k := by
  induction ks with
  | nil => simp [subWList]
  | cons k ks ih =>
    simp only [subWList, List.mem_append, ih, List.mem_cons, exists_eq_or_imp]

theorem spliceNode_id (i : Nat) (new : List WNode) (w : WNode) :
    (spliceNode i new w).1.id = w.id := by
  cases w; rfl

theorem spliceNode_shell (i : Nat) (new : List WNode) (w : WNode) :
    (erase (spliceNode i new w).1).shell = (erase w).shell := by
  cases w; rfl

theorem spliceNode_kids (i : Nat) (new : List WNode) (w : WNode) :
    (spliceNode i new w).1.kids = (spliceList i new w.kids).1 := by
  cases w; rfl

theorem spliceNode_snd (i : Nat) (new : List WNode) (w : WNode) :
    (spliceNode i new w).2 = (spliceList i new w.kids).2 := by
  cases w; rfl

mutual
theorem spliceNode_records : ∀ (i : Nat) (w : WNode),
    ((subW (spliceNode i [] w).1 ++ subWList (spliceNode i [] w).2).map
        fun x => (x.id, (erase x).shell)).Perm
      ((subW w).map fun x => (x.id, (erase x).shell))
  | i, .mk j t d a ks => by
    simp only [spliceNode, subW, List.cons_append, List.map_cons]
    exact List.Perm.cons _ (spliceList_records i ks)
theorem spliceList_records : ∀ (i : Nat) (ks : List WNode),
    ((subWList (spliceList i [] ks).1 ++ subWList (spliceList i [] ks).2).map
        fun x => (x.id, (erase x).shell)).Perm
      ((subWList ks).map fun x => (x.id, (erase x).shell))
  | _, [] => by
    simp [spliceList, subWList]
  | i, k :: ks => by
    simp only [spliceList]
    split_ifs with h
    · simp only [List.nil_append, subWList, List.append_nil]
      exact (List.perm_append_comm).map _
    · simp only [subWList, subWList_append, List.map_append]
      have h1 := spliceNode_records i k
      have h2 := spliceList_records i ks
      simp only [List.map_append] at h1 h2
      refine List.Perm.trans ?_ (List.Perm.append h1 h2)
      simp only [List.append_assoc]
      refine List.Perm.append_left _ ?_
      simp only [← List.append_assoc]
      refine List.Perm.append_right _ ?_
      exact List.perm_append_comm
end

theorem spliceList_mem (i : Nat) (ks : List WNode) (k' : WNode)
    (h : k' ∈ (spliceList i [] ks).1) :
    ∃ k ∈ ks, k' = k ∨ k' = (spliceNode i [] k).1 := by
  induction ks with
  | nil => simp [spliceList] at h
  | cons k ks ih =>
    simp only [spliceList] at h
    split_ifs at h with hk
    · simp only [List.nil_append] at h
      exact ⟨k', List.mem_cons_of_mem _ h, Or.inl rfl⟩
    · rcases List.mem_cons.mp h with h | h
      · exact ⟨k, List.mem_cons_self _ _, Or.inr h⟩
      · obtain ⟨k0, hk0, hor⟩ := ih h
        exact ⟨k0, List.mem_cons_of_mem _ hk0, hor⟩

theorem spliceList_keeps (i : Nat) (ks : List WNode) (k : WNode) (hk : k ∈ ks) (hi : k.id ≠ i) :
    k ∈ (spliceList i [] ks).1 ∨ (spliceNode i [] k).1 ∈ (spliceList i [] ks).1 := by
  induction ks with
  | nil => simp at hk
  | cons k0 ks ih =>
    simp only [spliceList]
    split_ifs with h0
    · rcases List.mem_cons.mp hk with rfl | hk
      · exact absurd h0 hi
      · exact Or.inl (by simpa using hk)
    · rcases List.mem_cons.mp hk with rfl | hk
      · exact Or.inr (List.mem_cons_self _ _)
      · rcases ih hk with h | h
        · exact Or.inl (List.mem_cons_of_mem _ h)
        · exact Or.inr (List.mem_cons_of_mem _ h)

mutual
theorem subW_trans : ∀ (w : WNode) (r x : WNode), r ∈ subW w → x ∈ subW r → x ∈ subW w
  | .mk i t d a ks, r, x => by
    intro hr hx
    simp only [subW, List.mem_cons] at hr ⊢
    rcases hr with rfl | hr
    · simpa only [subW, List.mem_cons] using hx
    · exact Or.inr (subWList_trans ks r x hr hx)
theorem subWList_trans : ∀ (ks : List WNode) (r x : WNode),
    r ∈ subWList ks → x ∈ subW r → x ∈ subWList ks
  | [], _, _ => by
    intro hr
    simp [subWList] at hr
  | k :: ks, r, x => by
    intro hr hx
    simp only [subWList, List.mem_append] at hr ⊢
    rcases hr with hr | hr
    · exact Or.inl (subW_trans k r x hr hx)
    · exact Or.inr (subWList_trans ks r x hr hx)
end

mutual
theorem spliceNode_removed : ∀ (i : Nat) (w : WNode) (r : WNode),
    r ∈ (spliceNode i [] w).2 → r ∈ subWList w.kids ∧ r.id = i
  | i, .mk j t d a ks, r => by
    intro h
    simp only [spliceNode] at h
    exact spliceList_removed i ks r h
theorem spliceList_removed : ∀ (i : Nat) (ks : List WNode) (r : WNode),
    r ∈ (spliceList i [] ks).2 → r ∈ subWList ks ∧ r.id = i
  | _, [], _ => by
    intro h
    simp [spliceList] at h
  | i, k :: ks, r => by
    intro h
    simp only [spliceList] at h
    simp only [subWList, List.mem_append]
    split_ifs at h with hk
    · simp only [List.mem_singleton] at h
      subst h
      exact ⟨Or.inl (self_mem_subW _), hk⟩
    · rcases List.mem_append.mp h with h | h
      · obtain ⟨h1, h2⟩ := spliceNode_removed i k r h
        exact ⟨Or.inl (kids_subW k h1), h2⟩
      · obtain ⟨h1, h2⟩ := spliceList_removed i ks r h
        exact ⟨Or.inr h1, h2⟩
end

theorem Match_children (m : Matcher) (t : NodeType) (d : Str) (a : List Attribute)
    (cs cs' : List Node) : m.Match (.mk t d a cs) = m.Match (.mk t d a cs') := by
  cases m <;> rfl

mutual
theorem matchIds_splice : ∀ (m : Matcher) (i : Nat) (w : WNode) (j : Nat),
    j ∈ matchIds m (spliceNode i [] w).1 → j ∈ matchIds m w
  | m, i, .mk i0 t d a ks, j => by
    intro h
    simp only [spliceNode, matchIds, List.mem_append] at h ⊢
    rcases h with h | h
    · left
      rw [Match_children m t d a (eraseList ks) (eraseList (spliceList i [] ks).1)]
      exact h
    · exact Or.inr (matchIdsList_splice m i ks j h)
theorem matchIdsList_splice : ∀ (m : Matcher) (i : Nat) (ks : List WNode) (j : Nat),
    j ∈ matchIdsList m (spliceList i [] ks).1 → j ∈ matchIdsList m ks
  | _, _, [], _ => by
    intro h
    simpa [spliceList] using h
  | m, i, k :: ks, j => by
    intro h
    simp only [spliceList] at h
    simp only [matchIdsList, List.mem_append]
    split_ifs at h with hk
    · exact Or.inr (by simpa using h)
    · simp only [matchIdsList, List.mem_append] at h
      rcases h with h | h
      · exact Or.inl (matchIds_splice m i k j h)
      · exact Or.inr (matchIdsList_splice m i ks j h)
end

theorem erase_type_splice (i : Nat) (w : WNode) :
    (erase (spliceNode i [] w).1).type = (erase w).type := by
  cases w; rfl

/-- The matches below the element children only shrink under `splice`. -/
theorem findKids_splice (m : Matcher) (i : Nat) (ks : List WNode) (j : Nat)
    (h : j ∈ (((spliceList i [] ks).1.filter fun k =>
      (erase k).type == NodeType.ElementNode).flatMap (matchIds m))) :
    j ∈ ((ks.filter fun k => (erase k).type == NodeType.ElementNode).flatMap (matchIds m)) := by
  simp only [List.mem_flatMap, List.mem_filter] at h ⊢
  obtain ⟨k', ⟨hk', ht⟩, hj⟩ := h
  obtain ⟨k, hk, hor⟩ := spliceList_mem i ks k' hk'
  rcases hor with rfl | rfl
  · exact ⟨k', ⟨hk, ht⟩, hj⟩
  · rw [erase_type_splice] at ht
    exact ⟨k, ⟨hk, ht⟩, matchIds_splice m i k j hj⟩

mutual
theorem spliceNode_noop : ∀ (i : Nat) (new : List WNode) (w : WNode),
    i ∉ walkIdsList w.kids → spliceNode i new w = (w, [])
  | i, new, .mk j t d a ks => by
    intro h
    simp only [WNode.kids] at h
    simp only [spliceNode, spliceList_noop i new ks h]
theorem spliceList_noop : ∀ (i : Nat) (new : List WNode) (ks : List WNode),
    i ∉ walkIdsList ks → spliceList i new ks = (ks, [])
  | _, _, [] => by
    intro _
    rfl
  | i, new, k :: ks => by
    intro h
    simp only [walkIdsList, List.mem_append, not_or] at h
    obtain ⟨h1, h2⟩ := h
    have hk : ¬ k.id = i := by
      intro e
      apply h1
      cases k
      simp only [walkIds, WNode.id] at e ⊢
      rw [e]
      exact List.mem_cons_self _ _
    have h1' : i ∉ walkIdsList k.kids := by
      intro e
      apply h1
      cases k
      simp only [walkIds, WNode.kids] at e ⊢
      exact List.mem_cons_of_mem _ e
    simp only [spliceList, if_neg hk, spliceNode_noop i new k h1', spliceList_noop i new ks h2,
      List.append_nil]
end

theorem walkIds_cons (w : WNode) : walkIds w = w.id :: walkIdsList w.kids := by
  cases w; rfl

mutual
theorem walkIds_sublist : ∀ (w r : WNode), r ∈ subW w → (walkIds r).Sublist (walkIds w)
  | .mk i t d a ks, r => by
    intro h
    simp only [subW, List.mem_cons] at h
    rcases h with rfl | h
    · exact List.Sublist.refl _
    · simp only [walkIds]
      exact (walkIdsList_sublist ks r h).trans (List.sublist_cons_self _ _)
theorem walkIdsList_sublist : ∀ (ks : List WNode) (r : WNode),
    r ∈ subWList ks → (walkIds r).Sublist (walkIdsList ks)
  | [], _ => by
    intro h
    simp [subWList] at h
  | k :: ks, r => by
    intro h
    simp only [subWList, List.mem_append] at h
    simp only [walkIdsList]
    rcases h with h | h
    · exact (walkIds_sublist k r h).trans (List.sublist_append_left _ _)
    · exact (walkIdsList_sublist ks r h).trans (List.sublist_append_right _ _)
end

theorem spliceList_ids (i : Nat) (ks : List WNode) :
    (walkIdsList (spliceList i [] ks).1 ++ walkIdsList (spliceList i [] ks).2).Perm
      (walkIdsList ks) := by
  have h := (spliceList_records i ks).map Prod.fst
  simp only [List.map_map, List.map_append] at h
  rw [walkIdsList_eq, walkIdsList_eq, walkIdsList_eq]
  exact h

mutual
theorem spliceNode_not_kid : ∀ (i : Nat) (w : WNode),
    (walkIds w).Nodup → i ∉ walkIdsList (spliceNode i [] w).1.kids
  | i, .mk j t d a ks => by
    intro h
    simp only [walkIds, List.nodup_cons] at h
    simp only [spliceNode, WNode.kids]
    exact spliceList_not_kid i ks h.2
theorem spliceList_not_kid : ∀ (i : Nat) (ks : List WNode),
    (walkIdsList ks).Nodup → i ∉ walkIdsList (spliceList i [] ks).1
  | _, [] => by
    intro _
    simp [spliceList, walkIdsList]
  | i, k :: ks => by
    intro h
    simp only [walkIdsList, List.nodup_append] at h
    obtain ⟨h1, h2, h3⟩ := h
    simp only [spliceList]
    split_ifs with hk
    · simp only [List.nil_append]
      intro hi
      refine h3 ?_ hi
      rw [walkIds_cons, hk]
      exact List.mem_cons_self _ _
    · simp only [walkIdsList, List.mem_append, not_or]
      refine ⟨?_, spliceList_not_kid i ks h2⟩
      rw [walkIds_cons, spliceNode_id]
      simp only [List.mem_cons, not_or]
      exact ⟨fun e => hk e.symm, spliceNode_not_kid i k h1⟩
end

theorem splice_cons (i : Nat) (r : WNode) (rest : Dom) :
    ∃ tail, splice i [] (r :: rest) = (spliceNode i [] r).1 :: tail := by
  simp only [splice, List.map_cons, List.cons_append]
  exact ⟨_, rfl⟩

theorem splice_trees (i : Nat) (ds : List WNode) :
    ((subWList (ds.map fun r => (spliceNode i [] r).1)
        ++ subWList (ds.flatMap fun r => (spliceNode i [] r).2)).map
          fun x => (x.id, (erase x).shell)).Perm
      ((subWList ds).map fun x => (x.id, (erase x).shell)) := by
  induction ds with
  | nil => simp [subWList]
  | cons r rs ih =>
    simp only [List.map_cons, List.flatMap_cons, subWList, subWList_append, List.map_append]
    have h1 := spliceNode_records i r
    simp only [List.map_append] at h1 ih
    refine List.Perm.trans ?_ (List.Perm.append h1 ih)
    simp only [List.append_assoc]
    refine List.Perm.append_left _ ?_
    simp only [← List.append_assoc]
    refine List.Perm.append_right _ ?_
    exact List.perm_append_comm

theorem records_splice (i : Nat) (dom : Dom) : (records (splice i [] dom)).Perm (records dom) := by
  unfold records splice
  rw [subWList_append]
  exact splice_trees i dom

theorem walkIdsList_records (dom : Dom) : walkIdsList dom = (records dom).map Prod.fst := by
  rw [walkIdsList_eq, records, List.map_map]
  rfl

theorem nodup_splice (i : Nat) (dom : Dom) (h : (walkIdsList dom).Nodup) :
    (walkIdsList (splice i [] dom)).Nodup := by
  rw [walkIdsList_records] at h ⊢
  exact (((records_splice i dom).map Prod.fst).nodup_iff).mpr h

theorem mem_kidIds {j : Nat} {dom : Dom} :
    j ∈ kidIds dom ↔ ∃ r ∈ dom, j ∈ walkIdsList r.kids := by
  simp [kidIds, List.mem_flatMap]

theorem kidIds_subset_ids (dom : Dom) : kidIds dom ⊆ walkIdsList dom := by
  intro j hj
  obtain ⟨r, hr, hj⟩ := mem_kidIds.mp hj
  have h1 : (walkIds r).Sublist (walkIdsList dom) :=
    walkIdsList_sublist dom r (mem_subWList.mpr ⟨r, hr, self_mem_subW r⟩)
  refine h1.subset ?_
  rw [walkIds_cons]
  exact List.mem_cons_of_mem _ hj

theorem kidIds_splice_subset (i : Nat) (dom : Dom) : kidIds (splice i [] dom) ⊆ kidIds dom := by
  intro j hj
  obtain ⟨r', hr', hj⟩ := mem_kidIds.mp hj
  simp only [splice, List.mem_append, List.mem_map, List.mem_flatMap] at hr'
  rcases hr' with ⟨r, hr, rfl⟩ | ⟨r, hr, hrem⟩
  · rw [spliceNode_kids] at hj
    refine mem_kidIds.mpr ⟨r, hr, ?_⟩
    exact (spliceList_ids i r.kids).subset (List.mem_append_left _ hj)
  · obtain ⟨h1, -⟩ := spliceNode_removed i r r' hrem
    refine mem_kidIds.mpr ⟨r, hr, ?_⟩
    have := (walkIdsList_sublist r.kids r' h1).subset
    apply this
    rw [walkIds_cons]
    exact List.mem_cons_of_mem _ hj

theorem not_mem_kidIds_splice (i : Nat) (dom : Dom) (h : (walkIdsList dom).Nodup) :
    i ∉ kidIds (splice i [] dom) := by
  intro hi
  obtain ⟨r', hr', hj⟩ := mem_kidIds.mp hi
  simp only [splice, List.mem_append, List.mem_map, List.mem_flatMap] at hr'
  have hsub : ∀ r ∈ dom, (walkIds r).Nodup := fun r hr =>
    (walkIdsList_sublist dom r (mem_subWList.mpr ⟨r, hr, self_mem_subW r⟩)).nodup h
  rcases hr' with ⟨r, hr, rfl⟩ | ⟨r, hr, hrem⟩
  · exact spliceNode_not_kid i r (hsub r hr) hj
  · obtain ⟨h1, h2⟩ := spliceNode_removed i r r' hrem
    have hn : (walkIds r').Nodup :=
      (walkIds_sublist r r' (kids_subW r h1)).nodup (hsub r hr)
    rw [walkIds_cons, List.nodup_cons, h2] at hn
    exact hn.1 hj

theorem splice_noop (i : Nat) (new : List WNode) (dom : Dom) (h : i ∉ kidIds dom) :
    splice i new dom = dom := by
  have hr : ∀ r ∈ dom, spliceNode i new r = (r, []) := fun r hr =>
    spliceNode_noop i new r fun hj => h (mem_kidIds.mpr ⟨r, hr, hj⟩)
  unfold splice
  have h1 : (dom.map fun r => (spliceNode i new r).1) = dom := by
    conv_rhs => rw [← List.map_id dom]
    apply List.map_congr_left
    intro r hr'
    rw [hr r hr']
    rfl
  have h2 : (dom.flatMap fun r => (spliceNode i new r).2) = [] := by
    rw [List.flatMap_eq_nil_iff]
    intro r hr'
    rw [hr r hr']
  rw [h1, h2, List.append_nil]

theorem eraseList_eq_map (ks : List WNode) : eraseList ks = ks.map erase := by
  induction ks with
  | nil => rfl
  | cons k ks ih => simp only [eraseList, List.map_cons, ih]

theorem erase_children (w : WNode) : (erase w).children = w.kids.map erase := by
  cases w
  simp only [erase, Node.children, WNode.kids, eraseList_eq_map]

theorem removedByName_shell (n : Node) : removedByName n = removedByName n.shell := by
  cases n; rfl

theorem blocklisted_shell (n : Node) : blocklisted n = blocklisted n.shell := by
  cases n; rfl

theorem emptiable_shell (lib : Lib) (n : Node) : emptiable lib n = emptiable lib n.shell := by
  cases n; rfl

theorem NodeName_shell (n : Node) (up : List Node) :
    NodeName [⟨n, up⟩] = NodeName [⟨n.shell, []⟩] := by
  cases n; rfl

theorem type_shell (n : Node) : n.type = n.shell.type := by
  cases n; rfl

theorem stays_parent (lib : Lib) (p p' c : Node) (hp : p.shell = p'.shell) :
    stays lib p c = stays lib p' c := by
  unfold stays
  rw [type_shell p, hp, ← type_shell p']

theorem Find_erase_length (w : WNode) (up : List Node) (m : Matcher) :
    (Find [⟨erase w, up⟩] m).length
      = ((w.kids.filter fun k => (erase k).type == NodeType.ElementNode).flatMap
          (matchIds m)).length := by
  cases w with
  | mk i t d a ks =>
    simp only [Find, Children, Contents, List.flatMap_cons, List.flatMap_nil, List.append_nil,
      WNode.kids]
    exact (FindIds_kids_length m (erase (.mk i t d a ks) :: up) ks).symm

theorem Find_erase_nil (w : WNode) (up : List Node) (m : Matcher) :
    Find [⟨erase w, up⟩] m = []
      ↔ ((w.kids.filter fun k => (erase k).type == NodeType.ElementNode).flatMap
          (matchIds m)) = [] := by
  constructor
  · intro h
    apply List.length_eq_zero.mp
    rw [← Find_erase_length w up m, h]
    rfl
  · intro h
    apply List.length_eq_zero.mp
    rw [Find_erase_length w up m, h]
    rfl

theorem mem_getNodeTextList (cs : List Node) (ch : Char) :
    ch ∈ getNodeTextList cs ↔ ∃ c ∈ cs, ch ∈ getNodeText c := by
  induction cs with
  | nil => simp [getNodeTextList]
  | cons a as ih =>
    simp only [getNodeTextList, List.mem_append, ih, List.mem_cons, exists_eq_or_imp]

theorem TrimSpace_ne_nil (s : Str) : TrimSpace s ≠ [] ↔ ∃ ch ∈ s, isSpace ch = false := by
  rw [Ne, TrimSpace_eq_nil]
  simp

theorem Children_empty (n : Node) (up : List Node) :
    (Children [⟨n, up⟩]).length ≤ 0 ↔ ∀ c ∈ n.children, c.type ≠ NodeType.ElementNode := by
  rw [Nat.le_zero, List.length_eq_zero]
  simp only [Children, Contents, List.flatMap_cons, List.flatMap_nil, List.append_nil,
    List.filter_eq_nil_iff, List.mem_map, beq_iff_eq, forall_exists_index, and_imp]
  constructor
  · intro h c hc
    exact h ⟨c, n :: up⟩ c hc rfl
  · intro h q c hc e
    rw [← e]
    exact h c hc

/-- The test for an empty node does not depend on where the node is. -/
theorem hollow_iff (n : Node) (up : List Node) :
    hollow n = true
      ↔ (Children [⟨n, up⟩]).length ≤ 0 ∧ TrimSpace (Text [⟨n, up⟩]) = [] := by
  unfold hollow
  rw [Bool.and_eq_true, decide_eq_true_eq, beq_iff_eq, Children_empty, Children_empty,
    Text_single, Text_single]

theorem hollow_spec (n : Node) :
    hollow n = true
      ↔ (∀ c ∈ n.children, c.type ≠ NodeType.ElementNode)
        ∧ ∀ ch ∈ getNodeText n, isSpace ch = true := by
  rw [hollow_iff n [], Children_empty, Text_single, TrimSpace_eq_nil]

/-- A node with a child that stays is not empty. -/
theorem not_hollow_of_stays (lib : Lib) (n : Node)
    (h : n.children.any (stays lib n) = true) : hollow n = false := by
  rw [Bool.eq_false_iff]
  intro hh
  rw [hollow_spec] at hh
  rw [List.any_eq_true] at h
  obtain ⟨c, hc, hst⟩ := h
  unfold stays at hst
  simp only [Bool.and_eq_true, Bool.or_eq_true, beq_iff_eq, bne_iff_ne, ne_eq] at hst
  rcases hst.2 with ⟨ht, -⟩ | ⟨⟨ht, hn⟩, hd⟩
  · exact hh.1 c hc ht
  · obtain ⟨ch, hch, hsp⟩ := (TrimSpace_ne_nil _).mp hd
    have : ch ∈ getNodeText n := by
      cases n with
      | mk t d a cs =>
        simp only [Node.type] at hn
        simp only [Node.children] at hc
        simp only [getNodeText, if_neg hn]
        refine (mem_getNodeTextList cs ch).mpr ⟨c, hc, ?_⟩
        cases c with
        | mk t2 d2 a2 cs2 =>
          simp only [Node.type] at ht
          simp only [Node.data] at hch
          simp only [getNodeText, ht, if_true]
          exact hch
    rw [hh.2 ch this] at hsp
    exact Bool.noConfusion hsp

/-- A child that stays is not a node that `normalize` takes out. -/
theorem not_removed_of_stays (lib : Lib) (p c : Node) (h : stays lib p c = true) :
    (removedAtVisit lib c || blocklisted c) = false := by
  unfold stays at h
  simp only [Bool.and_eq_true, Bool.or_eq_true, beq_iff_eq, bne_iff_ne, ne_eq,
    Bool.not_eq_true'] at h
  obtain ⟨⟨h1, h2⟩, h3⟩ := h
  unfold removedAtVisit
  rw [h1, h2, Bool.false_or, Bool.or_false]
  rcases h3 with ⟨-, h3⟩ | ⟨⟨ht, -⟩, hd⟩
  · exact h3
  · rw [Bool.and_eq_false_iff]
    right
    rw [Bool.eq_false_iff]
    intro hh
    rw [hollow_spec] at hh
    obtain ⟨ch, hch, hsp⟩ := (TrimSpace_ne_nil _).mp hd
    have : ch ∈ getNodeText c := by
      cases c with
      | mk t2 d2 a2 cs2 =>
        simp only [Node.type] at ht
        simp only [Node.data] at hch
        simp only [getNodeText, ht, if_true]
        exact hch
    rw [hh.2 ch this] at hsp
    exact Bool.noConfusion hsp

mutual
theorem text_spliceNode : ∀ (i : Nat) (w : WNode) (ch : Char),
    ch ∈ getNodeText (erase (spliceNode i [] w).1) → ch ∈ getNodeText (erase w)
  | i, .mk j t d a ks, ch => by
    intro h
    simp only [spliceNode, erase, getNodeText] at h ⊢
    split_ifs at h ⊢ with ht
    · exact h
    · exact text_spliceList i ks ch h
theorem text_spliceList : ∀ (i : Nat) (ks : List WNode) (ch : Char),
    ch ∈ getNodeTextList (eraseList (spliceList i [] ks).1) → ch ∈ getNodeTextList (eraseList ks)
  | _, [], _ => by
    intro h
    simpa [spliceList] using h
  | i, k :: ks, ch => by
    intro h
    simp only [spliceList] at h
    simp only [eraseList, getNodeTextList, List.mem_append]
    split_ifs at h with hk
    · exact Or.inr (by simpa using h)
    · simp only [eraseList, getNodeTextList, List.mem_append] at h
      rcases h with h | h
      · exact Or.inl (text_spliceNode i k ch h)
      · exact Or.inr (text_spliceList i ks ch h)
end

/-- An empty node stays empty when a node is taken out. -/
theorem hollow_splice (i : Nat) (w : WNode) (h : hollow (erase w) = true) :
    hollow (erase (spliceNode i [] w).1) = true := by
  rw [hollow_spec] at h ⊢
  constructor
  · intro c hc
    rw [erase_children, spliceNode_kids, List.mem_map] at hc
    obtain ⟨k', hk', rfl⟩ := hc
    obtain ⟨k, hk, hor⟩ := spliceList_mem i w.kids k' hk'
    have hkm : erase k ∈ (erase w).children := by
      rw [erase_children]
      exact List.mem_map.mpr ⟨k, hk, rfl⟩
    rcases hor with rfl | rfl
    · exact h.1 _ hkm
    · rw [erase_type_splice]
      exact h.1 _ hkm
  · intro ch hch
    exact h.2 ch (text_spliceNode i w ch hch)

theorem data_shell (n : Node) : n.data = n.shell.data := by
  cases n; rfl

/-- A child that stays and has itself a child that stays, where it needs one,
still stays after a node was taken out below it. -/
theorem stays_splice (lib : Lib) (i : Nat) (p : Node) (k : WNode)
    (hg : good lib (erase k) = true)
    (hkeep : (erase k).children.any (stays lib (erase k)) = true →
      (erase (spliceNode i [] k).1).children.any (stays lib (erase (spliceNode i [] k).1)) = true)
    (h : stays lib p (erase k) = true) : stays lib p (erase (spliceNode i [] k).1) = true := by
  have hs := spliceNode_shell i [] k
  unfold stays at h ⊢
  rw [removedByName_shell, blocklisted_shell, type_shell, data_shell, emptiable_shell, hs,
    ← removedByName_shell, ← blocklisted_shell, ← type_shell, ← data_shell, ← emptiable_shell]
  simp only [Bool.and_eq_true, Bool.or_eq_true, Bool.not_eq_true', Bool.and_eq_false_iff] at h ⊢
  obtain ⟨⟨h1, h2⟩, h3⟩ := h
  refine ⟨⟨h1, h2⟩, ?_⟩
  rcases h3 with ⟨ht, h3⟩ | h3
  · left
    refine ⟨ht, ?_⟩
    rcases h3 with h3 | h3
    · exact Or.inl h3
    · cases he : emptiable lib (erase k) with
      | false => exact Or.inl rfl
      | true =>
        right
        unfold good at hg
        rw [Bool.and_eq_true, Bool.or_eq_true, Bool.or_eq_true, Bool.or_eq_true] at hg
        rcases hg.1 with ((hA | hA) | hA) | hA
        · rw [he] at hA; exact Bool.noConfusion hA
        · rw [h1] at hA; exact Bool.noConfusion hA
        · rw [h3] at hA; exact Bool.noConfusion hA
        · exact not_hollow_of_stays lib _ (hkeep hA)
  · exact Or.inr h3

/-- The first part of `good` for a node after a node was taken out below it. -/
theorem good_top (lib : Lib) (i : Nat) (w : WNode)
    (hg : good lib (erase w) = true)
    (hkeep : (erase w).children.any (stays lib (erase w)) = true →
      (erase (spliceNode i [] w).1).children.any (stays lib (erase (spliceNode i [] w).1)) = true) :
    good lib (erase (spliceNode i [] w).1) = true := by
  have hs := spliceNode_shell i [] w
  unfold good at hg ⊢
  rw [Bool.and_eq_true] at hg ⊢
  obtain ⟨hA, hB⟩ := hg
  constructor
  · rw [emptiable_shell, removedByName_shell, hs, ← emptiable_shell, ← removedByName_shell]
    rw [Bool.or_eq_true, Bool.or_eq_true] at hA ⊢
    rcases hA with (hA | hA) | hA
    · exact Or.inl (Or.inl hA)
    · exact Or.inl (Or.inr (hollow_splice i w hA))
    · exact Or.inr (hkeep hA)
  · rw [NodeName_shell, hs, ← NodeName_shell (erase w) []]
    rw [Bool.or_eq_true] at hB ⊢
    rcases hB with hB | hB
    · exact Or.inl hB
    · right
      rw [List.isEmpty_iff] at hB ⊢
      rw [Find_erase_nil] at hB ⊢
      rw [List.eq_nil_iff_forall_not_mem] at hB ⊢
      intro j hj
      rw [spliceNode_kids] at hj
      exact hB j (findKids_splice _ i w.kids j hj)

mutual
theorem keep_spliceNode (lib : Lib) (i : Nat) : ∀ (w : WNode),
    (∀ x ∈ subW w, x.id = i → (removedAtVisit lib (erase x) || blocklisted (erase x)) = true) →
    (∀ x ∈ subW w, good lib (erase x) = true) →
    (∀ x ∈ subW (spliceNode i [] w).1, good lib (erase x) = true)
      ∧ ((erase w).children.any (stays lib (erase w)) = true →
        (erase (spliceNode i [] w).1).children.any
          (stays lib (erase (spliceNode i [] w).1)) = true)
  | .mk j t d a ks => by
    intro hi hg
    have hks := keep_spliceList lib i ks
      (fun y hy => hi y (kids_subW (.mk j t d a ks) hy))
      (fun y hy => hg y (kids_subW (.mk j t d a ks) hy))
    have hkeep : (erase (.mk j t d a ks)).children.any (stays lib (erase (.mk j t d a ks))) = true →
        (erase (spliceNode i [] (.mk j t d a ks)).1).children.any
          (stays lib (erase (spliceNode i [] (.mk j t d a ks)).1)) = true := by
      intro h
      rw [List.any_eq_true] at h ⊢
      obtain ⟨c, hc, hst⟩ := h
      rw [erase_children, List.mem_map] at hc
      obtain ⟨k, hk, rfl⟩ := hc
      simp only [WNode.kids] at hk
      have hki : k.id ≠ i := by
        intro e
        have h1 := hi k (kids_subW (.mk j t d a ks)
          (mem_subWList.mpr ⟨k, hk, self_mem_subW k⟩)) e
        rw [not_removed_of_stays lib _ _ hst] at h1
        exact Bool.noConfusion h1
      have hsh := spliceNode_shell i [] (.mk j t d a ks)
      rw [erase_children, spliceNode_kids]
      rcases spliceList_keeps i ks k hk hki with h | h
      · exact ⟨erase k, List.mem_map.mpr ⟨k, h, rfl⟩, by
          rw [stays_parent lib _ (erase (.mk j t d a ks)) _ hsh]; exact hst⟩
      · exact ⟨erase (spliceNode i [] k).1, List.mem_map.mpr ⟨_, h, rfl⟩, by
          rw [stays_parent lib _ (erase (.mk j t d a ks)) _ hsh]
          exact hks.2 _ k hk hst⟩
    refine ⟨?_, hkeep⟩
    intro x hx
    simp only [spliceNode, subW, List.mem_cons] at hx
    rcases hx with rfl | hx
    · have := good_top lib i (.mk j t d a ks) (hg _ (self_mem_subW _)) hkeep
      simpa only [spliceNode] using this
    · exact hks.1 x hx
theorem keep_spliceList (lib : Lib) (i : Nat) : ∀ (ks : List WNode),
    (∀ x ∈ subWList ks, x.id = i →
      (removedAtVisit lib (erase x) || blocklisted (erase x)) = true) →
    (∀ x ∈ subWList ks, good lib (erase x) = true) →
    (∀ x ∈ subWList (spliceList i [] ks).1, good lib (erase x) = true)
      ∧ ∀ (p : Node) (c : WNode), c ∈ ks → stays lib p (erase c) = true →
          stays lib p (erase (spliceNode i [] c).1) = true
  | [] => by
    intro _ _
    refine ⟨?_, ?_⟩
    · intro x hx
      simp [spliceList, subWList] at hx
    · intro p c hc
      simp at hc
  | k :: ks => by
    intro hi hg
    have hk := keep_spliceNode lib i k
      (fun y hy => hi y (by simp only [subWList, List.mem_append]; exact Or.inl hy))
      (fun y hy => hg y (by simp only [subWList, List.mem_append]; exact Or.inl hy))
    have hks := keep_spliceList lib i ks
      (fun y hy => hi y (by simp only [subWList, List.mem_append]; exact Or.inr hy))
      (fun y hy => hg y (by simp only [subWList, List.mem_append]; exact Or.inr hy))
    refine ⟨?_, ?_⟩
    · intro x hx
      simp only [spliceList] at hx
      split_ifs at hx with hki
      · simp only [List.nil_append] at hx
        exact hg x (by simp only [subWList, List.mem_append]; exact Or.inr hx)
      · simp only [subWList, List.mem_append] at hx
        rcases hx with hx | hx
        · exact hk.1 x hx
        · exact hks.1 x hx
    · intro p c hc hst
      rcases List.mem_cons.mp hc with rfl | hc
      · exact stays_splice lib i p c
          (hg c (by simp only [subWList, List.mem_append]; exact Or.inl (self_mem_subW c)))
          hk.2 hst
      · exact hks.2 p c hc hst
end

/-- The condition `good` on every node in memory survives a `splice` of a node
that the loops of `normalize` take out. -/
theorem good_splice (lib : Lib) (i : Nat) (dom : Dom)
    (hi : ∀ x ∈ subWList dom, x.id = i →
      (removedAtVisit lib (erase x) || blocklisted (erase x)) = true)
    (hg : ∀ x ∈ subWList dom, good lib (erase x) = true) :
    ∀ x ∈ subWList (splice i [] dom), good lib (erase x) = true := by
  intro x hx
  unfold splice at hx
  rw [subWList_append, List.mem_append] at hx
  rcases hx with hx | hx
  · obtain ⟨r', hr', hx⟩ := mem_subWList.mp hx
    obtain ⟨r, hr, rfl⟩ := List.mem_map.mp hr'
    have hsub : ∀ y ∈ subW r, y ∈ subWList dom := fun y hy => mem_subWList.mpr ⟨r, hr, hy⟩
    exact (keep_spliceNode lib i r (fun y hy => hi y (hsub y hy))
      (fun y hy => hg y (hsub y hy))).1 x hx
  · obtain ⟨r', hr', hx⟩ := mem_subWList.mp hx
    obtain ⟨r, hr, hrem⟩ := List.mem_flatMap.mp hr'
    obtain ⟨h1, -⟩ := spliceNode_removed i r r' hrem
    have h2 : r' ∈ subW r := kids_subW r h1
    exact hg x (mem_subWList.mpr ⟨r, hr, subW_trans r r' x h2 hx⟩)

mutual
theorem spliceNode_origin : ∀ (i : Nat) (w x' : WNode), x' ∈ subW (spliceNode i [] w).1 →
    ∃ x ∈ subW w, x' = x ∨ x' = (spliceNode i [] x).1
  | i, .mk j t d a ks, x' => by
    intro h
    simp only [spliceNode, subW, List.mem_cons] at h
    rcases h with rfl | h
    · exact ⟨.mk j t d a ks, self_mem_subW _, Or.inr (by simp only [spliceNode])⟩
    · obtain ⟨x, hx, hor⟩ := spliceList_origin i ks x' h
      exact ⟨x, kids_subW (.mk j t d a ks) hx, hor⟩
theorem spliceList_origin : ∀ (i : Nat) (ks : List WNode) (x' : WNode),
    x' ∈ subWList (spliceList i [] ks).1 →
    ∃ x ∈ subWList ks, x' = x ∨ x' = (spliceNode i [] x).1
  | _, [], x' => by
    intro h
    simp [spliceList, subWList] at h
  | i, k :: ks, x' => by
    intro h
    simp only [spliceList] at h
    simp only [subWList, List.mem_append]
    split_ifs at h with hk
    · simp only [List.nil_append] at h
      exact ⟨x', Or.inr h, Or.inl rfl⟩
    · simp only [subWList, List.mem_append] at h
      rcases h with h | h
      · obtain ⟨x, hx, hor⟩ := spliceNode_origin i k x' h
        exact ⟨x, Or.inl hx, hor⟩
      · obtain ⟨x, hx, hor⟩ := spliceList_origin i ks x' h
        exact ⟨x, Or.inr hx, hor⟩
end

/-- Every node in memory after a `splice` is a node from before it, as it was or
with the node taken out below it. -/
theorem splice_origin (i : Nat) (dom : Dom) (x' : WNode) (hx' : x' ∈ subWList (splice i [] dom)) :
    ∃ x ∈ subWList dom, x' = x ∨ x' = (spliceNode i [] x).1 := by
  unfold splice at hx'
  rw [subWList_append, List.mem_append] at hx'
  rcases hx' with hx | hx
  · obtain ⟨r', hr', hx⟩ := mem_subWList.mp hx
    obtain ⟨r, hr, rfl⟩ := List.mem_map.mp hr'
    obtain ⟨x, hx1, hor⟩ := spliceNode_origin i r x' hx
    exact ⟨x, mem_subWList.mpr ⟨r, hr, hx1⟩, hor⟩
  · obtain ⟨r', hr', hx⟩ := mem_subWList.mp hx
    obtain ⟨r, hr, hrem⟩ := List.mem_flatMap.mp hr'
    obtain ⟨h1, -⟩ := spliceNode_removed i r r' hrem
    have h2 : r' ∈ subW r := kids_subW r h1
    exact ⟨x', mem_subWList.mpr ⟨r, hr, subW_trans r r' x' h2 hx⟩, Or.inl rfl⟩

/-- A node that has a child that stays still has one after a `splice` of a node
that the loops of `normalize` take out. -/
theorem splice_keeps (lib : Lib) (i : Nat) (dom : Dom)
    (hi : ∀ x ∈ subWList dom, x.id = i →
      (removedAtVisit lib (erase x) || blocklisted (erase x)) = true)
    (hg : ∀ x ∈ subWList dom, good lib (erase x) = true)
    (x' : WNode) (hx' : x' ∈ subWList (splice i [] dom)) :
    ∃ x ∈ subWList dom, x.id = x'.id
      ∧ ((erase x).children.any (stays lib (erase x)) = true →
        (erase x').children.any (stays lib (erase x')) = true) := by
  obtain ⟨x, hx, hor⟩ := splice_origin i dom x' hx'
  rcases hor with rfl | rfl
  · exact ⟨x', hx, rfl, fun h => h⟩
  · refine ⟨x, hx, (spliceNode_id i [] x).symm, ?_⟩
    have hsub : ∀ y ∈ subW x, y ∈ subWList dom := fun y hy => subWList_trans dom x y hx hy
    exact (keep_spliceNode lib i x (fun y hy => hi y (hsub y hy))
      (fun y hy => hg y (hsub y hy))).2

mutual
theorem getNode_mem : ∀ (w : WNode) (i : Nat) (x : WNode),
    getNode i w = some x → x ∈ subW w ∧ x.id = i
  | .mk j t d a ks, i, x => by
    intro h
    simp only [getNode] at h
    split_ifs at h with hj
    · simp only [Option.some.injEq] at h
      subst h
      exact ⟨self_mem_subW _, hj⟩
    · obtain ⟨h1, h2⟩ := getList_mem ks i x h
      exact ⟨kids_subW (.mk j t d a ks) h1, h2⟩
theorem getList_mem : ∀ (ks : List WNode) (i : Nat) (x : WNode),
    getList i ks = some x → x ∈ subWList ks ∧ x.id = i
  | [], _, _ => by
    intro h
    simp [getList] at h
  | k :: ks, i, x => by
    intro h
    simp only [getList] at h
    simp only [subWList, List.mem_append]
    cases hk : getNode i k with
    | some y =>
      rw [hk] at h
      simp only [Option.some.injEq] at h
      subst h
      obtain ⟨h1, h2⟩ := getNode_mem k i y hk
      exact ⟨Or.inl h1, h2⟩
    | none =>
      rw [hk] at h
      obtain ⟨h1, h2⟩ := getList_mem ks i x h
      exact ⟨Or.inr h1, h2⟩
end

mutual
theorem locateNode_of_mem : ∀ (w : WNode) (i : Nat) (up : List Node),
    i ∈ walkIds w → ∃ p, locateNode i up w = some p
  | .mk j t d a ks, i, up => by
    intro h
    simp only [locateNode]
    split_ifs with hj
    · exact ⟨_, rfl⟩
    · simp only [walkIds, List.mem_cons] at h
      rcases h with h | h
      · exact absurd h.symm hj
      · exact locateList_of_mem ks i _ h
theorem locateList_of_mem : ∀ (ks : List WNode) (i : Nat) (up : List Node),
    i ∈ walkIdsList ks → ∃ p, locateList i up ks = some p
  | [], _, _ => by
    intro h
    simp [walkIdsList] at h
  | k :: ks, i, up => by
    intro h
    simp only [locateList]
    cases hk : locateNode i up k with
    | some q => exact ⟨q, rfl⟩
    | none =>
      simp only [walkIdsList, List.mem_append] at h
      rcases h with h | h
      · obtain ⟨p, hp⟩ := locateNode_of_mem k i up h
        rw [hk] at hp
        exact Option.noConfusion hp
      · exact locateList_of_mem ks i up h
end

theorem deref_one (dom : Dom) (i : Nat) (p : Ptr) (h : deref dom [i] = [p]) :
    ∃ x ∈ subWList dom, x.id = i ∧ erase x = p.node := by
  have hl : locateList i [] dom = some p := by
    simp only [deref, List.filterMap_cons, List.filterMap_nil] at h
    cases hh : locateList i [] dom with
    | none => rw [hh] at h; exact absurd h (by simp)
    | some q => rw [hh] at h; simpa using h
  obtain ⟨x, hx, he⟩ := locateList_get dom i [] p hl
  obtain ⟨h1, h2⟩ := getList_mem dom i x hx
  exact ⟨x, h1, h2, he⟩

theorem deref_of_mem (dom : Dom) (i : Nat) (h : i ∈ walkIdsList dom) :
    ∃ p, deref dom [i] = [p] := by
  obtain ⟨p, hp⟩ := locateList_of_mem dom i [] h
  exact ⟨p, by simp only [deref, List.filterMap_cons, List.filterMap_nil, hp]⟩

theorem deref_cases (dom : Dom) (i : Nat) :
    (deref dom [i] = [] ∧ getList i dom = none) ∨ ∃ p, deref dom [i] = [p] := by
  simp only [deref, List.filterMap_cons, List.filterMap_nil]
  cases h : locateList i [] dom with
  | none => exact Or.inl ⟨rfl, locateList_none dom i [] h⟩
  | some p => exact Or.inr ⟨p, rfl⟩

theorem id_unique (dom : Dom) (h : (walkIdsList dom).Nodup) (x y : WNode)
    (hx : x ∈ subWList dom) (hy : y ∈ subWList dom) (e : x.id = y.id) : x = y := by
  rw [walkIdsList_eq] at h
  exact List.inj_on_of_nodup_map h hx hy e

/-- A node keeps its type, data and attributes from one memory to another with
the same records. -/
theorem shell_unique (d d' : Dom) (hperm : (records d').Perm (records d))
    (h : (walkIdsList d).Nodup) (x x' : WNode) (hx : x ∈ subWList d) (hx' : x' ∈ subWList d')
    (e : x'.id = x.id) : (erase x').shell = (erase x).shell := by
  have h1 : (x'.id, (erase x').shell) ∈ records d' := List.mem_map.mpr ⟨x', hx', rfl⟩
  have h2 := hperm.subset h1
  obtain ⟨y, hy, hyy⟩ := List.mem_map.mp h2
  simp only [Prod.mk.injEq] at hyy
  have : y = x := id_unique d h y x hy hx (hyy.1.trans e)
  rw [← hyy.2, this]

theorem canBeRemove_iff (lib : Lib) (n : Node) (up : List Node) :
    canBeRemove lib [⟨n, up⟩] = true
      ↔ canBeRemoveIfEmpty.contains ((NodeName [⟨n, []⟩]).map lib.ToLower) = true
        ∧ hollow n = true := by
  have hname : NodeName [⟨n, up⟩] = NodeName [⟨n, []⟩] := rfl
  rw [hollow_iff n up]
  unfold canBeRemove
  rw [List.any_eq_true, hname]
  simp only [Bool.and_eq_true, beq_iff_eq, decide_eq_true_eq, List.contains_iff_exists_mem_beq]
  constructor
  · rintro ⟨v, hv, ⟨h1, h2⟩, h3⟩
    exact ⟨⟨v, hv, h1⟩, h2, h3⟩
  · rintro ⟨⟨v, hv, h1⟩, h2, h3⟩
    exact ⟨v, hv, ⟨h1, h2⟩, h3⟩

theorem fires_eq (lib : Lib) (s : Selection) :
    fires lib s = (NodeName s == "#comment".toList || canBeRemove lib s || classHit s
      || (NodeName s == "p".toList
        && (!(Find s (.tags (["span", "strong", "em", "b"].map String.toList))).isEmpty
          || (decide ((Children s).length ≤ 0) && decide ((TrimSpace (Text s)).length = 0))))) := by
  unfold fires classHit
  cases Attr s "class".toList <;> rfl

/-- No step of the second loop applies to a `good` node that the loop does not
remove. -/
theorem fires_false (lib : Lib) (w : WNode) (up : List Node) (hg : good lib (erase w) = true)
    (hr : removedAtVisit lib (erase w) = false) : fires lib [⟨erase w, up⟩] = false := by
  have hname : NodeName [⟨erase w, up⟩] = NodeName [⟨erase w, []⟩] := rfl
  have hattr : classHit [⟨erase w, up⟩] = classHit [⟨erase w, []⟩] := rfl
  unfold removedAtVisit at hr
  rw [Bool.or_eq_false_iff, Bool.and_eq_false_iff] at hr
  obtain ⟨hrn, hre⟩ := hr
  have hc : canBeRemove lib [⟨erase w, up⟩] = false := by
    rw [Bool.eq_false_iff]
    intro h
    rw [canBeRemove_iff] at h
    rcases hre with hre | hre
    · unfold emptiable at hre
      rw [Bool.or_eq_false_iff] at hre
      rw [hre.1] at h
      exact Bool.noConfusion h.1
    · rw [hre] at h
      exact Bool.noConfusion h.2
  unfold removedByName at hrn
  rw [Bool.or_eq_false_iff] at hrn
  unfold good at hg
  rw [Bool.and_eq_true] at hg
  rw [fires_eq, hc, hattr, hname, hrn.1, hrn.2]
  simp only [Bool.or_self, Bool.false_or, Bool.and_eq_false_iff]
  by_cases hp : NodeName [⟨erase w, []⟩] = "p".toList
  · right
    have hp' : (NodeName [⟨erase w, []⟩] == "p".toList) = true := by rw [beq_iff_eq]; exact hp
    rw [Bool.or_eq_false_iff]
    constructor
    · have hB := hg.2
      rw [hp'] at hB
      simp only [Bool.not_true, Bool.false_or, List.isEmpty_iff] at hB
      rw [Find_erase_nil] at hB
      have : Find [⟨erase w, up⟩]
          (.tags (["span", "strong", "em", "b"].map String.toList)) = [] :=
        (Find_erase_nil w up _).mpr hB
      rw [this]
      rfl
    · have he : emptiable lib (erase w) = true := by
        unfold emptiable
        rw [hp', Bool.or_true]
      rcases hre with hre | hre
      · rw [he] at hre
        exact Bool.noConfusion hre
      · rw [Bool.eq_false_iff]
        intro hh
        simp only [Bool.and_eq_true, decide_eq_true_eq, List.length_eq_zero] at hh
        rw [(hollow_iff (erase w) up).mpr hh] at hre
        exact Bool.noConfusion hre
  · left
    rw [beq_eq_false_iff_ne]
    exact hp

theorem Remove_single (d : Dom) (i : Nat) : Remove d [i] = splice i [] d := rfl

theorem splice_twice (i : Nat) (d : Dom) (hn : (walkIdsList d).Nodup) :
    splice i [] (splice i [] d) = splice i [] d :=
  splice_noop i [] _ (not_mem_kidIds_splice i d hn)

theorem foldl_class_remove (d : Dom) (i : Nat) (val : Str) (l : List Str)
    (hn : (walkIdsList d).Nodup) (h : (l.any fun cls => Contains val cls) = true) :
    l.foldl (fun d' cls => if Contains val cls then Remove d' [i] else d') d = splice i [] d := by
  have hstable : ∀ l' : List Str,
      l'.foldl (fun d' cls => if Contains val cls then Remove d' [i] else d') (splice i [] d)
        = splice i [] d := by
    intro l'
    apply foldl_noop
    intro c _
    split_ifs
    · rw [Remove_single, splice_twice i d hn]
    · rfl
  induction l with
  | nil => simp at h
  | cons c cs ih =>
    rw [List.foldl_cons]
    by_cases hc : Contains val c = true
    · rw [if_pos hc, Remove_single]
      exact hstable cs
    · rw [if_neg hc]
      apply ih
      rw [List.any_cons, Bool.or_eq_true] at h
      rcases h with h | h
      · exact absurd h hc
      · exact h

theorem FindIds_none (dom : Dom) (i : Nat) (m : Matcher) (h : getList i dom = none) :
    FindIds dom [i] m = [] := by
  simp [FindIds, kidsOf, h]

/-- What a step of the second loop does to a memory whose nodes are `good`: the
node is taken out when it is removed for its name or class or for being empty,
and nothing changes otherwise. -/
theorem normalizeVisit_eq (lib : Lib) (d : Dom) (i : Nat) (p : Ptr)
    (hn : (walkIdsList d).Nodup) (hg : ∀ x ∈ subWList d, good lib (erase x) = true)
    (hp : deref d [i] = [p]) :
    normalizeVisit lib d [i] = if removedAtVisit lib p.node then splice i [] d else d := by
  obtain ⟨x, hx, hid, he⟩ := deref_one d i p hp
  obtain ⟨n, up⟩ := p
  simp only at he
  subst he
  cases hr : removedAtVisit lib (erase x) with
  | false =>
    simp only [Bool.false_eq_true, if_false]
    exact normalizeVisit_single lib d i _ hp (fires_false lib x up (hg x hx) hr)
  | true =>
    simp only [if_true]
    have hi : ∀ y ∈ subWList d, y.id = i →
        (removedAtVisit lib (erase y) || blocklisted (erase y)) = true := by
      intro y hy hyi
      have : y = x := id_unique d hn y x hy hx (hyi.trans hid.symm)
      rw [this, hr]
      rfl
    have hn1 := nodup_splice i d hn
    have hg1 := good_splice lib i d hi hg
    have hrm : Remove (splice i [] d) [i] = splice i [] d := by
      rw [Remove_single, splice_twice i d hn]
    have hgx := hg x hx
    unfold good at hgx
    rw [Bool.and_eq_true] at hgx
    unfold normalizeVisit
    simp only [hp]
    by_cases h1 : NodeName [(⟨erase x, up⟩ : Ptr)] = "#comment".toList
    · rw [if_pos h1, Remove_single]
    · rw [if_neg h1]
      cases hcr : canBeRemove lib [(⟨erase x, up⟩ : Ptr)] with
      | true => simp only [if_true, Remove_single]
      | false =>
        simp only [Bool.false_eq_true, if_false]
        cases hcls : classHit [(⟨erase x, up⟩ : Ptr)] with
        | true =>
          unfold classHit at hcls
          cases ha : Attr [(⟨erase x, up⟩ : Ptr)] "class".toList with
          | none =>
            rw [ha] at hcls
            exact Bool.noConfusion hcls
          | some val =>
            rw [ha] at hcls
            simp only at hcls
            simp only []
            rw [foldl_class_remove d i val ignoreClass hn hcls]
            have hfind : NodeName [(⟨erase x, up⟩ : Ptr)] = "p".toList →
                FindIds (splice i [] d) [i]
                  (.tags (["span", "strong", "em", "b"].map String.toList)) = [] := by
              intro hpn
              rcases deref_cases (splice i [] d) i with ⟨-, hget⟩ | ⟨p1, hp1⟩
              · exact FindIds_none _ _ _ hget
              · obtain ⟨x1, hx1, hid1, he1⟩ := deref_one _ i p1 hp1
                have hsh := shell_unique d (splice i [] d) (records_splice i d) hn x x1 hx hx1
                  (hid1.trans hid.symm)
                have hg1' := hg1 x1 hx1
                unfold good at hg1'
                rw [Bool.and_eq_true] at hg1'
                have hname1 : NodeName [(⟨erase x1, []⟩ : Ptr)] = "p".toList := by
                  rw [NodeName_shell, hsh, ← NodeName_shell (erase x) up]
                  exact hpn
                have hB := hg1'.2
                rw [hname1] at hB
                simp only [beq_self_eq_true, Bool.not_true, Bool.false_or, List.isEmpty_iff] at hB
                obtain ⟨n1, up1⟩ := p1
                simp only at he1
                subst he1
                refine FindIds_nil _ i _ _ hp1 ?_
                rw [Find_erase_nil] at hB ⊢
                exact hB
            have hdom2 : (if NodeName [(⟨erase x, up⟩ : Ptr)] = "p".toList then
                  (FindIds (splice i [] d) [i]
                      (.tags (["span", "strong", "em", "b"].map String.toList))).foldl
                    (fun d' child => ReplaceWithHtml lib d' [child] (Text (deref d' [child])))
                    (splice i [] d)
                else splice i [] d) = splice i [] d := by
              split_ifs with hpn
              · rw [hfind hpn]
                rfl
              · rfl
            rw [hdom2]
            split_ifs
            · exact hrm
            · rfl
            · rfl
        | false =>
          have hname : NodeName [(⟨erase x, up⟩ : Ptr)] = NodeName [(⟨erase x, []⟩ : Ptr)] := rfl
          have hattr : classHit [(⟨erase x, up⟩ : Ptr)] = classHit [(⟨erase x, []⟩ : Ptr)] := rfl
          have hrn : removedByName (erase x) = false := by
            unfold removedByName
            rw [← hname, ← hattr, hcls, Bool.or_false, beq_eq_false_iff_ne]
            exact h1
          unfold removedAtVisit at hr
          rw [hrn, Bool.false_or, Bool.and_eq_true] at hr
          obtain ⟨hem, hho⟩ := hr
          have hpn : NodeName [(⟨erase x, up⟩ : Ptr)] = "p".toList := by
            unfold emptiable at hem
            rw [Bool.or_eq_true] at hem
            rcases hem with hem | hem
            · have := (canBeRemove_iff lib (erase x) up).mpr ⟨hem, hho⟩
              rw [hcr] at this
              exact Bool.noConfusion this
            · rw [hname]
              exact beq_iff_eq.mp hem
          have hB := hgx.2
          rw [← hname, hpn] at hB
          simp only [beq_self_eq_true, Bool.not_true, Bool.false_or, List.isEmpty_iff] at hB
          have hF : FindIds d [i] (.tags (["span", "strong", "em", "b"].map String.toList)) = [] := by
            refine FindIds_nil d i _ _ hp ?_
            rw [Find_erase_nil] at hB ⊢
            exact hB
          have hcond := (hollow_iff (erase x) up).mp hho
          have hcond' : (Children [(⟨erase x, up⟩ : Ptr)]).length ≤ 0
              ∧ (TrimSpace (Text [(⟨erase x, up⟩ : Ptr)])).length = 0 :=
            ⟨hcond.1, by rw [hcond.2]; rfl⟩
          unfold classHit at hcls
          cases ha : Attr [(⟨erase x, up⟩ : Ptr)] "class".toList with
          | none =>
            simp only [if_pos hpn, hF, List.foldl_nil, hp]
            rw [if_pos hcond', Remove_single]
          | some val =>
            rw [ha] at hcls
            simp only [foldl_class_noop d [i] val ignoreClass hcls, if_pos hpn, hF, List.foldl_nil, hp]
            rw [if_pos hcond', Remove_single]

theorem Shrunk.refl (lib : Lib) (d : Dom) : Shrunk lib d d :=
  ⟨fun _ h => h, fun _ _ h => h, fun _ h => h, fun x hx => ⟨x, hx, rfl, fun h => h⟩⟩

theorem Shrunk.trans {lib : Lib} {d1 d2 d3 : Dom} (h12 : Shrunk lib d1 d2)
    (h23 : Shrunk lib d2 d3) : Shrunk lib d1 d3 := by
  refine ⟨fun _ h => h12.1 (h23.1 h), fun m _ h => h12.2.1 m (h23.2.1 m h),
    fun _ h => h12.2.2.1 (h23.2.2.1 h), ?_⟩
  intro x3 hx3
  obtain ⟨x2, hx2, e2, k2⟩ := h23.2.2.2 x3 hx3
  obtain ⟨x1, hx1, e1, k1⟩ := h12.2.2.2 x2 hx2
  exact ⟨x1, hx1, e1.trans e2, fun h => k2 (k1 h)⟩

theorem kidsOf_root (r : WNode) (rest : Dom) (h : r.id = 1) : kidsOf (r :: rest) 1 = r.kids := by
  cases r with
  | mk i t d a ks =>
    simp only [WNode.id] at h
    subst h
    simp [kidsOf, getList, getNode, WNode.kids]

theorem FindIds_root (r : WNode) (rest : Dom) (h : r.id = 1) (m : Matcher) :
    FindIds (r :: rest) [1] m
      = (r.kids.filter fun k => (erase k).type == NodeType.ElementNode).flatMap (matchIds m) := by
  simp only [FindIds, List.flatMap_cons, List.flatMap_nil, List.append_nil, kidsOf_root r rest h]

theorem Shrunk_splice (lib : Lib) (i : Nat) (d : Dom)
    (hroot : ∃ r rest, d = r :: rest ∧ r.id = 1)
    (hi : ∀ x ∈ subWList d, x.id = i →
      (removedAtVisit lib (erase x) || blocklisted (erase x)) = true)
    (hg : ∀ x ∈ subWList d, good lib (erase x) = true) :
    Shrunk lib d (splice i [] d) := by
  refine ⟨kidIds_splice_subset i _, ?_, ?_, fun x2 hx2 => splice_keeps lib i d hi hg x2 hx2⟩
  · obtain ⟨r, rest, rfl, hr⟩ := hroot
    obtain ⟨tail, ht⟩ := splice_cons i r rest
    have hr' : (spliceNode i [] r).1.id = 1 := by rw [spliceNode_id]; exact hr
    intro m j hj
    rw [ht, FindIds_root _ _ hr', spliceNode_kids] at hj
    rw [FindIds_root _ _ hr]
    exact findKids_splice m i r.kids j hj
  · obtain ⟨r, rest, rfl, hr⟩ := hroot
    obtain ⟨tail, ht⟩ := splice_cons i r rest
    have hr' : (spliceNode i [] r).1.id = 1 := by rw [spliceNode_id]; exact hr
    intro j hj
    rw [ht, kidsOf_root _ _ hr', spliceNode_kids] at hj
    rw [kidsOf_root _ _ hr]
    exact (spliceList_ids i r.kids).subset (List.mem_append_left _ hj)

theorem Inv_splice (lib : Lib) (d0 d : Dom) (i : Nat) (h : Inv lib d0 d)
    (hi : ∀ x ∈ subWList d, x.id = i →
      (removedAtVisit lib (erase x) || blocklisted (erase x)) = true) :
    Inv lib d0 (splice i [] d) := by
  obtain ⟨h1, h2, h3, r, rest, rfl, hr⟩ := h
  refine ⟨(records_splice i _).trans h1, nodup_splice i _ h2, good_splice lib i _ hi h3, ?_⟩
  obtain ⟨tail, ht⟩ := splice_cons i r rest
  exact ⟨_, tail, ht, by rw [spliceNode_id]; exact hr⟩

theorem Inv_nodup0 (lib : Lib) (d0 d : Dom) (h : Inv lib d0 d) : (walkIdsList d0).Nodup := by
  have h2 := h.2.1
  rw [walkIdsList_records] at h2 ⊢
  exact ((h.1.map Prod.fst).nodup_iff).mp h2

theorem Inv_ids (lib : Lib) (d0 d : Dom) (h : Inv lib d0 d) (i : Nat) :
    i ∈ walkIdsList d ↔ i ∈ walkIdsList d0 := by
  rw [walkIdsList_records, walkIdsList_records]
  exact (h.1.map Prod.fst).mem_iff

/-- The node `i` of the memory `d` has the type, data and attributes of the node
`i` of `d0`. -/
theorem Inv_shell (lib : Lib) (d0 d : Dom) (h : Inv lib d0 d) (x0 x : WNode)
    (hx0 : x0 ∈ subWList d0) (hx : x ∈ subWList d) (e : x.id = x0.id) :
    (erase x).shell = (erase x0).shell :=
  shell_unique d0 d h.1 (Inv_nodup0 lib d0 d h) x0 x hx0 hx e

mutual
theorem matchIds_mem : ∀ (m : Matcher) (w : WNode) (j : Nat),
    j ∈ matchIds m w → ∃ y ∈ subW w, y.id = j ∧ m.Match (erase y) = true
  | m, .mk i t d a ks, j => by
    intro h
    simp only [matchIds, List.mem_append] at h
    rcases h with h | h
    · split_ifs at h with hm
      · simp only [List.mem_singleton] at h
        subst h
        exact ⟨_, self_mem_subW _, rfl, hm⟩
      · simp at h
    · obtain ⟨y, hy, h1, h2⟩ := matchIdsList_mem m ks j h
      exact ⟨y, kids_subW (.mk i t d a ks) hy, h1, h2⟩
theorem matchIdsList_mem : ∀ (m : Matcher) (ks : List WNode) (j : Nat),
    j ∈ matchIdsList m ks → ∃ y ∈ subWList ks, y.id = j ∧ m.Match (erase y) = true
  | _, [], _ => by
    intro h
    simp [matchIdsList] at h
  | m, k :: ks, j => by
    intro h
    simp only [matchIdsList, List.mem_append] at h
    simp only [subWList, List.mem_append]
    rcases h with h | h
    · obtain ⟨y, hy, h1, h2⟩ := matchIds_mem m k j h
      exact ⟨y, Or.inl hy, h1, h2⟩
    · obtain ⟨y, hy, h1, h2⟩ := matchIdsList_mem m ks j h
      exact ⟨y, Or.inr hy, h1, h2⟩
end

/-- A match of `Find` below the node 1 is a node with a parent that the matcher
accepts. -/
theorem FindIds_mem (d : Dom) (hroot : ∃ r rest, d = r :: rest ∧ r.id = 1)
    (m : Matcher) (j : Nat) (hj : j ∈ FindIds d [1] m) :
    j ∈ kidIds d ∧ ∃ y ∈ subWList d, y.id = j ∧ m.Match (erase y) = true := by
  obtain ⟨r, rest, rfl, hr⟩ := hroot
  rw [FindIds_root r rest hr] at hj
  simp only [List.mem_flatMap, List.mem_filter] at hj
  obtain ⟨k, ⟨hk, -⟩, hjk⟩ := hj
  obtain ⟨y, hy, h1, h2⟩ := matchIds_mem m k j hjk
  have hyk : y ∈ subWList r.kids := mem_subWList.mpr ⟨k, hk, hy⟩
  constructor
  · refine mem_kidIds.mpr ⟨r, List.mem_cons_self _ _, ?_⟩
    rw [walkIdsList_eq]
    exact List.mem_map.mpr ⟨y, hyk, h1⟩
  · refine ⟨y, ?_, h1, h2⟩
    simp only [subWList, List.mem_append]
    exact Or.inl (kids_subW r hyk)

theorem Inv_origin (lib : Lib) (d0 d : Dom) (h : Inv lib d0 d) (x : WNode)
    (hx : x ∈ subWList d) :
    ∃ x0 ∈ subWList d0, x0.id = x.id ∧ (erase x).shell = (erase x0).shell := by
  have h1 : x.id ∈ walkIdsList d := by
    rw [walkIdsList_eq]
    exact List.mem_map.mpr ⟨x, hx, rfl⟩
  rw [Inv_ids lib d0 d h, walkIdsList_eq] at h1
  obtain ⟨x0, hx0, e⟩ := List.mem_map.mp h1
  exact ⟨x0, hx0, e, Inv_shell lib d0 d h x0 x hx0 hx e.symm⟩

theorem Remove_cons (d : Dom) (j : Nat) (J : List Nat) :
    Remove d (j :: J) = Remove (splice j [] d) J := rfl

theorem Remove_inv (lib : Lib) (d0 : Dom) : ∀ (J : List Nat) (d : Dom), Inv lib d0 d →
    (∀ j ∈ J, ∀ x0 ∈ subWList d0, x0.id = j → blocklisted (erase x0) = true) →
    Inv lib d0 (Remove d J) ∧ Shrunk lib d (Remove d J) ∧ ∀ j ∈ J, j ∉ kidIds (Remove d J)
  | [], d => by
    intro h _
    exact ⟨h, Shrunk.refl lib d, fun j hj => absurd hj (List.not_mem_nil j)⟩
  | j :: J, d => by
    intro h hJ
    have hi : ∀ x ∈ subWList d, x.id = j →
        (removedAtVisit lib (erase x) || blocklisted (erase x)) = true := by
      intro x hx hxj
      obtain ⟨x0, hx0, e, hs⟩ := Inv_origin lib d0 d h x hx
      have := hJ j (List.mem_cons_self _ _) x0 hx0 (e.trans hxj)
      rw [blocklisted_shell, hs, ← blocklisted_shell, this, Bool.or_true]
    have h1 := Inv_splice lib d0 d j h hi
    have s1 := Shrunk_splice lib j d h.2.2.2 hi h.2.2.1
    have n1 := not_mem_kidIds_splice j d h.2.1
    obtain ⟨h2, s2, n2⟩ := Remove_inv lib d0 J (splice j [] d) h1
      (fun j' hj' => hJ j' (List.mem_cons_of_mem _ hj'))
    rw [Remove_cons]
    refine ⟨h2, s1.trans s2, ?_⟩
    intro j' hj'
    rcases List.mem_cons.mp hj' with rfl | hj'
    · exact fun hk => n1 (s2.1 hk)
    · exact n2 j' hj'

theorem blocklisted_of_Match (v : Str) (hv : v ∈ ignoreTag) (n : Node)
    (h : (Matcher.tags [v]).Match n = true) : blocklisted n = true := by
  unfold Matcher.Match at h
  unfold blocklisted
  simp only [Bool.and_eq_true, beq_iff_eq, List.contains_cons, List.contains_nil,
    Bool.or_false] at h ⊢
  refine ⟨h.1, ?_⟩
  rw [h.2]
  exact List.elem_eq_true_of_mem hv

/-- The first loop of `normalize`: afterwards `Find` gives no node for a tag of
the list. -/
theorem tags_inv (lib : Lib) (d0 : Dom) : ∀ (l : List Str) (d : Dom),
    (∀ v ∈ l, v ∈ ignoreTag) → Inv lib d0 d →
    Inv lib d0 (l.foldl (fun d v => Remove d (FindIds d [1] (.tags [v]))) d)
      ∧ Shrunk lib d (l.foldl (fun d v => Remove d (FindIds d [1] (.tags [v]))) d)
      ∧ ∀ v ∈ l, FindIds (l.foldl (fun d v => Remove d (FindIds d [1] (.tags [v]))) d) [1]
          (.tags [v]) = []
  | [], d => by
    intro _ h
    exact ⟨h, Shrunk.refl lib d, fun v hv => absurd hv (List.not_mem_nil v)⟩
  | v :: l, d => by
    intro hl h
    have hv : v ∈ ignoreTag := hl v (List.mem_cons_self _ _)
    have hJ : ∀ j ∈ FindIds d [1] (.tags [v]), ∀ x0 ∈ subWList d0, x0.id = j →
        blocklisted (erase x0) = true := by
      intro j hj x0 hx0 e
      obtain ⟨-, y, hy, hyj, hm⟩ := FindIds_mem d h.2.2.2 _ j hj
      have hs := Inv_shell lib d0 d h x0 y hx0 hy (hyj.trans e.symm)
      have hb := blocklisted_of_Match v hv _ hm
      rw [blocklisted_shell, hs, ← blocklisted_shell] at hb
      exact hb
    obtain ⟨h1, s1, n1⟩ := Remove_inv lib d0 (FindIds d [1] (.tags [v])) d h hJ
    have hempty : FindIds (Remove d (FindIds d [1] (.tags [v]))) [1] (.tags [v]) = [] := by
      rw [List.eq_nil_iff_forall_not_mem]
      intro j hj
      exact n1 j (s1.2.1 _ hj) (FindIds_mem _ h1.2.2.2 _ j hj).1
    obtain ⟨h2, s2, n2⟩ := tags_inv lib d0 l (Remove d (FindIds d [1] (.tags [v]))) 
      (fun v' hv' => hl v' (List.mem_cons_of_mem _ hv')) h1
    rw [List.foldl_cons]
    refine ⟨h2, s1.trans s2, ?_⟩
    intro v' hv'
    rcases List.mem_cons.mp hv' with rfl | hv'
    · rw [List.eq_nil_iff_forall_not_mem]
      intro j hj
      have := s2.2.1 _ hj
      rw [hempty] at this
      exact absurd this (List.not_mem_nil j)
    · exact n2 v' hv'

/-- One step of the second loop: the node is taken out, or nothing changes and
the node is one the loop does not remove, with a child that stays where it
needs one. -/
theorem visit_step (lib : Lib) (d0 d : Dom) (i : Nat) (h : Inv lib d0 d) :
    Inv lib d0 (normalizeVisit lib d [i]) ∧ Shrunk lib d (normalizeVisit lib d [i])
      ∧ (i ∈ kidIds (normalizeVisit lib d [i]) →
          ∀ x ∈ subWList (normalizeVisit lib d [i]), x.id = i →
            removedByName (erase x) = false
              ∧ (emptiable lib (erase x) = true →
                (erase x).children.any (stays lib (erase x)) = true)) := by
  rcases deref_cases d i with ⟨hnil, -⟩ | ⟨p, hp⟩
  · rw [normalizeVisit_nil lib d [i] hnil]
    refine ⟨h, Shrunk.refl lib d, ?_⟩
    intro hk
    obtain ⟨p, hp⟩ := deref_of_mem d i (kidIds_subset_ids d hk)
    rw [hnil] at hp
    exact absurd hp (by simp)
  · rw [normalizeVisit_eq lib d i p h.2.1 h.2.2.1 hp]
    obtain ⟨x, hx, hid, he⟩ := deref_one d i p hp
    cases hr : removedAtVisit lib p.node with
    | true =>
      simp only [if_true]
      have hi : ∀ y ∈ subWList d, y.id = i →
          (removedAtVisit lib (erase y) || blocklisted (erase y)) = true := by
        intro y hy hyi
        have : y = x := id_unique d h.2.1 y x hy hx (hyi.trans hid.symm)
        rw [this, he, hr]
        rfl
      exact ⟨Inv_splice lib d0 d i h hi, Shrunk_splice lib i d h.2.2.2 hi h.2.2.1,
        fun hk => absurd hk (not_mem_kidIds_splice i d h.2.1)⟩
    | false =>
      simp only [Bool.false_eq_true, if_false]
      refine ⟨h, Shrunk.refl lib d, ?_⟩
      intro _ y hy hyi
      have hyx : y = x := id_unique d h.2.1 y x hy hx (hyi.trans hid.symm)
      rw [hyx, he]
      rw [← he] at hr
      unfold removedAtVisit at hr
      rw [Bool.or_eq_false_iff, Bool.and_eq_false_iff] at hr
      rw [← he]
      refine ⟨hr.1, ?_⟩
      intro hem
      have hgx := h.2.2.1 x hx
      unfold good at hgx
      rw [Bool.and_eq_true, Bool.or_eq_true, Bool.or_eq_true, Bool.or_eq_true] at hgx
      rcases hgx.1 with ((hA | hA) | hA) | hA
      · rw [hem] at hA; exact Bool.noConfusion hA
      · rw [hr.1] at hA; exact Bool.noConfusion hA
      · rcases hr.2 with h2 | h2
        · rw [hem] at h2; exact Bool.noConfusion h2
        · rw [hA] at h2; exact Bool.noConfusion h2
      · exact hA

/-- The second loop of `normalize`: a visited node that still has a parent at the
end is one the loop does not remove. -/
theorem visits_inv (lib : Lib) (d0 : Dom) : ∀ (l : List (List Nat)) (d : Dom),
    (∀ v ∈ l, ∃ i, v = [i]) → Inv lib d0 d →
    Inv lib d0 (l.foldl (normalizeVisit lib) d) ∧ Shrunk lib d (l.foldl (normalizeVisit lib) d)
      ∧ ∀ i, [i] ∈ l → i ∈ kidIds (l.foldl (normalizeVisit lib) d) →
          ∀ w ∈ subWList (l.foldl (normalizeVisit lib) d), w.id = i →
            removedAtVisit lib (erase w) = false
  | [], d => by
    intro _ h
    exact ⟨h, Shrunk.refl lib d, fun i hi => absurd hi (List.not_mem_nil _)⟩
  | v :: l, d => by
    intro hl h
    obtain ⟨i0, rfl⟩ := hl v (List.mem_cons_self _ _)
    obtain ⟨h1, s1, n1⟩ := visit_step lib d0 d i0 h
    obtain ⟨h2, s2, n2⟩ := visits_inv lib d0 l (normalizeVisit lib d [i0])
      (fun v' hv' => hl v' (List.mem_cons_of_mem _ hv')) h1
    rw [List.foldl_cons]
    refine ⟨h2, s1.trans s2, ?_⟩
    intro i hi hk w hw hwi
    rcases List.mem_cons.mp hi with hi | hi
    · have : i = i0 := by simpa using hi
      subst this
      obtain ⟨x1, hx1, e1, keep⟩ := s2.2.2.2 w hw
      obtain ⟨hrn, hst⟩ := n1 (s2.1 hk) x1 hx1 (e1.trans hwi)
      obtain ⟨x0, hx0, e0, hs0⟩ := Inv_origin lib d0 _ h1 x1 hx1
      have hsw := Inv_shell lib d0 _ h2 x0 w hx0 hw (e1.symm.trans e0.symm)
      have hs : (erase w).shell = (erase x1).shell := hsw.trans hs0.symm
      unfold removedAtVisit
      rw [Bool.or_eq_false_iff, Bool.and_eq_false_iff]
      constructor
      · rw [removedByName_shell, hs, ← removedByName_shell]
        exact hrn
      · cases hem : emptiable lib (erase w) with
        | false => exact Or.inl rfl
        | true =>
          right
          rw [emptiable_shell, hs, ← emptiable_shell] at hem
          exact not_hollow_of_stays lib _ (keep (hst hem))
    · exact n2 i hi hk w hw hwi

theorem labelNode_id (n : Node) (k : Nat) : (labelNode k n).1.id = k := by
  cases n; rfl

theorem Inv_load (lib : Lib) (t : Node) (h : steady lib t = true) :
    Inv lib (load t) (load t) := by
  refine ⟨List.Perm.refl _, ?_, ?_, ⟨_, [], rfl, labelNode_id t 1⟩⟩
  · simp only [load, walkIdsList, List.append_nil]
    exact (labelNode_ids t 1).2.2
  · intro x hx
    simp only [load, subWList, List.append_nil] at hx
    unfold steady at h
    rw [List.all_eq_true] at h
    have h1 : erase x ∈ (walkNode [] (erase (labelNode 1 t).1)).map Ptr.node := by
      rw [walkNode_erase]
      exact List.mem_map.mpr ⟨x, hx, rfl⟩
    rw [erase_labelNode] at h1
    obtain ⟨p, hp, e⟩ := List.mem_map.mp h1
    rw [← e]
    exact h p hp

theorem labelNode_kids (n : Node) (k : Nat) :
    (labelNode k n).1.kids = (labelList (k + 1) n.children).1 := by
  cases n; rfl

theorem not_mem_kidIds_load (t : Node) : 1 ∉ kidIds (load t) := by
  intro h
  obtain ⟨r, hr, hj⟩ := mem_kidIds.mp h
  simp only [load, List.mem_singleton] at hr
  subst hr
  rw [labelNode_kids] at hj
  have := ((labelList_ids t.children 2).2.1 1 hj).1
  omega

theorem Remove_load_root (t : Node) : Remove (load t) [1] = load t := by
  rw [Remove_single]
  exact splice_noop 1 [] (load t) (not_mem_kidIds_load t)

/-- The step of the second loop for the root of the tree changes nothing when
the root is no `p` with a `span`, `strong`, `em` or `b` descendant: a node
without a parent is not removed. -/
theorem normalizeVisit_root (lib : Lib) (t : Node)
    (hroot : NodeName [(⟨t, []⟩ : Ptr)] = "p".toList →
      Find [⟨t, []⟩] (.tags (["span", "strong", "em", "b"].map String.toList)) = []) :
    normalizeVisit lib (load t) [1] = load t := by
  have hd := deref_load_root t
  have hrm := Remove_load_root t
  have hfold : ∀ val : Str,
      ignoreClass.foldl (fun d' cls => if Contains val cls then Remove d' [1] else d') (load t)
        = load t := by
    intro val
    apply foldl_noop
    intro c _
    split_ifs
    · exact hrm
    · rfl
  have htail : (if NodeName
        (deref (if NodeName [(⟨t, []⟩ : Ptr)] = "p".toList then
          (FindIds (load t) [1] (.tags (["span", "strong", "em", "b"].map String.toList))).foldl
            (fun d child => ReplaceWithHtml lib d [child] (Text (deref d [child]))) (load t)
          else load t) [1]) = "p".toList then
        if (Children (deref (if NodeName [(⟨t, []⟩ : Ptr)] = "p".toList then
          (FindIds (load t) [1] (.tags (["span", "strong", "em", "b"].map String.toList))).foldl
            (fun d child => ReplaceWithHtml lib d [child] (Text (deref d [child]))) (load t)
          else load t) [1])).length ≤ 0
          ∧ (TrimSpace (Text (deref (if NodeName [(⟨t, []⟩ : Ptr)] = "p".toList then
          (FindIds (load t) [1] (.tags (["span", "strong", "em", "b"].map String.toList))).foldl
            (fun d child => ReplaceWithHtml lib d [child] (Text (deref d [child]))) (load t)
          else load t) [1]))).length = 0 then
          Remove (if NodeName [(⟨t, []⟩ : Ptr)] = "p".toList then
          (FindIds (load t) [1] (.tags (["span", "strong", "em", "b"].map String.toList))).foldl
            (fun d child => ReplaceWithHtml lib d [child] (Text (deref d [child]))) (load t)
          else load t) [1]
        else (if NodeName [(⟨t, []⟩ : Ptr)] = "p".toList then
          (FindIds (load t) [1] (.tags (["span", "strong", "em", "b"].map String.toList))).foldl
            (fun d child => ReplaceWithHtml lib d [child] (Text (deref d [child]))) (load t)
          else load t)
      else (if NodeName [(⟨t, []⟩ : Ptr)] = "p".toList then
          (FindIds (load t) [1] (.tags (["span", "strong", "em", "b"].map String.toList))).foldl
            (fun d child => ReplaceWithHtml lib d [child] (Text (deref d [child]))) (load t)
          else load t)) = load t := by
    have hdom2 : (if NodeName [(⟨t, []⟩ : Ptr)] = "p".toList then
          (FindIds (load t) [1] (.tags (["span", "strong", "em", "b"].map String.toList))).foldl
            (fun d child => ReplaceWithHtml lib d [child] (Text (deref d [child]))) (load t)
          else load t) = load t := by
      split_ifs with hp
      · rw [FindIds_nil (load t) 1 ⟨t, []⟩ _ hd (hroot hp)]
        rfl
      · rfl
    rw [hdom2, hrm]
    simp only [ite_self]
  unfold normalizeVisit
  simp only [hd, hrm]
  cases ha : Attr [(⟨t, []⟩ : Ptr)] "class".toList with
  | none =>
    simp only [htail, ite_self]
  | some val =>
    simp only [hfold val, htail, ite_self]

theorem deref_load_kid (t : Node) (d : Nat) (p : Ptr) (hd : d ≠ 1)
    (h : deref (load t) [d] = [p]) : p ∈ walkList [t] t.children := by
  have hl : locateList d [] (load t) = some p := by
    simp only [deref, List.filterMap_cons, List.filterMap_nil] at h
    cases hh : locateList d [] (load t) with
    | none => rw [hh] at h; exact absurd h (by simp)
    | some q => rw [hh] at h; simpa using h
  have he := erase_labelNode t 1
  cases t with
  | mk ty dt a cs =>
    simp only [labelNode] at he
    simp only [load, labelNode, locateList, locateNode, if_neg (Ne.symm hd), he] at hl
    have hk : locateList d [Node.mk ty dt a cs] (labelList 2 cs).1 = some p := by
      cases hh : locateList d [Node.mk ty dt a cs] (labelList (1 + 1) cs).1 with
      | none => rw [hh] at hl; exact absurd hl (by simp)
      | some q => rw [hh] at hl; simpa using hl
    have := locateList_mem _ d _ p hk
    rw [eraseList_labelList] at this
    exact this

/-- On a tree without a node of a blocklisted tag below the root, in which no
step applies to a node below the root, and whose root is no `p` with an inline
descendant, `normalize` changes nothing. -/
theorem normalize_quiet (lib : Lib) (t : Node)
    (htag : ∀ v ∈ ignoreTag, Find [⟨t, []⟩] (.tags [v]) = [])
    (hkids : ∀ p ∈ walkList [t] t.children, fires lib [p] = false)
    (hroot : NodeName [(⟨t, []⟩ : Ptr)] = "p".toList →
      Find [⟨t, []⟩] (.tags (["span", "strong", "em", "b"].map String.toList)) = []) :
    normalize lib (load t) [1] = load t := by
  have h1 : ignoreTag.foldl (fun d v => Remove d (FindIds d [1] (.tags [v]))) (load t) = load t := by
    apply foldl_noop
    intro v hv
    rw [FindIds_nil (load t) 1 ⟨t, []⟩ _ (deref_load_root t) (htag v hv)]
    rfl
  unfold normalize
  simp only [h1]
  apply foldl_noop
  intro v hv
  have hsingle : ∃ d, v = [d] := by
    rcases mem_iteratorIds _ _ _ hv with rfl | hd
    · exact ⟨1, rfl⟩
    · exact hd
  obtain ⟨d, rfl⟩ := hsingle
  by_cases hd : d = 1
  · subst hd
    exact normalizeVisit_root lib t hroot
  · rcases deref_cases (load t) d with ⟨hn, -⟩ | ⟨p, hp⟩
    · exact normalizeVisit_nil lib _ _ hn
    · exact normalizeVisit_single lib _ d p hp (hkids p (deref_load_kid t d p hd hp))

theorem deref_root (r : WNode) (rest : Dom) (h : r.id = 1) :
    deref (r :: rest) [1] = [⟨erase r, []⟩] := by
  cases r with
  | mk i t d a ks =>
    simp only [WNode.id] at h
    subst h
    simp only [deref, List.filterMap_cons, List.filterMap_nil, locateList, locateNode, if_true]

/-- On a `steady` tree the first run of `normalize` leaves, below the root, no
element of a blocklisted tag that `Find` reaches and no node that a step of the
second loop applies to, and at the root no `p` with an inline descendant. -/
theorem normalize_steady (lib : Lib) (t : Node) (h : steady lib t = true) :
    (∀ v ∈ ignoreTag, Find [⟨normalizeTree lib t, []⟩] (.tags [v]) = [])
      ∧ (∀ p ∈ walkList [normalizeTree lib t] (normalizeTree lib t).children,
          fires lib [p] = false)
      ∧ (NodeName [(⟨normalizeTree lib t, []⟩ : Ptr)] = "p".toList →
          Find [⟨normalizeTree lib t, []⟩]
            (.tags (["span", "strong", "em", "b"].map String.toList)) = []) := by
  obtain ⟨hT, sT, nT⟩ := tags_inv lib (load t) ignoreTag (load t) (fun _ hv => hv)
    (Inv_load lib t h)
  obtain ⟨hF, sF, nF⟩ := visits_inv lib (load t)
    (iteratorIds (ignoreTag.foldl (fun d v => Remove d (FindIds d [1] (.tags [v]))) (load t)) [1])
    _ (fun v hv => by
      rcases mem_iteratorIds _ _ _ hv with rfl | hd
      · exact ⟨1, rfl⟩
      · exact hd) hT
  have hnorm : normalize lib (load t) [1]
      = (iteratorIds (ignoreTag.foldl (fun d v => Remove d (FindIds d [1] (.tags [v])))
          (load t)) [1]).foldl (normalizeVisit lib)
          (ignoreTag.foldl (fun d v => Remove d (FindIds d [1] (.tags [v]))) (load t)) := rfl
  rw [← hnorm] at hF sF nF
  generalize hdT : ignoreTag.foldl (fun d v => Remove d (FindIds d [1] (.tags [v]))) (load t)
    = dT at hT sT nT hF sF nF
  generalize hdF : normalize lib (load t) [1] = dF at hF sF nF
  obtain ⟨r, rest, rfl, hr⟩ := hF.2.2.2
  have htree : normalizeTree lib t = erase r := by
    unfold normalizeTree
    rw [hdF, deref_root r rest hr]
  rw [htree]
  have hgood : ∀ x ∈ subW r, good lib (erase x) = true := fun x hx =>
    hF.2.2.1 x (by simp only [subWList, List.mem_append]; exact Or.inl hx)
  refine ⟨?_, ?_, ?_⟩
  · intro v hv
    rw [Find_erase_nil, ← FindIds_root r rest hr, List.eq_nil_iff_forall_not_mem]
    intro j hj
    have := sF.2.1 _ hj
    rw [nT v hv] at this
    exact absurd this (List.not_mem_nil j)
  · intro p hp
    rw [erase_children, ← eraseList_eq_map] at hp
    have h1 : p.node ∈ (walkList [erase r] (eraseList r.kids)).map Ptr.node :=
      List.mem_map.mpr ⟨p, hp, rfl⟩
    rw [walkList_erase] at h1
    obtain ⟨w, hw, e⟩ := List.mem_map.mp h1
    obtain ⟨n, up⟩ := p
    simp only at e
    subst e
    have hwr : w ∈ subW r := kids_subW r hw
    have hwd : w ∈ subWList (r :: rest) := by
      simp only [subWList, List.mem_append]; exact Or.inl hwr
    have hid : w.id ∈ walkIdsList r.kids := by
      rw [walkIdsList_eq]
      exact List.mem_map.mpr ⟨w, hw, rfl⟩
    have hkid : w.id ∈ kidIds (r :: rest) :=
      mem_kidIds.mpr ⟨r, List.mem_cons_self _ _, hid⟩
    have hsnap : [w.id] ∈ iteratorIds dT [1] := by
      have h2 : w.id ∈ walkIdsList (kidsOf dT 1) := by
        apply sF.2.2.1
        rw [kidsOf_root r rest hr]
        exact hid
      simp only [iteratorIds, List.flatMap_cons, List.flatMap_nil, List.append_nil,
        List.mem_cons, List.mem_map]
      exact Or.inr ⟨w.id, h2, rfl⟩
    exact fires_false lib w up (hgood w hwr) (nF w.id hsnap hkid w hwd rfl)
  · intro hp
    have hg := hgood r (self_mem_subW r)
    unfold good at hg
    rw [Bool.and_eq_true] at hg
    have hB := hg.2
    rw [hp] at hB
    simpa using hB

/-- C8, amended: on a `steady` tree `t` the first run of `normalize` leaves, below
the root, no element of a blocklisted tag and no node that a step of the second
loop applies to, and running `normalize` a second time yields the same tree as
running it once. -/
theorem normalizeTree_twice (lib : Lib) (t : Node) (h : steady lib t = true) :
    normalizeTree lib (normalizeTree lib t) = normalizeTree lib t
      ∧ (∀ v ∈ ignoreTag, Find [⟨normalizeTree lib t, []⟩] (.tags [v]) = [])
      ∧ ∀ p ∈ walkList [normalizeTree lib t] (normalizeTree lib t).children,
          fires lib [p] = false := by
  obtain ⟨h1, h2, h3⟩ := normalize_steady lib t h
  refine ⟨?_, h1, h2⟩
  generalize normalizeTree lib t = u at h1 h2 h3
  unfold normalizeTree
  rw [normalize_quiet lib u h1 h2 h3, deref_load_root]

set_option maxRecDepth 100000 in
theorem normalizeTree_twice_witness :
    steady (evalLib exMixed) exMixed = true
      ∧ outline (normalizeTree (evalLib exMixed) exMixed)
        = outline (.mk .ElementNode "body".toList [⟨"class".toList, "comments-open".toList⟩]
            [.elem "div" [.text "text"], .elem "h1" [.text "T"],
              .elem "section" [.elem "p" [.text "a"]]])
      ∧ normalizeTree (evalLib exMixed) (normalizeTree (evalLib exMixed) exMixed)
        = normalizeTree (evalLib exMixed) exMixed :=
  ⟨by decide!, by decide!, (normalizeTree_twice (evalLib exMixed) exMixed (by decide!)).1⟩

/-- C8, counterexample: `<body><section><p></p></section></body>` is not `steady`,
since the only child of `section` is an empty `p`; the first run removes the `p`
after it has visited `section` and yields `<body><section></section></body>`, and
the second run removes the `section` that the first run left empty. -/
theorem normalizeTree_not_idempotent :
    steady (evalLib exSection) exSection = false
      ∧ outline (normalizeTree (evalLib exSection) exSection)
        = outline (.elem "body" [.elem "section" []])
      ∧ outline (normalizeTree (evalLib exSection) (normalizeTree (evalLib exSection) exSection))
        = outline (.elem "body" [])
      ∧ normalizeTree (evalLib exSection) (normalizeTree (evalLib exSection) exSection)
        ≠ normalizeTree (evalLib exSection) exSection := by
  refine ⟨by decide!, by decide!, by decide!, ?_⟩
  intro h
  have := congrArg outline h
  revert this
  decide!

end Tsd
